import Mathlib

/-!
# flyaa: dual-search reconciliation and resilient request executor

A shallow embedding of the Go sources `flyaa.go`, `pkg/aa/aa.go` and
`pkg/aa/client.go`, followed by the properties established about them.

Conventions of the embedding

* Go `string` values are Lean `String`s (sequences of Unicode scalar values);
  every string the program inspects byte-wise has been produced by a
  rune-wise transformation or is compared against ASCII bytes only, so the
  byte view and the rune view agree on the tests that are made.
* Go `int` is Lean `Int`; the places where the 64-bit range matters
  (`strconv.ParseInt`, float to int conversion) check the range explicitly.
* Go `float64` is the type `F64` below: IEEE 754 binary64 with
  round-to-nearest-even arithmetic, computed exactly on integers.
-/

namespace Flyaa

/-- Equality of results `(value, error)` is decidable. -/
instance instDecidableEqExcept {ε α : Type} [DecidableEq ε] [DecidableEq α] :
    DecidableEq (Except ε α) := fun x y =>
  match x, y with
  | .ok a, .ok b => if h : a = b then isTrue (by rw [h]) else isFalse (by simp [h])
  | .error a, .error b => if h : a = b then isTrue (by rw [h]) else isFalse (by simp [h])
  | .ok _, .error _ => isFalse (by simp)
  | .error _, .ok _ => isFalse (by simp)

/-! ## IEEE 754 binary64 -/

/-- A binary64 value: `fin neg m e` is `(-1)^neg * m * 2^e`. The values the
operations produce are canonical: `m < 2^53`, `e ≤ 971`, and either
`2^52 ≤ m` with `-1074 ≤ e`, or `e = -1074` (subnormal), or `m = 0 ∧ e = 0`. -/
inductive F64 where
  | fin (neg : Bool) (m : Nat) (e : Int)
  | inf (neg : Bool)
  | nan
  deriving DecidableEq, Repr

namespace F64

/-- Number of binary digits of `n`, with `fuel` an upper bound on it. -/
def bitLenAux : Nat → Nat → Nat
  | 0, _ => 0
  | fuel + 1, n => if n = 0 then 0 else bitLenAux fuel (n / 2) + 1

/-- Number of binary digits of `n` (`0` for `0`). -/
def bitLen (n : Nat) : Nat := bitLenAux n n

/-- Numerator of `n / d / 2^e`. -/
def scaleNum (n : Nat) (e : Int) : Nat := if e ≤ 0 then n * 2 ^ (-e).toNat else n

/-- Denominator of `n / d / 2^e`. -/
def scaleDen (d : Nat) (e : Int) : Nat := if e ≤ 0 then d else d * 2 ^ e.toNat

/-- The exponent of the binade of `n / d` (for `n, d > 0`): the least `e ≥ -1074`
with `n / d < 2^53 * 2^e`. -/
def binade (n d : Nat) : Int :=
  let e0 : Int := max ((bitLen n : Int) - (bitLen d : Int) - 53) (-1074)
  if scaleNum n e0 / scaleDen d e0 < 2 ^ 53 then e0 else e0 + 1

/-- The integer nearest to `n / d`, ties to even. -/
def nearestEven (n d : Nat) : Nat :=
  let q := n / d
  let r := n % d
  if d < 2 * r ∨ (2 * r = d ∧ q % 2 = 1) then q + 1 else q

/-- Round the rational `(-1)^neg * n / d` (`d > 0`) to binary64, to nearest, ties to
even; a magnitude that rounds beyond the largest finite value gives an infinity. -/
def ofRatio (neg : Bool) (n d : Nat) : F64 :=
  if n = 0 then fin neg 0 0 else
  let e := binade n d
  let q := nearestEven (scaleNum n e) (scaleDen d e)
  if q = 0 then fin neg 0 0
  else if q = 2 ^ 53 then (if 971 < e + 1 then inf neg else fin neg (2 ^ 52) (e + 1))
  else if 971 < e then inf neg else fin neg q e

/-- Go `float64(n)` for an integer `n`. -/
def ofInt (n : Int) : F64 := ofRatio (decide (n < 0)) n.natAbs 1

/-- Negation `-x`. -/
def neg : F64 → F64
  | fin s m e => fin (!s) m e
  | inf s => inf (!s)
  | nan => nan

/-- The sum of two finite values `(-1)^s1 * m1 * 2^e1 + (-1)^s2 * m2 * 2^e2`. -/
def addFin (s1 : Bool) (m1 : Nat) (e1 : Int) (s2 : Bool) (m2 : Nat) (e2 : Int) : F64 :=
  let e := min e1 e2
  let a : Int := (if s1 then -1 else 1) * (m1 * 2 ^ (e1 - e).toNat : Nat)
  let b : Int := (if s2 then -1 else 1) * (m2 * 2 ^ (e2 - e).toNat : Nat)
  let r := a + b
  if r = 0 then fin (s1 && s2) 0 0
  else ofRatio (decide (r < 0)) (scaleNum r.natAbs (-e)) (scaleDen 1 (-e))

/-- Go `x + y`. -/
def add : F64 → F64 → F64
  | nan, _ => nan
  | _, nan => nan
  | inf s1, inf s2 => if s1 = s2 then inf s1 else nan
  | inf s1, fin _ _ _ => inf s1
  | fin _ _ _, inf s2 => inf s2
  | fin s1 m1 e1, fin s2 m2 e2 => addFin s1 m1 e1 s2 m2 e2

/-- Go `x - y`. -/
def sub (x y : F64) : F64 := add x (neg y)

/-- Go `x * y`. -/
def mul : F64 → F64 → F64
  | nan, _ => nan
  | _, nan => nan
  | inf s1, inf s2 => inf (xor s1 s2)
  | inf s1, fin s2 m2 _ => if m2 = 0 then nan else inf (xor s1 s2)
  | fin s1 m1 _, inf s2 => if m1 = 0 then nan else inf (xor s1 s2)
  | fin s1 m1 e1, fin s2 m2 e2 =>
      ofRatio (xor s1 s2) (scaleNum (m1 * m2) (-(e1 + e2))) (scaleDen 1 (-(e1 + e2)))

/-- Go `x / y`. -/
def div : F64 → F64 → F64
  | nan, _ => nan
  | _, nan => nan
  | inf _, inf _ => nan
  | inf s1, fin s2 _ _ => inf (xor s1 s2)
  | fin s1 _ _, inf s2 => fin (xor s1 s2) 0 0
  | fin s1 m1 e1, fin s2 m2 e2 =>
      if m2 = 0 then (if m1 = 0 then nan else inf (xor s1 s2))
      else ofRatio (xor s1 s2) (scaleNum m1 (-(e1 - e2))) (scaleDen m2 (-(e1 - e2)))

/-- Go `x == 0` on floats: true of both zeros, false of NaN and infinities. -/
def isZero : F64 → Bool
  | fin _ m _ => decide (m = 0)
  | _ => false

/-- Go `math.Round(x)`: the nearest integer, halves away from zero. -/
def mathRound : F64 → F64
  | fin s m e =>
      if 0 ≤ e then fin s m e
      else
        let q := m / 2 ^ (-e).toNat
        let r := m % 2 ^ (-e).toNat
        ofRatio s (if 2 ^ (-e).toNat ≤ 2 * r then q + 1 else q) 1
  | x => x

/-- The integer part of a finite value, truncated toward zero. -/
def truncFin (s : Bool) (m : Nat) (e : Int) : Int :=
  (if s then -1 else 1) * ((scaleNum m (-e) / scaleDen 1 (-e) : Nat) : Int)

/-- Go `int(x)` where `int` has 64 bits: the value truncated toward zero when that is
an `int64`; otherwise the Go specification leaves the result to the implementation,
which is the parameter `outOfRange`. -/
def toInt (outOfRange : F64 → Int) : F64 → Int
  | fin s m e =>
      if -(2 : Int) ^ 63 ≤ truncFin s m e ∧ truncFin s m e < (2 : Int) ^ 63 then truncFin s m e
      else outOfRange (fin s m e)
  | x => outOfRange x

/-- Go `x < y` on floats: false when either side is NaN. -/
def lt : F64 → F64 → Bool
  | fin s1 m1 e1, fin s2 m2 e2 =>
      let e := min e1 e2
      let a : Int := (if s1 then -1 else 1) * (m1 * 2 ^ (e1 - e).toNat : Nat)
      let b : Int := (if s2 then -1 else 1) * (m2 * 2 ^ (e2 - e).toNat : Nat)
      decide (a < b)
  | fin _ _ _, inf s2 => !s2
  | inf s1, fin _ _ _ => s1
  | inf s1, inf s2 => s1 && !s2
  | _, _ => false

/-- Go `math.Frexp(x)`: `frac` and `exp` with `x = frac * 2^exp` and
`1/2 ≤ |frac| < 1`; zeros, infinities and NaN come back unchanged with `exp = 0`. -/
def frexp : F64 → F64 × Int
  | fin s m e =>
      if m = 0 then (fin s m e, 0)
      else (fin s (m * 2 ^ (53 - bitLen m)) (-53), e + bitLen m)
  | x => (x, 0)

/-- Go `math.Ldexp(frac, exp)`, the value `frac * 2^exp`: a signed zero when the
leading binary digit of the result is below `2^-1075`, an infinity when it is above
`2^1023`, and otherwise the result rounded once (it is inexact only when subnormal). -/
def ldexp : F64 → Int → F64
  | fin s m e, exp =>
      if m = 0 then fin s m e
      else
        let lead := exp + e + bitLen m - 1
        if lead < -1075 then fin s 0 0
        else if 1023 < lead then inf s
        else ofRatio s (scaleNum m (-(e + exp))) (scaleDen 1 (-(e + exp)))
  | x, _ => x

end F64

/-! ## `strconv` and `unicode` functions used by `parseAbbrevInt` -/

/-- Go `unicode.IsSpace`. -/
def unicodeIsSpace (r : Char) : Bool :=
  r = '\t' || r = '\n' || r.toNat = 0x0B || r.toNat = 0x0C || r = '\r' || r = ' '
    || r.toNat = 0x85 || r.toNat = 0xA0 || r.toNat = 0x1680
    || (0x2000 ≤ r.toNat && r.toNat ≤ 0x200A)
    || r.toNat = 0x2028 || r.toNat = 0x2029 || r.toNat = 0x202F || r.toNat = 0x205F
    || r.toNat = 0x3000

/-- Go `strings.TrimSpace` on the runes of a string. -/
def stringsTrimSpace (s : List Char) : List Char :=
  ((s.dropWhile unicodeIsSpace).reverse.dropWhile unicodeIsSpace).reverse

/-- The kind of a `*strconv.NumError`. -/
inductive NumErrKind where
  | ErrSyntax
  | ErrRange
  deriving DecidableEq, Repr

/-- The errors `parseAbbrevInt` returns: `errors.New(msg)` or a `*strconv.NumError`
of function `fn` on the text `num`. -/
inductive ParseError where
  | errorsNew (msg : String)
  | numError (fn : String) (num : String) (kind : NumErrKind)
  deriving DecidableEq, Repr

/-- The decimal digit loop of `strconv.ParseUint(s, 10, 64)`; `n` is the value read so
far. A character that is not a decimal digit is a syntax error; the value leaving the
`uint64` range is a range error (Go tests `n >= cutoff` before multiplying and the
wrap-around of `n + d` after). -/
def parseUintLoop : List Char → Nat → Except NumErrKind Nat
  | [], n => .ok n
  | c :: cs, n =>
      if '0' ≤ c ∧ c ≤ '9' then
        if (2 ^ 64 - 1) / 10 + 1 ≤ n then .error .ErrRange
        else if 2 ^ 64 - 1 < n * 10 + (c.toNat - '0'.toNat) then .error .ErrRange
        else parseUintLoop cs (n * 10 + (c.toNat - '0'.toNat))
      else .error .ErrSyntax

/-- Go `strconv.ParseUint(s, 10, 64)`. -/
def strconvParseUint (s : List Char) : Except NumErrKind Nat :=
  if s = [] then .error .ErrSyntax else parseUintLoop s 0

/-- Go `strconv.ParseInt(s, 10, 64)`. -/
def strconvParseInt (s : List Char) : Except NumErrKind Int :=
  match s with
  | [] => .error .ErrSyntax
  | c :: cs =>
      let neg := decide (c = '-')
      let digits := if c = '+' ∨ c = '-' then cs else c :: cs
      match strconvParseUint digits with
      | .error .ErrSyntax => .error .ErrSyntax
      | .error .ErrRange => .error .ErrRange
      | .ok un =>
          if !neg ∧ 2 ^ 63 ≤ un then .error .ErrRange
          else if neg ∧ 2 ^ 63 < un then .error .ErrRange
          else .ok (if neg then -(un : Int) else (un : Int))

/-- A decimal digit byte. -/
def isDecDigit (c : Char) : Bool := decide ('0' ≤ c ∧ c ≤ '9')

/-- A hexadecimal letter: `'a' <= lower(c) && lower(c) <= 'f'`. -/
def isHexLetter (c : Char) : Bool := decide (('a' ≤ c ∧ c ≤ 'f') ∨ ('A' ≤ c ∧ c ≤ 'F'))

/-- The value of a decimal digit. -/
def decVal (c : Char) : Nat := c.toNat - '0'.toNat

/-- The value of a hexadecimal letter: `lower(c) - 'a' + 10`. -/
def hexLetterVal (c : Char) : Nat :=
  if 'a' ≤ c then c.toNat - 'a'.toNat + 10 else c.toNat - 'A'.toNat + 10

/-- Go `commonPrefixLenIgnoreCase(s, pre)` for a lower-case `pre`. -/
def commonPrefixLenIgnoreCase : List Char → List Char → Nat
  | c :: s, p :: pre =>
      if (if 'A' ≤ c ∧ c ≤ 'Z' then Char.ofNat (c.toNat + 32) else c) = p
      then commonPrefixLenIgnoreCase s pre + 1 else 0
  | _, _ => 0

/-- The `'i', 'I'` case of `strconv.special`, entered with the sign already removed. -/
def specialInf (neg : Bool) (nsign : Nat) (s : List Char) : Option (F64 × Nat) :=
  let n := commonPrefixLenIgnoreCase s "infinity".toList
  let n := if 3 < n ∧ n < 8 then 3 else n
  if n = 3 ∨ n = 8 then some (F64.inf neg, nsign + n) else none

/-- Go `strconv.special`: the value of a leading `inf`, `infinity` or `nan` and the
number of bytes it takes. -/
def special (s : List Char) : Option (F64 × Nat) :=
  match s with
  | [] => none
  | c :: cs =>
      if c = '+' ∨ c = '-' then specialInf (decide (c = '-')) 1 cs
      else if c = 'i' ∨ c = 'I' then specialInf false 0 (c :: cs)
      else if c = 'n' ∨ c = 'N' then
        (if commonPrefixLenIgnoreCase (c :: cs) "nan".toList = 3 then some (F64.nan, 3) else none)
      else none

/-- The variables of the digit loop of `strconv.readFloat`. `mantissa` holds all the
significant digits read (Go keeps the first 19, or 16 hexadecimal ones, and a `trunc`
flag, from which the conversion still rounds the full number correctly), so `nd`
also plays the part of `ndMant`. -/
structure ReadState where
  sawdot : Bool
  sawdigits : Bool
  nd : Int
  dp : Int
  mantissa : Nat
  underscores : Bool
  deriving DecidableEq, Repr

/-- The digit loop of `strconv.readFloat` (label `loop`): the state at the first byte
that is not part of the mantissa, and the text from that byte on. -/
def readMantissa (hex : Bool) : List Char → ReadState → ReadState × List Char
  | [], st => (st, [])
  | c :: cs, st =>
      if c = '_' then readMantissa hex cs { st with underscores := true }
      else if c = '.' then
        (if st.sawdot then (st, c :: cs)
         else readMantissa hex cs { st with sawdot := true, dp := st.nd })
      else if isDecDigit c then
        (if c = '0' ∧ st.nd = 0 then
           readMantissa hex cs { st with sawdigits := true, dp := st.dp - 1 }
         else
           readMantissa hex cs { st with
             sawdigits := true, nd := st.nd + 1,
             mantissa := st.mantissa * (if hex then 16 else 10) + decVal c })
      else if hex ∧ isHexLetter c then
        readMantissa hex cs { st with
          sawdigits := true, nd := st.nd + 1, mantissa := st.mantissa * 16 + hexLetterVal c }
      else (st, c :: cs)

/-- The exponent digit loop of `strconv.readFloat`: the exponent (no longer
accumulated once it has reached 10000), whether an underscore was seen, and the text
left. -/
def readExpDigits : List Char → Nat → Bool → Nat × Bool × List Char
  | [], e, us => (e, us, [])
  | c :: cs, e, us =>
      if isDecDigit c then readExpDigits cs (if e < 10000 then e * 10 + decVal c else e) us
      else if c = '_' then readExpDigits cs e true
      else (e, us, c :: cs)

/-- The loop of `strconv.underscoreOK`; `i` is the class of the last byte seen
(`'0'` digit, `'_'` underscore, `'!'` other, `'^'` beginning). -/
def underscoreOKLoop (hex : Bool) : List Char → Char → Bool
  | [], i => i != '_'
  | c :: cs, i =>
      if isDecDigit c || (hex && isHexLetter c) then underscoreOKLoop hex cs '0'
      else if c = '_' then (if i != '0' then false else underscoreOKLoop hex cs '_')
      else if i = '_' then false
      else underscoreOKLoop hex cs '!'

/-- Go `strconv.underscoreOK`: underscores only separate digits (a base prefix counts
as a digit). -/
def underscoreOK (s : List Char) : Bool :=
  let s := match s with
    | c :: cs => if c = '-' ∨ c = '+' then cs else c :: cs
    | [] => []
  match s with
  | '0' :: x :: rest =>
      if x = 'b' ∨ x = 'B' ∨ x = 'o' ∨ x = 'O' ∨ x = 'x' ∨ x = 'X'
      then underscoreOKLoop (decide (x = 'x' ∨ x = 'X')) rest '0'
      else underscoreOKLoop false ('0' :: x :: rest) '^'
  | _ => underscoreOKLoop false s '^'

/-- What `strconv.readFloat` returns when `ok`: the number is
`(-1)^neg * mantissa * b^exp` with `b = 2` if `hex` and `b = 10` otherwise, and `rest`
is the text that was not consumed. -/
structure FloatLit where
  neg : Bool
  hex : Bool
  mantissa : Nat
  exp : Int
  rest : List Char
  deriving DecidableEq, Repr

/-- The end of `strconv.readFloat`, after the optional exponent `e` (already signed)
has been read: `consumed` is `s[:i]`. -/
def readFloatFinish (neg hex : Bool) (st : ReadState) (e : Int) (underscores : Bool)
    (consumed rest : List Char) : Option FloatLit :=
  let dp := if st.sawdot then st.dp else st.nd
  let dp := if hex then dp * 4 else dp
  let ndMant := if hex then st.nd * 4 else st.nd
  let dp := dp + e
  let exp := if st.mantissa ≠ 0 then dp - ndMant else 0
  if underscores ∧ !underscoreOK consumed then none
  else some { neg := neg, hex := hex, mantissa := st.mantissa, exp := exp, rest := rest }

/-- The text after the optional sign of a number. -/
def dropSign (s : List Char) : List Char :=
  match s with
  | c :: cs => if c = '+' ∨ c = '-' then cs else c :: cs
  | [] => []

/-- The base prefix test of `strconv.readFloat`:
`i+2 < len(s) && s[i] == '0' && lower(s[i+1]) == 'x'`. -/
def hexPrefix (s1 : List Char) : Bool :=
  match s1 with
  | a :: x :: _ :: _ => decide (a = '0' ∧ (x = 'x' ∨ x = 'X'))
  | _ => false

/-- The optional exponent of `strconv.readFloat`, read from the text `s3` left by the
digit loop: the signed exponent, the `underscores` flag and the text left; `none`
stands for the early `return` with `ok = false`. A hexadecimal mantissa must have an
exponent. -/
def readExponent (hex underscores : Bool) (s3 : List Char) :
    Option (Int × Bool × List Char) :=
  match s3 with
  | x :: s4 =>
      if (!hex ∧ (x = 'e' ∨ x = 'E')) ∨ (hex ∧ (x = 'p' ∨ x = 'P')) then
        match s4 with
        | [] => none
        | y :: s5 =>
            let esign : Int := if y = '-' then -1 else 1
            let s6 := if y = '+' ∨ y = '-' then s5 else y :: s5
            match s6 with
            | [] => none
            | z :: _ =>
                if !isDecDigit z then none
                else
                  let r := readExpDigits s6 0 underscores
                  some (r.1 * esign, r.2.1, r.2.2)
      else if hex then none
      else some (0, underscores, x :: s4)
  | [] => if hex then none else some (0, underscores, [])

/-- Go `strconv.readFloat`: `none` stands for `ok = false`. -/
def readFloat (s : List Char) : Option FloatLit :=
  if s = [] then none
  else
    let neg := decide (s.head? = some '-')
    let s1 := dropSign s
    let hex := hexPrefix s1
    let s2 := if hex then s1.drop 2 else s1
    let st := (readMantissa hex s2 ⟨false, false, 0, 0, 0, false⟩).1
    let s3 := (readMantissa hex s2 ⟨false, false, 0, 0, 0, false⟩).2
    if !st.sawdigits then none
    else
      match readExponent hex st.underscores s3 with
      | none => none
      | some (e, underscores, rest) =>
          readFloatFinish neg hex st e underscores (s.take (s.length - rest.length)) rest

/-- The binary64 value nearest to the number a `FloatLit` denotes, as the decimal
and the hexadecimal conversions of `strconv` compute it. -/
def FloatLit.value (l : FloatLit) : F64 :=
  if l.hex then F64.ofRatio l.neg (F64.scaleNum l.mantissa (-l.exp)) (F64.scaleDen 1 (-l.exp))
  else if 0 ≤ l.exp then F64.ofRatio l.neg (l.mantissa * 10 ^ l.exp.toNat) 1
  else F64.ofRatio l.neg l.mantissa (10 ^ (-l.exp).toNat)

/-- Go `strconv.ParseFloat(s, 64)`: the whole of `s` must be a special value or a
decimal or hexadecimal floating-point number; a number that rounds to an infinity is
a range error. -/
def strconvParseFloat (s : List Char) : Except NumErrKind F64 :=
  match special s with
  | some (v, n) => if n = s.length then .ok v else .error .ErrSyntax
  | none =>
      match readFloat s with
      | none => .error .ErrSyntax
      | some l =>
          if l.rest ≠ [] then .error .ErrSyntax
          else
            match l.value with
            | .inf _ => .error .ErrRange
            | f => .ok f

/-! ## `parseAbbrevInt` (`pkg/aa/aa.go`) -/

/-- The text `parseAbbrevInt` works on: `strings.TrimSpace`, then
`strings.ReplaceAll(in, ",", "")`, then `strings.Map` dropping `unicode.IsSpace`. -/
def normalize (s : String) : List Char :=
  ((stringsTrimSpace s.toList).filter (fun r => r != ',')).filter
    (fun r => !unicodeIsSpace r)

/-- The multiplier selected by the last byte of the normalized text. -/
def unitMult (last : Char) : Option Int :=
  if last = 'k' ∨ last = 'K' then some 1000
  else if last = 'm' ∨ last = 'M' then some 1000000
  else if last = 'b' ∨ last = 'B' then some 1000000000
  else none

/-- The text left once a unit suffix has been cut: `in[:len(in)-1]` when the last
byte is a unit, the text itself otherwise. -/
def stripUnit (txt : List Char) : List Char :=
  match txt.getLast? with
  | some last => if (unitMult last).isSome then txt.dropLast else txt
  | none => txt

/-- The value of `mult` after the `switch last`. -/
def multOf (txt : List Char) : Int :=
  match txt.getLast? with
  | some last => (unitMult last).getD 1
  | none => 1

/-- Go `parseAbbrevInt`. `outOfRange` is the implementation-defined result of
converting to `int` a float that is not an `int64`. -/
def parseAbbrevInt (outOfRange : F64 → Int) (s : String) : Except ParseError Int :=
  if s = "" then .error (.errorsNew "empty input")
  else
    let txt := normalize s
    if txt = [] then .error (.errorsNew "no digits")
    else
      let mult := F64.ofInt (multOf txt)
      let txt := stripUnit txt
      if txt = [] ∨ txt = ['+'] ∨ txt = ['-'] then .error (.errorsNew "invalid number")
      else if !(txt.any (fun c => c = '.' || c = 'e' || c = 'E')) then
        match strconvParseInt txt with
        | .error k => .error (.numError "ParseInt" (String.mk txt) k)
        | .ok n => .ok (F64.toInt outOfRange (F64.mathRound (F64.mul (F64.ofInt n) mult)))
      else
        match strconvParseFloat txt with
        | .error k => .error (.numError "ParseFloat" (String.mk txt) k)
        | .ok f => .ok (F64.toInt outOfRange (F64.mathRound (F64.mul f mult)))

/-! ## Response model (`pkg/aa/aa.go`) -/

/-- Go `FlightSegment`. -/
structure FlightSegment where
  FlightNumber : String
  DepartureTime : String
  ArrivalTime : String
  deriving DecidableEq, Repr

/-- Go `Flight`. -/
structure Flight where
  IsNonstop : Bool
  Segments : List FlightSegment
  TotalDuration : String
  PointsRequired : Int
  CashPriceUSD : F64
  TaxesFeesUSD : F64
  CPP : F64
  deriving DecidableEq, Repr

/-- Go `strings.Join(elems, sep)`. -/
def stringsJoin : List String → String → String
  | [], _ => ""
  | [a], _ => a
  | a :: b :: rest, sep => a ++ sep ++ stringsJoin (b :: rest) sep

/-- The loop of `Flight.ID` collecting the flight numbers of the segments. -/
def Flight.numbers (f : Flight) : List String :=
  f.Segments.foldl (fun numbers seg => numbers ++ [seg.FlightNumber]) []

/-- Go `(*Flight).ID`: the segments' flight numbers joined with `_`. -/
def Flight.ID (f : Flight) : String := stringsJoin f.numbers "_"

/-! ## The merge step of `Run` (`flyaa.go`) -/

/-- The loop of Go `math.Pow` that multiplies the answer `a1 * 2^ae` by `x^i`, where
`x = x1 * 2^xe`, squaring `x1` for each binary digit of `i`:
`for i := int64(yi); i != 0; i >>= 1 { ... }`. It stops early when `xe` leaves
`[-4096, 4096]`. The `fuel` bounds the number of rounds; 63 is enough for an `int64`. -/
def powLoop : Nat → Nat → F64 → Int → F64 → Int → F64 × Int
  | 0, _, a1, ae, _, _ => (a1, ae)
  | fuel + 1, i, a1, ae, x1, xe =>
      if i = 0 then (a1, ae)
      else if xe < -4096 ∨ 4096 < xe then (a1, ae + xe)
      else
        let a1' := if i % 2 = 1 then F64.mul a1 x1 else a1
        let ae' := if i % 2 = 1 then ae + xe else ae
        let x2 := F64.mul x1 x1
        if F64.lt x2 (F64.ofRatio false 1 2) then
          powLoop fuel (i / 2) a1' ae' (F64.add x2 x2) (2 * xe - 1)
        else powLoop fuel (i / 2) a1' ae' x2 (2 * xe)

/-- Go `math.Pow(10, float64(prec))`, along the branches `math.Pow(x, y)` takes for
`x = 10` and an integral `y`: 1 for `y == 0`, `x` for `y == 1`; zero or an infinity
when `|y| ≥ 2^63`; otherwise the loop over the binary digits of `|y|` on the parts
`math.Frexp(x)`, the answer inverted for `y < 0`, and `math.Ldexp`. -/
def mathPow10 (prec : Int) : F64 :=
  let x := F64.ofInt 10
  let y := F64.ofInt prec
  if y.isZero then F64.ofInt 1
  else if y = F64.ofInt 1 then x
  else
    match y with
    | .fin _ m e =>
        let yi := (F64.truncFin false m e).toNat
        if 2 ^ 63 ≤ yi then (if F64.lt y (F64.ofInt 0) then F64.ofInt 0 else .inf false)
        else
          let r := powLoop 63 yi (F64.ofInt 1) 0 (F64.frexp x).1 (F64.frexp x).2
          if F64.lt y (F64.ofInt 0) then F64.ldexp (F64.div (F64.ofInt 1) r.1) (-r.2)
          else F64.ldexp r.1 r.2
    | y => y

/-- Go `round(x, prec)` of `flyaa.go`. -/
def round (x : F64) (prec : Int) : F64 :=
  let f := mathPow10 prec
  F64.div (F64.mathRound (F64.mul x f)) f

/-- A Go `map[string]Flight`. -/
abbrev FlightMap := String → Option Flight

/-- Go `lookup[k] = f`. -/
def FlightMap.set (lookup : FlightMap) (k : String) (f : Flight) : FlightMap :=
  fun k' => if k' = k then some f else lookup k'

/-- The first loop of the merge: `for _, f := range flightPoints { lookup[f.ID()] = f }`. -/
def Run.lookup (flightPoints : List Flight) : FlightMap :=
  flightPoints.foldl (fun lookup f => lookup.set f.ID f) (fun _ => none)

/-- The flight appended to the result for the currency-priced `flight` matched with
the points-priced `fp` (lines 126-129 of `flyaa.go`). -/
def Run.merged (flight fp : Flight) : Flight :=
  let flight := { flight with PointsRequired := fp.PointsRequired }
  let flight := { flight with TaxesFeesUSD := fp.TaxesFeesUSD }
  let flight := { flight with
    CPP := F64.mul (F64.div (F64.sub flight.CashPriceUSD fp.TaxesFeesUSD)
      (F64.ofInt fp.PointsRequired)) (F64.ofInt 100) }
  { flight with CPP := round flight.CPP 2 }

/-- One iteration of the second loop of the merge. -/
def Run.combineStep (lookup : FlightMap) (flights : List Flight) (flight : Flight) :
    List Flight :=
  match lookup flight.ID with
  | none => flights
  | some fp => if fp.PointsRequired = 0 then flights else flights ++ [Run.merged flight fp]

/-- The merge step of `Run` ("Combine results"): the flights printed for the
currency-priced `flightsPrice` and the points-priced `flightPoints`. -/
def Run.combine (flightsPrice flightPoints : List Flight) : List Flight :=
  flightsPrice.foldl (Run.combineStep (Run.lookup flightPoints)) []

/-! ## The request executor `Client.do` (`pkg/aa/client.go`) -/

/-- An error returned by `doAttempt`, as `Client.do` observes it: its text, and the
outcome of each test `do` makes on it. -/
structure AttemptError where
  /-- Go `err.Error()` -/
  message : String
  /-- Go `errors.As(err, &netErr) && netErr.Timeout()` -/
  timeout : Bool
  /-- Go `errors.As(err, &errStatus)`, with `int(errStatus)` -/
  status : Option Int
  /-- Go `errors.Is(err, io.EOF) || errors.Is(err, io.ErrUnexpectedEOF)` -/
  eof : Bool
  /-- Go `strings.Contains(strings.ToLower(err.Error()), "proxy responded with non 200 code")` -/
  proxy : Bool
  deriving DecidableEq, Repr

/-- The errors `Client.do` returns: the error of an attempt (`return nil, err`), the
error of the context (`return nil, ctx.Err()`), or the run-time panic of an index
out of range at `backoff[idx]`. -/
inductive DoError where
  | attempt (err : AttemptError)
  | context
  | indexOutOfRange
  deriving DecidableEq, Repr

/-- Go `time.Millisecond`, in nanoseconds. -/
def millisecond : Nat := 1000000

/-- Go `time.Second`, in nanoseconds. -/
def second : Nat := 1000000000

/-- Go `backoff`. -/
def backoff : List Nat := [100 * millisecond, 500 * millisecond, 1 * second]

/-- Go `maxAttempts := len(backoff) + 1`. -/
def maxAttempts : Nat := backoff.length + 1

/-- The variables `retry` and `wait` of `Client.do` after the three checks made on a
failed attempt. -/
structure Decision where
  retry : Bool
  wait : Bool
  deriving DecidableEq, Repr

/-- The classification of a failed attempt in `Client.do` (lines 77-104). -/
def classify (err : AttemptError) : Decision :=
  let d : Decision := ⟨false, false⟩
  let d := if err.timeout then { d with retry := true } else d
  let d := match err.status with
    | some code =>
        if code = 502 ∨ code = 504 ∨ code = 429 ∨ code = 500 ∨ code = 520 ∨ code = 522
            ∨ code = 403 ∨ code = 400
        then { d with retry := true, wait := true } else d
    | none => d
  if err.eof ∨ err.proxy then { d with retry := true } else d

/-- What a call of `Client.do` did: its result, the number of calls of `doAttempt`,
and the durations of the timers it started, in order. -/
structure DoRun where
  result : Except DoError String
  calls : Nat
  waits : List Nat
  deriving DecidableEq, Repr

/-- The `for` loop of `Client.do`, entered with `attempts` failed attempts behind it.
`doAttempt k` is the outcome of the call of `doAttempt` made after `k` failures, and
`ctxDone k` tells whether `ctx.Done()` wins the `select` of the wait that follows the
`k`-th failure. -/
def Client.doLoop (doAttempt : Nat → Except AttemptError String) (ctxDone : Nat → Bool)
    (attempts : Nat) (waits : List Nat) : DoRun :=
  match doAttempt attempts with
  | .ok b => ⟨.ok b, attempts + 1, waits⟩
  | .error err =>
      if h : maxAttempts ≤ attempts + 1 then ⟨.error (.attempt err), attempts + 1, waits⟩
      else if !(classify err).retry then ⟨.error (.attempt err), attempts + 1, waits⟩
      else if (classify err).wait then
        let idx := (attempts + 1) - 1
        let idx := if backoff.length ≤ idx then backoff.length - 1 else idx
        match backoff[idx]? with
        | none => ⟨.error .indexOutOfRange, attempts + 1, waits⟩
        | some waitTime =>
            if ctxDone (attempts + 1) then ⟨.error .context, attempts + 1, waits ++ [waitTime]⟩
            else Client.doLoop doAttempt ctxDone (attempts + 1) (waits ++ [waitTime])
      else Client.doLoop doAttempt ctxDone (attempts + 1) waits
termination_by maxAttempts - attempts
decreasing_by all_goals omega

/-- Go `(*Client).do`. -/
def Client.do_ (doAttempt : Nat → Except AttemptError String) (ctxDone : Nat → Bool) : DoRun :=
  Client.doLoop doAttempt ctxDone 0 []

/-! ## `Client.Search` (`pkg/aa/aa.go`) -/

/-- Go `segmentResponse` (the fields `Search` reads). -/
structure segmentResponse where
  CarrierCode : String
  FlightNumber : String
  DepartureDateTime : String
  ArrivalDateTime : String
  deriving DecidableEq, Repr

/-- Go `responsePricingDetail` (`Amount` is `AllPassengerTaxesAndFees.Amount`). -/
structure responsePricingDetail where
  PerPassengerPrice : String
  Amount : F64
  ProductType : String
  deriving DecidableEq, Repr

/-- Go `responseSlice` (the fields `Search` reads). -/
structure responseSlice where
  Segments : List segmentResponse
  CheapestPrice : responsePricingDetail
  PricingDetail : List responsePricingDetail
  Stops : Int
  DurationInMinutes : Int
  deriving DecidableEq, Repr

/-- The errors `Search` returns. -/
inductive SearchError where
  | request (err : DoError)
  | departureTime (s : String)
  | arrivalTime (s : String)
  | pointsPrice (s : String) (err : ParseError)
  deriving DecidableEq, Repr

/-- Go `parseTime`. `clock s` is the `"15:04"` format of the time that
`time.Parse(time.RFC3339Nano, s)` returns, `none` when it returns an error. -/
def parseTime (clock : String → Option String) (s : String) : Except Unit String :=
  match clock s with
  | none => .error ()
  | some t => .ok t

/-- The segment loop of `Search`; `segs` is the slice built so far. -/
def Search.segments (clock : String → Option String) :
    List segmentResponse → List FlightSegment → Except SearchError (List FlightSegment)
  | [], segs => .ok segs
  | sg :: rest, segs =>
      let flightNumber := sg.CarrierCode ++ sg.FlightNumber
      match parseTime clock sg.DepartureDateTime with
      | .error _ => .error (.departureTime sg.DepartureDateTime)
      | .ok departureTime =>
          match parseTime clock sg.ArrivalDateTime with
          | .error _ => .error (.arrivalTime sg.ArrivalDateTime)
          | .ok arrivalTime =>
              Search.segments clock rest (segs ++ [⟨flightNumber, departureTime, arrivalTime⟩])

/-- The pricing loop of a cash search: `cashPrice` after
`for _, pd := range slice.PricingDetail`. -/
def Search.cashPrice (passengers : Int) (productType : String)
    (pricingDetail : List responsePricingDetail) : F64 :=
  pricingDetail.foldl
    (fun cashPrice pd =>
      if pd.ProductType ≠ productType then cashPrice
      else F64.div pd.Amount (F64.ofInt passengers))
    (F64.fin false 0 0)

/-- Go `fmt.Sprintf("%d", n)`. -/
def fmtInt (n : Int) : String :=
  if n < 0 then "-" ++ Nat.repr n.natAbs else Nat.repr n.natAbs

/-- The duration text of a slice: `fmt.Sprintf("%dh %dm", hours, minutes)` with Go's
truncated division and remainder. -/
def Search.duration (durationInMinutes : Int) : String :=
  let hours := Int.tdiv durationInMinutes 60
  let minutes := Int.tmod durationInMinutes 60
  fmtInt hours ++ "h " ++ fmtInt minutes ++ "m"

/-- The slice loop of `Search`; `flights` is the slice built so far. -/
def Search.slices (outOfRange : F64 → Int) (clock : String → Option String)
    (passengers : Int) (productType : String) (redeemPoints : Bool) :
    List responseSlice → List Flight → Except SearchError (List Flight)
  | [], flights => .ok flights
  | slice :: rest, flights =>
      match Search.segments clock slice.Segments [] with
      | .error e => .error e
      | .ok segs =>
          let next (cashPrice : F64) (pointsRequired : Int) (taxesFees : F64) :=
            Search.slices outOfRange clock passengers productType redeemPoints rest
              (flights ++ [{
                IsNonstop := decide (slice.Stops = 0)
                TotalDuration := Search.duration slice.DurationInMinutes
                Segments := segs
                CashPriceUSD := cashPrice
                PointsRequired := pointsRequired
                TaxesFeesUSD := taxesFees
                CPP := F64.fin false 0 0 }])
          if redeemPoints then
            match parseAbbrevInt outOfRange slice.CheapestPrice.PerPassengerPrice with
            | .error e => .error (.pointsPrice slice.CheapestPrice.PerPassengerPrice e)
            | .ok pointsRequired =>
                next (F64.fin false 0 0) pointsRequired
                  (F64.div slice.CheapestPrice.Amount (F64.ofInt passengers))
          else
            let cashPrice := Search.cashPrice passengers productType slice.PricingDetail
            if cashPrice.isZero then
              Search.slices outOfRange clock passengers productType redeemPoints rest flights
            else next cashPrice 0 (F64.fin false 0 0)

/-- Go `(*Client).Search`, from the result `reply` of its call of `c.do` (the decoded
`resp.Slices` when the call succeeds). The request it builds is not modelled. -/
def Client.Search (outOfRange : F64 → Int) (clock : String → Option String)
    (reply : Except DoError (List responseSlice))
    (passengers : Int) (productType : String) (redeemPoints : Bool) :
    Except SearchError (List Flight) :=
  match reply with
  | .error e => .error (.request e)
  | .ok slices => Search.slices outOfRange clock passengers productType redeemPoints slices []

/-! ## Input validation of `Run` (`flyaa.go`) -/

/-- The Unicode case mappings of `unicode.ToUpper` and `unicode.ToLower` on the runes
above `unicode.MaxASCII` (the tables of package `unicode`). -/
structure CaseTables where
  upper : Char → Char
  lower : Char → Char

/-- Go `unicode.ToUpper`. -/
def unicodeToUpper (t : CaseTables) (r : Char) : Char :=
  if r.toNat ≤ 0x7F then (if 'a' ≤ r ∧ r ≤ 'z' then Char.ofNat (r.toNat - 32) else r)
  else t.upper r

/-- Go `unicode.ToLower`. -/
def unicodeToLower (t : CaseTables) (r : Char) : Char :=
  if r.toNat ≤ 0x7F then (if 'A' ≤ r ∧ r ≤ 'Z' then Char.ofNat (r.toNat + 32) else r)
  else t.lower r

/-- Go `strings.ToUpper`. -/
def stringsToUpper (t : CaseTables) (s : String) : String :=
  String.mk (s.toList.map (unicodeToUpper t))

/-- Go `strings.ToLower`. -/
def stringsToLower (t : CaseTables) (s : String) : String :=
  String.mk (s.toList.map (unicodeToLower t))

/-- Go `len(s)`: the number of bytes of the UTF-8 encoding. -/
def goLen (s : String) : Nat := s.utf8ByteSize

/-- Go `time.isLeap`. -/
def isLeap (year : Nat) : Bool :=
  year % 4 = 0 && (year % 100 != 0 || year % 400 = 0)

/-- Go `time.daysIn` for a month in `1..12`. -/
def daysIn (month year : Nat) : Nat :=
  if month = 2 ∧ isLeap year then 29
  else if month = 2 then 28
  else if month = 4 ∨ month = 6 ∨ month = 9 ∨ month = 11 then 30
  else 31

/-- Go `time.getnum(s, true)`: a number of exactly two digits and the text after
it. -/
def getnum2 (s : List Char) : Option (Nat × List Char) :=
  match s with
  | a :: b :: rest =>
      if isDecDigit a ∧ isDecDigit b then some (decVal a * 10 + decVal b, rest) else none
  | _ => none

/-- The chunk `2006` of the layout (`stdLongYear`): exactly four digits and the text
after them. -/
def getYear4 (s : List Char) : Option (Nat × List Char) :=
  match s with
  | y1 :: y2 :: y3 :: y4 :: rest =>
      if isDecDigit y1 ∧ isDecDigit y2 ∧ isDecDigit y3 ∧ isDecDigit y4
      then some (((decVal y1 * 10 + decVal y2) * 10 + decVal y3) * 10 + decVal y4, rest)
      else none
  | _ => none

/-- Go `time.skip(value, "-")`: the text after a leading `-`. -/
def skipDash (s : List Char) : Option (List Char) :=
  match s with
  | c :: rest => if c = '-' then some rest else none
  | [] => none

/-- Go `time.Parse("2006-01-02", value)`: the year, month and day, or `none` when it
returns an error. The layout is the chunks `2006`, `-01`, `-02`; the month is checked
when it is read, the day once the whole text has been read. -/
def timeParseDate (value : List Char) : Option (Nat × Nat × Nat) :=
  match getYear4 value with
  | none => none
  | some (year, v1) =>
      match skipDash v1 with
      | none => none
      | some v2 =>
          match getnum2 v2 with
          | none => none
          | some (month, v3) =>
              if month = 0 ∨ 12 < month then none
              else
                match skipDash v3 with
                | none => none
                | some v4 =>
                    match getnum2 v4 with
                    | none => none
                    | some (day, v5) =>
                        if v5 ≠ [] then none
                        else if day < 1 ∨ daysIn month year < day then none
                        else some (year, month, day)

/-- Go `Config` of package `flyaa`. -/
structure Config where
  Debug : Bool
  Proxy : String
  BaseURL : String
  Origin : String
  Destination : String
  Date : String
  Passengers : Int
  CabinClass : String
  deriving DecidableEq, Repr

/-- The validation errors of `Run`. -/
inductive ValidationError where
  | baseURLRequired
  | originLength
  | destinationLength
  | dateFormat
  | unsupportedCabinClass (cabinClass : String)
  deriving DecidableEq, Repr

/-- The values `Run` has computed when its validation has passed. -/
structure SearchInput where
  origin : String
  destination : String
  date : String
  passengers : Int
  cabinClass : String
  productType : String
  deriving DecidableEq, Repr

/-- The `switch cabinClass` of `Run`. -/
def productTypeOf (cabinClass : String) : Option String :=
  if cabinClass = "economy" then some "BASIC_ECONOMY"
  else if cabinClass = "main" then some "COACH"
  else if cabinClass = "main-plus" then some "COACH_FLEXIBLE"
  else none

/-- The input validation of `Run` (lines 38-71 of `flyaa.go`). -/
def Run.validate (t : CaseTables) (cfg : Config) : Except ValidationError SearchInput :=
  if cfg.BaseURL = "" then .error .baseURLRequired
  else
    let origin := stringsToUpper t cfg.Origin
    if goLen origin ≠ 3 then .error .originLength
    else
      let destination := stringsToUpper t cfg.Destination
      if goLen destination ≠ 3 then .error .destinationLength
      else
        let date := cfg.Date
        if (timeParseDate date.toList).isNone then .error .dateFormat
        else
          let passengers := if cfg.Passengers ≤ 0 then 1 else cfg.Passengers
          let cabinClass := stringsToLower t cfg.CabinClass
          match productTypeOf cabinClass with
          | none => .error (.unsupportedCabinClass cabinClass)
          | some productType =>
              .ok ⟨origin, destination, date, passengers, cabinClass, productType⟩

/-! ## Specification-side notions -/

/-- The points-priced flight matched with an ID: the last flight of `P` that has this
ID. -/
def matchedPoints (P : List Flight) (id : String) : Option Flight :=
  P.reverse.find? (fun p => decide (p.ID = id))

/-- What the merge emits for one currency-priced flight `c`: nothing when no flight
of `P` has its ID or when the matched one has no points, the merged flight
otherwise. -/
def emitted (P : List Flight) (c : Flight) : Option Flight :=
  match matchedPoints P c.ID with
  | none => none
  | some p => if p.PointsRequired = 0 then none else some (Run.merged c p)

/-- A currency-priced flight priced 300 on the single segment `AA100`. -/
def exampleCash : Flight :=
  ⟨true, [⟨"AA100", "08:00", "11:00"⟩], "3h 0m", 0, F64.ofInt 300, F64.fin false 0 0,
    F64.fin false 0 0⟩

/-- The points-priced flight of the same itinerary: 10000 points and 50 of taxes. -/
def examplePoints : Flight :=
  ⟨true, [⟨"AA100", "08:00", "11:00"⟩], "3h 0m", 10000, F64.fin false 0 0, F64.ofInt 50,
    F64.fin false 0 0⟩

/-- The merge of `exampleCash` with `examplePoints`: 2.5 cents per point. -/
def exampleMerged : Flight :=
  { exampleCash with
    PointsRequired := 10000, TaxesFeesUSD := F64.ofInt 50, CPP := F64.ofRatio false 5 2 }

/-- The HTTP statuses after which `Client.do` is specified to retry with a wait. -/
def retryableStatus (code : Int) : Bool :=
  decide (code ∈ [400, 403, 429, 500, 502, 504, 520, 522])

/-- The error carries an HTTP status of the retryable set. -/
def AttemptError.hasRetryableStatus (err : AttemptError) : Bool :=
  match err.status with
  | some code => retryableStatus code
  | none => false

/-- The error is a network timeout, an EOF or unexpected EOF, or has the
proxy-failure message. -/
def AttemptError.isTransient (err : AttemptError) : Bool :=
  err.timeout || err.eof || err.proxy

/-- The wait specified after the `failed`-th failed attempt: 100ms, 500ms, then 1s. -/
def scheduledWait (failed : Nat) : Nat :=
  if failed = 1 then 100 * millisecond
  else if failed = 2 then 500 * millisecond
  else 1 * second

/-- An attempt that failed with HTTP status 502. -/
def status502 : AttemptError :=
  ⟨"service: POST https://aa.example/search/itinerary/v2.0 returned (Bad Gateway): 502",
    false, some 502, false, false⟩

/-- An attempt that failed with HTTP status 502 and whose response body, quoted in
the error text, is the proxy-failure message. -/
def proxy502 : AttemptError :=
  ⟨"service: POST https://aa.example/search/itinerary/v2.0 returned (Proxy responded with non 200 code): 502",
    false, some 502, false, true⟩

/-- An attempt that failed with HTTP status 404 and whose response body, quoted in
the error text, is the proxy-failure message. -/
def proxy404 : AttemptError :=
  ⟨"service: POST https://aa.example/search/itinerary/v2.0 returned (Proxy responded with non 200 code): 404",
    false, some 404, false, true⟩

/-- An attempt that failed with HTTP status 404. -/
def status404 : AttemptError :=
  ⟨"service: POST https://aa.example/search/itinerary/v2.0 returned (Not Found): 404",
    false, some 404, false, false⟩

/-- A flight with the given segment flight numbers, 120 points and a price of 90. -/
def flightOf (numbers : List String) : Flight :=
  ⟨true, numbers.map (fun n => ⟨n, "08:00", "11:00"⟩), "3h 0m", 120, F64.ofInt 90,
    F64.fin false 0 0, F64.fin false 0 0⟩

/-- A leap year of the Gregorian calendar. -/
def leapYear (y : Nat) : Prop := (y % 4 = 0 ∧ y % 100 ≠ 0) ∨ y % 400 = 0

/-- The number of days of month `m` (1 = January) of year `y`. -/
def daysInMonth (y m : Nat) : Nat :=
  ([31, if y % 400 = 0 ∨ (y % 4 = 0 ∧ y % 100 ≠ 0) then 29 else 28,
    31, 30, 31, 30, 31, 31, 30, 31, 30, 31] : List Nat).getD (m - 1) 0

/-- The text is a real calendar date written as `YYYY-MM-DD`: four digits, a dash, two
digits, a dash, two digits, where the month is 1 to 12 and the day exists in that month
of that year. -/
def isCalendarDate (s : String) : Prop :=
  ∃ y1 y2 y3 y4 m1 m2 d1 d2 : Char,
    s.toList = [y1, y2, y3, y4, '-', m1, m2, '-', d1, d2]
    ∧ (∀ c ∈ [y1, y2, y3, y4, m1, m2, d1, d2], c.isDigit = true)
    ∧ 1 ≤ decVal m1 * 10 + decVal m2 ∧ decVal m1 * 10 + decVal m2 ≤ 12
    ∧ 1 ≤ decVal d1 * 10 + decVal d2
    ∧ decVal d1 * 10 + decVal d2 ≤
        daysInMonth (decVal y1 * 1000 + decVal y2 * 100 + decVal y3 * 10 + decVal y4)
          (decVal m1 * 10 + decVal m2)

/-- The text is exactly three ASCII letters (`a` to `z`, `A` to `Z`). -/
def isThreeLetters (s : String) : Prop :=
  s.length = 3 ∧ ∀ c ∈ s.toList, c.isAlpha = true

/-- A configuration whose origin and destination are three digits. -/
def digitsConfig : Config :=
  ⟨false, "", "https://aa.example", "123", "456", "2025-01-15", 1, "main"⟩

/-- A configuration whose origin is the three letters `ÄÖÜ`, none of them ASCII. -/
def umlautConfig : Config :=
  ⟨false, "", "https://aa.example", "ÄÖÜ", "LAX", "2025-01-15", 1, "main"⟩

/-- A configuration with airport codes and a real date. -/
def validConfig : Config :=
  ⟨false, "", "https://aa.example", "jfk", "LAX", "2024-02-29", 2, "Main"⟩

/-- The pricing entry that decides a cash search on a slice: the last entry of the
list whose product type is the requested one. -/
def lastMatching (productType : String) (pricingDetail : List responsePricingDetail) :
    Option responsePricingDetail :=
  pricingDetail.reverse.find? (fun pd => decide (pd.ProductType = productType))

/-- The per-passenger price of a pricing entry: its taxes/fees amount divided by the
passenger count. -/
def priceOf (passengers : Int) (pd : responsePricingDetail) : F64 :=
  F64.div pd.Amount (F64.ofInt passengers)

/-- The segments of a slice whose timestamps all parse. -/
def segmentsOf (clock : String → Option String) (slice : responseSlice) : List FlightSegment :=
  slice.Segments.map (fun sg =>
    ⟨sg.CarrierCode ++ sg.FlightNumber, (clock sg.DepartureDateTime).getD "",
      (clock sg.ArrivalDateTime).getD ""⟩)

/-- The flight of a cash search for a slice and the price found for it. -/
def cashFlight (clock : String → Option String) (slice : responseSlice) (price : F64) : Flight :=
  { IsNonstop := decide (slice.Stops = 0)
    Segments := segmentsOf clock slice
    TotalDuration := Search.duration slice.DurationInMinutes
    PointsRequired := 0
    CashPriceUSD := price
    TaxesFeesUSD := F64.fin false 0 0
    CPP := F64.fin false 0 0 }

/-- What a cash search returns for one slice: nothing when no pricing entry has the
requested product type or when the price of the last such entry is zero, the flight
with that price otherwise. -/
def cashResult (clock : String → Option String) (passengers : Int) (productType : String)
    (slice : responseSlice) : Option Flight :=
  match lastMatching productType slice.PricingDetail with
  | none => none
  | some pd =>
      if (priceOf passengers pd).isZero then none
      else some (cashFlight clock slice (priceOf passengers pd))

/-- The timestamps of every segment of every slice parse. -/
def timesParse (clock : String → Option String) (slices : List responseSlice) : Prop :=
  ∀ slice ∈ slices, ∀ sg ∈ slice.Segments,
    (clock sg.DepartureDateTime).isSome = true ∧ (clock sg.ArrivalDateTime).isSome = true

/-- A clock that reads the characters 11 to 15 of a timestamp. -/
def exampleClock (s : String) : Option String :=
  if s.length < 16 then none else some (String.mk ((s.toList.drop 11).take 5))

/-- A slice with one segment and the given pricing entries. -/
def exampleSlice (number : String) (pricing : List (String × Int)) : responseSlice :=
  { Segments := [⟨"AA", number, "2025-12-15T08:05:00.000-05:00", "2025-12-15T11:20:00.000-08:00"⟩]
    CheapestPrice := ⟨"", F64.fin false 0 0, ""⟩
    PricingDetail := pricing.map (fun p => ⟨"", F64.ofInt p.2, p.1⟩)
    Stops := 0
    DurationInMinutes := 375 }

/-- The result the amd64 implementation gives for a float to `int` conversion out of
range: the least `int64`. -/
def amd64OutOfRange : F64 → Int := fun _ => -9223372036854775808

/-- The number a sequence of decimal digits denotes. -/
def natVal (digits : List Char) : Nat :=
  digits.foldl (fun n c => n * 10 + decVal c) 0

/-- The multiplier a unit suffix stands for: 1000 for `k`/`K`, 1000000 for `m`/`M`,
1000000000 for `b`/`B`, and 1 for no suffix. -/
def multiplier (suffix : List Char) : Option Nat :=
  if suffix = [] then some 1
  else if suffix = ['k'] ∨ suffix = ['K'] then some 1000
  else if suffix = ['m'] ∨ suffix = ['M'] then some 1000000
  else if suffix = ['b'] ∨ suffix = ['B'] then some 1000000000
  else none

/-- The sign a sign prefix stands for: `-1` for `-`, `1` for `+` or no sign. -/
def signOf (sign : List Char) : Option Int :=
  if sign = [] ∨ sign = ['+'] then some 1
  else if sign = ['-'] then some (-1)
  else none

/-- The exact product of a token: the number its sign and digits denote, with
`fracs` the digits after the point, times the multiplier. -/
def tokenValue (sg : Int) (ints fracs : List Char) (mult : Nat) : ℚ :=
  (sg : ℚ) * ((natVal (ints ++ fracs) : ℚ) / 10 ^ fracs.length) * (mult : ℚ)

/-- The text of a token once the commas and the white space have been removed. -/
def withoutSeparators (s : String) : List Char :=
  s.toList.filter (fun c => c != ',' && !unicodeIsSpace c)

/-- The text of a token after removing white space, commas and one trailing unit
suffix k/K, m/M or b/B. -/
def remainingText (s : String) : List Char :=
  match (withoutSeparators s).getLast? with
  | some last =>
      if last ∈ ['k', 'K', 'm', 'M', 'b', 'B'] then (withoutSeparators s).dropLast
      else withoutSeparators s
  | none => []

/-- The text is a signed integer: an optional sign followed by at least one decimal
digit. -/
def isSignedInteger (txt : List Char) : Prop :=
  ∃ sign digits : List Char, txt = sign ++ digits
    ∧ (sign = [] ∨ sign = ['+'] ∨ sign = ['-'])
    ∧ digits ≠ [] ∧ ∀ c ∈ digits, c.isDigit = true

/-- The text is a signed integer whose value is an `int64`. -/
def isInt64Integer (txt : List Char) : Prop :=
  ∃ sign digits : List Char, ∃ sg : Int, txt = sign ++ digits ∧ signOf sign = some sg
    ∧ digits ≠ [] ∧ (∀ c ∈ digits, c.isDigit = true)
    ∧ -(2 : Int) ^ 63 ≤ sg * (natVal digits : Int) ∧ sg * (natVal digits : Int) < (2 : Int) ^ 63

/-- The text is a signed decimal: an optional sign, then decimal digits around one
decimal point, with at least one digit. -/
def isSignedDecimal (txt : List Char) : Prop :=
  ∃ sign ints fracs : List Char, txt = sign ++ (ints ++ '.' :: fracs)
    ∧ (sign = [] ∨ sign = ['+'] ∨ sign = ['-'])
    ∧ ints ++ fracs ≠ []
    ∧ (∀ c ∈ ints, c.isDigit = true) ∧ (∀ c ∈ fracs, c.isDigit = true)

/-! ## Floating-point numbers as text -/

/-- A digit of a number: a decimal digit, or, in a hexadecimal number, also a letter
`a` to `f` or `A` to `F`. -/
def isNumeralDigit (hex : Bool) (c : Char) : Prop :=
  c.isDigit = true ∨ (hex = true ∧ (('a' ≤ c ∧ c ≤ 'f') ∨ ('A' ≤ c ∧ c ≤ 'F')))

/-- The text is a mantissa: digits, with at most one point among them and possibly
underscores, and at least one digit. -/
def isMantissa (hex : Bool) (m : List Char) : Prop :=
  (∀ c ∈ m, isNumeralDigit hex c ∨ c = '_' ∨ c = '.')
    ∧ m.count '.' ≤ 1 ∧ ∃ c ∈ m, isNumeralDigit hex c

/-- The text is an exponent: one of the `marks`, an optional sign, and decimal digits,
possibly with underscores after the first digit. -/
def isExponent (marks : List Char) (x : List Char) : Prop :=
  ∃ mark d, ∃ sign rest : List Char, x = mark :: (sign ++ d :: rest) ∧ mark ∈ marks
    ∧ (sign = [] ∨ sign = ['+'] ∨ sign = ['-'])
    ∧ d.isDigit = true ∧ ∀ c ∈ rest, c.isDigit = true ∨ c = '_'

/-- Every underscore of the text stands between two digits, or, when `afterPrefix`,
at the start of the text and before a digit. -/
def underscoresSeparateDigits (hex afterPrefix : Bool) (body : List Char) : Prop :=
  ∀ pre post : List Char, body = pre ++ '_' :: post →
    ((∃ a pre', pre = pre' ++ [a] ∧ isNumeralDigit hex a) ∨ (afterPrefix = true ∧ pre = []))
    ∧ ∃ b post', post = b :: post' ∧ isNumeralDigit hex b

/-- The text has the shape of a floating-point number of `strconv.ParseFloat`: an
optional sign, then either a decimal mantissa with an optional exponent `e`/`E`, or
`0x`/`0X`, a hexadecimal mantissa and an exponent `p`/`P`; an underscore only stands
between two digits, or between the prefix `0x` and a digit. -/
def isFloatNumber (txt : List Char) : Prop :=
  ∃ sign mant exp : List Char, (sign = [] ∨ sign = ['+'] ∨ sign = ['-'])
    ∧ ((txt = sign ++ (mant ++ exp) ∧ isMantissa false mant
          ∧ (exp = [] ∨ isExponent ['e', 'E'] exp)
          ∧ underscoresSeparateDigits false false (mant ++ exp))
      ∨ (∃ x, (x = 'x' ∨ x = 'X') ∧ txt = sign ++ '0' :: x :: (mant ++ exp)
          ∧ isMantissa true mant ∧ isExponent ['p', 'P'] exp
          ∧ underscoresSeparateDigits true true (mant ++ exp)))

/-! ## Duration text -/

/-- The text is the decimal numeral of `n`: a non-empty sequence of decimal digits that
denotes `n` and has no leading zero, the numeral `0` apart. -/
def isDecimalNumeral (txt : List Char) (n : Nat) : Prop :=
  txt ≠ [] ∧ (∀ c ∈ txt, c.isDigit = true) ∧ (txt.head? = some '0' → txt = ['0'])
    ∧ natVal txt = n

/-- The text is the duration text of `m` minutes: the decimal numeral of `m / 60`, then
`h` and a blank, then the decimal numeral of `m % 60`, then `m`. -/
def isDurationText (txt : String) (m : Int) : Prop :=
  ∃ hours minutes : Nat, ∃ hs ms : List Char,
    txt = String.mk (hs ++ ['h', ' '] ++ ms ++ ['m'])
    ∧ isDecimalNumeral hs hours ∧ isDecimalNumeral ms minutes
    ∧ (hours : Int) = m / 60 ∧ (minutes : Int) = m % 60
    ∧ 60 * (hours : Int) + (minutes : Int) = m ∧ minutes < 60

/-- The example slice with a duration of `m` minutes, offered in `COACH` for 100. -/
def sliceOfDuration (m : Int) : responseSlice :=
  { exampleSlice "100" [("COACH", 100)] with DurationInMinutes := m }

/-- The flight a cash search gives for `sliceOfDuration m`, with the duration text
`duration`. -/
def flightOfDuration (duration : String) : Flight :=
  ⟨true, [⟨"AA100", "08:05", "11:20"⟩], duration, 0, F64.ofInt 100,
    F64.fin false 0 0, F64.fin false 0 0⟩

/-! ## Numbers denoted by binary64 values -/

/-- The number a binary64 value denotes (`0` for an infinity and for a NaN). -/
def F64.toRat : F64 → ℚ
  | .fin s m e => (if s then -1 else 1) * (m : ℚ) * (2 : ℚ) ^ e
  | _ => 0

/-- The value is a finite number. -/
def F64.isFinite : F64 → Bool
  | .fin _ _ _ => true
  | _ => false

/-- The integer nearest to `q`, a half rounded away from zero. -/
def roundHalfAway (q : ℚ) : ℤ := if 0 ≤ q then ⌊q + 1 / 2⌋ else -⌊-q + 1 / 2⌋

/-- The cents per point of the specification, over the rationals:
`(cash - taxes) / points * 100`. -/
def exactCpp (cash taxes : ℚ) (points : ℤ) : ℚ := (cash - taxes) / points * 100

/-- A currency-priced flight with the given price on the single segment `AA100`. -/
def cashFlightOf (price : F64) : Flight :=
  ⟨true, [⟨"AA100", "08:00", "11:00"⟩], "3h 0m", 0, price, F64.fin false 0 0,
    F64.fin false 0 0⟩

/-- The points-priced flight of the same itinerary with the given points and taxes. -/
def pointsFlightOf (points : Int) (taxes : F64) : Flight :=
  ⟨true, [⟨"AA100", "08:00", "11:00"⟩], "3h 0m", points, F64.fin false 0 0, taxes,
    F64.fin false 0 0⟩

/-! # Properties -/

/-! ## The merge step -/

theorem foldl_set_apply (P : List Flight) (init : FlightMap) (id : String) :
    P.foldl (fun lookup f => lookup.set f.ID f) init id =
      (matchedPoints P id).or (init id) := by
  induction P generalizing init with
  | nil => simp [matchedPoints]
  | cons a P ih =>
    rw [List.foldl_cons, ih]
    simp only [matchedPoints, List.reverse_cons, List.find?_append]
    cases List.find? (fun p => decide (p.ID = id)) P.reverse with
    | some p => simp
    | none =>
      by_cases h : a.ID = id
      · simp [FlightMap.set, h]
      · have h' : id ≠ a.ID := fun e => h e.symm
        simp [FlightMap.set, h, h']

theorem lookup_eq_matchedPoints (P : List Flight) (id : String) :
    Run.lookup P id = matchedPoints P id := by
  unfold Run.lookup
  rw [foldl_set_apply]
  cases matchedPoints P id <;> rfl

theorem combineStep_eq (P : List Flight) (flights : List Flight) (c : Flight) :
    Run.combineStep (Run.lookup P) flights c = flights ++ (emitted P c).toList := by
  unfold Run.combineStep emitted
  rw [lookup_eq_matchedPoints]
  cases matchedPoints P c.ID with
  | none => simp
  | some p => by_cases h : p.PointsRequired = 0 <;> simp [h]

theorem foldl_combineStep (P C : List Flight) (flights : List Flight) :
    C.foldl (Run.combineStep (Run.lookup P)) flights = flights ++ C.filterMap (emitted P) := by
  induction C generalizing flights with
  | nil => simp
  | cons c C ih =>
    rw [List.foldl_cons, ih, combineStep_eq, List.filterMap_cons]
    cases emitted P c <;> simp

theorem combine_eq_filterMap (C P : List Flight) :
    Run.combine C P = C.filterMap (emitted P) := by
  unfold Run.combine
  rw [foldl_combineStep]
  simp

/-- C1. The merge step of `Run` emits, in the order of the currency-priced flights
`C`, exactly the merged forms of those flights of `C` whose ID is the ID of a flight
of `P` and whose matched points flight (the last flight of `P` with that ID) has
`PointsRequired ≠ 0`; every other flight of `C` is dropped, and every emitted flight
has the ID and the segments of a flight of `C`, so a flight that only appears in `P`
is never emitted. -/
theorem combine_emits_exactly_matched (C P : List Flight) :
    Run.combine C P = C.filterMap (emitted P)
    ∧ (∀ c, (∃ f, emitted P c = some f) ↔
        ∃ p, p ∈ P ∧ p.ID = c.ID ∧ matchedPoints P c.ID = some p ∧ p.PointsRequired ≠ 0)
    ∧ (∀ c, emitted P c = none ↔
        (¬ ∃ p, p ∈ P ∧ p.ID = c.ID) ∨ ∃ p, matchedPoints P c.ID = some p ∧ p.PointsRequired = 0)
    ∧ (∀ id p, matchedPoints P id = some p →
        ∃ before after, P = before ++ p :: after ∧ p.ID = id ∧ ∀ q ∈ after, q.ID ≠ id)
    ∧ (∀ f ∈ Run.combine C P, ∃ c ∈ C, f.ID = c.ID ∧ f.Segments = c.Segments) := by
  have hmem : ∀ id p, matchedPoints P id = some p →
      ∃ before after, P = before ++ p :: after ∧ p.ID = id ∧ ∀ q ∈ after, q.ID ≠ id := by
    intro id p h
    unfold matchedPoints at h
    obtain ⟨hp, as, bs, hsplit, hno⟩ := List.find?_eq_some.mp h
    refine ⟨bs.reverse, as.reverse, ?_, by simpa using hp, ?_⟩
    · have := congrArg List.reverse hsplit
      simpa using this
    · intro q hq
      have := hno q (by simpa using hq)
      simpa using this
  have hnone : ∀ id, matchedPoints P id = none ↔ ¬ ∃ p, p ∈ P ∧ p.ID = id := by
    intro id
    unfold matchedPoints
    rw [List.find?_eq_none]
    constructor
    · rintro h ⟨p, hp, hid⟩
      exact h p (by simpa using hp) (by simpa using hid)
    · intro h p hp hid
      exact h ⟨p, by simpa using hp, by simpa using hid⟩
  refine ⟨combine_eq_filterMap C P, ?_, ?_, hmem, ?_⟩
  · intro c
    unfold emitted
    cases hm : matchedPoints P c.ID with
    | none =>
      have := (hnone c.ID).mp hm
      constructor
      · rintro ⟨f, hf⟩; simp at hf
      · rintro ⟨p, hp, hid, hsome, _⟩; simp at hsome
    | some p =>
      obtain ⟨before, after, hP, hid, _⟩ := hmem c.ID p hm
      by_cases h0 : p.PointsRequired = 0
      · simp [h0]
        intro q _ _ hq
        rw [← hq]; exact h0
      · simp only [h0, if_false]
        constructor
        · intro _
          exact ⟨p, by rw [hP]; simp, hid, rfl, h0⟩
        · intro _
          exact ⟨_, rfl⟩
  · intro c
    unfold emitted
    cases hm : matchedPoints P c.ID with
    | none =>
      have := (hnone c.ID).mp hm
      simp only [true_iff]
      exact Or.inl this
    | some p =>
      obtain ⟨before, after, hP, hid, _⟩ := hmem c.ID p hm
      by_cases h0 : p.PointsRequired = 0
      · simp only [h0, if_true, true_iff]
        exact Or.inr ⟨p, rfl, h0⟩
      · simp only [h0, if_false]
        constructor
        · intro h; simp at h
        · rintro (h | ⟨q, hq, hq0⟩)
          · exact absurd ⟨p, by rw [hP]; simp, hid⟩ h
          · simp at hq; rw [hq] at h0; exact absurd hq0 h0
  · intro f hf
    rw [combine_eq_filterMap, List.mem_filterMap] at hf
    obtain ⟨c, hc, hcf⟩ := hf
    refine ⟨c, hc, ?_⟩
    unfold emitted at hcf
    cases hm : matchedPoints P c.ID with
    | none => rw [hm] at hcf; simp at hcf
    | some p =>
      rw [hm] at hcf
      by_cases h0 : p.PointsRequired = 0
      · simp [h0] at hcf
      · simp only [h0, if_false, Option.some.injEq] at hcf
        rw [← hcf]
        exact ⟨rfl, rfl⟩

/-! ## Binary digits and rounding of integers -/

theorem bitLenAux_zero (fuel : Nat) : F64.bitLenAux fuel 0 = 0 := by
  cases fuel <;> simp [F64.bitLenAux]

theorem bitLenAux_bounds (fuel n : Nat) (hfuel : n ≤ fuel) (hn : n ≠ 0) :
    2 ^ (F64.bitLenAux fuel n - 1) ≤ n ∧ n < 2 ^ (F64.bitLenAux fuel n) := by
  induction fuel generalizing n with
  | zero => omega
  | succ fuel ih =>
    simp only [F64.bitLenAux, hn, if_false]
    by_cases h2 : n / 2 = 0
    · rw [h2, bitLenAux_zero]
      have : n = 1 := by omega
      subst this
      simp
    · have hle : n / 2 ≤ fuel := by omega
      obtain ⟨hlo, hhi⟩ := ih (n / 2) hle h2
      have hk : F64.bitLenAux fuel (n / 2) ≠ 0 := by
        intro h0
        rw [h0] at hhi
        simp at hhi
        exact h2 hhi
      obtain ⟨k, hk'⟩ := Nat.exists_eq_succ_of_ne_zero hk
      rw [hk'] at hlo hhi ⊢
      simp only [Nat.succ_eq_add_one, Nat.add_sub_cancel] at hlo ⊢
      have e1 : 2 ^ (k + 1) = 2 * 2 ^ k := by rw [pow_succ]; ring
      have e2 : 2 ^ (k + 1 + 1) = 2 * 2 ^ (k + 1) := by rw [pow_succ]; ring
      constructor <;> omega

theorem bitLen_bounds (n : Nat) (hn : n ≠ 0) :
    2 ^ (F64.bitLen n - 1) ≤ n ∧ n < 2 ^ (F64.bitLen n) :=
  bitLenAux_bounds n n (le_refl n) hn

theorem le_nearestEven (n d : Nat) : n / d ≤ F64.nearestEven n d := by
  unfold F64.nearestEven
  simp only
  split_ifs <;> omega

theorem ofRatio_one_isZero (s : Bool) (n : Nat) (hn : n ≠ 0) :
    (F64.ofRatio s n 1).isZero = false := by
  have hq : F64.nearestEven (F64.scaleNum n (F64.binade n 1)) (F64.scaleDen 1 (F64.binade n 1)) ≠ 0 := by
    have hle := le_nearestEven (F64.scaleNum n (F64.binade n 1)) (F64.scaleDen 1 (F64.binade n 1))
    suffices h : 1 ≤ F64.scaleNum n (F64.binade n 1) / F64.scaleDen 1 (F64.binade n 1) by omega
    have hb := bitLen_bounds n hn
    have hb1 : F64.bitLen 1 = 1 := by decide
    by_cases he : F64.binade n 1 ≤ 0
    · simp only [F64.scaleNum, F64.scaleDen, he, if_true, Nat.div_one]
      have : 0 < 2 ^ (-F64.binade n 1).toNat := by positivity
      have : 0 < n := Nat.pos_of_ne_zero hn
      exact Nat.mul_pos ‹0 < n› ‹0 < 2 ^ (-F64.binade n 1).toNat›
    · simp only [F64.scaleNum, F64.scaleDen, he, if_false, one_mul]
      have hbin : F64.binade n 1 ≤ (F64.bitLen n : Int) - 53 := by
        unfold F64.binade at he ⊢
        simp only [hb1] at he ⊢
        split_ifs at he ⊢ <;> omega
      have hexp : (F64.binade n 1).toNat ≤ F64.bitLen n - 1 := by omega
      have hpow : 2 ^ (F64.binade n 1).toNat ≤ 2 ^ (F64.bitLen n - 1) :=
        Nat.pow_le_pow_right (by norm_num) hexp
      have : 2 ^ (F64.binade n 1).toNat ≤ n := le_trans hpow hb.1
      exact (Nat.one_le_div_iff (by positivity)).mpr this
  unfold F64.ofRatio
  simp only [hn, if_false]
  split_ifs <;> simp_all [F64.isZero]

theorem ofInt_isZero (n : Int) (hn : n ≠ 0) : (F64.ofInt n).isZero = false := by
  unfold F64.ofInt
  exact ofRatio_one_isZero _ _ (by omega)

/-! ## The request executor -/

theorem classify_wait (err : AttemptError) :
    (classify err).wait = err.hasRetryableStatus := by
  unfold classify AttemptError.hasRetryableStatus retryableStatus
  cases hs : err.status with
  | none => by_cases h1 : err.timeout <;> by_cases h2 : err.eof ∨ err.proxy <;> simp [h1, h2]
  | some code =>
    by_cases hc : code = 502 ∨ code = 504 ∨ code = 429 ∨ code = 500 ∨ code = 520 ∨ code = 522
          ∨ code = 403 ∨ code = 400
    · by_cases h1 : err.timeout <;> by_cases h2 : err.eof ∨ err.proxy <;> simp [h1, h2, hc] <;>
        omega
    · by_cases h1 : err.timeout <;> by_cases h2 : err.eof ∨ err.proxy <;> simp [h1, h2, hc] <;>
        omega

theorem classify_retry (err : AttemptError) :
    (classify err).retry = (err.hasRetryableStatus || err.isTransient) := by
  unfold classify AttemptError.hasRetryableStatus retryableStatus AttemptError.isTransient
  cases hs : err.status with
  | none =>
    cases h1 : err.timeout <;> cases h2 : err.eof <;> cases h3 : err.proxy <;> simp
  | some code =>
    by_cases hc : code = 502 ∨ code = 504 ∨ code = 429 ∨ code = 500 ∨ code = 520 ∨ code = 522
          ∨ code = 403 ∨ code = 400
    · have : code = 400 ∨ code = 403 ∨ code = 429 ∨ code = 500 ∨ code = 502 ∨ code = 504
          ∨ code = 520 ∨ code = 522 := by omega
      cases h1 : err.timeout <;> cases h2 : err.eof <;> cases h3 : err.proxy <;> simp [hc, this]
    · have : ¬ (code = 400 ∨ code = 403 ∨ code = 429 ∨ code = 500 ∨ code = 502 ∨ code = 504
          ∨ code = 520 ∨ code = 522) := by omega
      cases h1 : err.timeout <;> cases h2 : err.eof <;> cases h3 : err.proxy <;> simp [hc, this]

theorem doLoop_ok (doAttempt : Nat → Except AttemptError String) (ctxDone : Nat → Bool)
    (a : Nat) (w : List Nat) (b : String) (h : doAttempt a = .ok b) :
    Client.doLoop doAttempt ctxDone a w = ⟨.ok b, a + 1, w⟩ := by
  rw [Client.doLoop, h]

theorem doLoop_last (doAttempt : Nat → Except AttemptError String) (ctxDone : Nat → Bool)
    (a : Nat) (w : List Nat) (err : AttemptError) (h : doAttempt a = .error err)
    (ha : maxAttempts ≤ a + 1) :
    Client.doLoop doAttempt ctxDone a w = ⟨.error (.attempt err), a + 1, w⟩ := by
  rw [Client.doLoop, h]
  simp [ha]

theorem doLoop_stop (doAttempt : Nat → Except AttemptError String) (ctxDone : Nat → Bool)
    (a : Nat) (w : List Nat) (err : AttemptError) (h : doAttempt a = .error err)
    (hr : (classify err).retry = false) :
    Client.doLoop doAttempt ctxDone a w = ⟨.error (.attempt err), a + 1, w⟩ := by
  rw [Client.doLoop, h]
  simp [hr]

theorem doLoop_retry (doAttempt : Nat → Except AttemptError String) (ctxDone : Nat → Bool)
    (a : Nat) (w : List Nat) (err : AttemptError) (h : doAttempt a = .error err)
    (ha : a + 1 < maxAttempts) (hr : (classify err).retry = true)
    (hw : (classify err).wait = false) :
    Client.doLoop doAttempt ctxDone a w = Client.doLoop doAttempt ctxDone (a + 1) w := by
  rw [Client.doLoop, h]
  have : ¬ maxAttempts ≤ a + 1 := by omega
  simp [this, hr, hw]

theorem backoff_get (a : Nat) (ha : a + 1 < maxAttempts) :
    backoff[(if backoff.length ≤ a + 1 - 1 then backoff.length - 1 else a + 1 - 1)]? =
      some (backoff.getD a 0) ∧ a < backoff.length := by
  have h3 : a < 3 := by
    have := ha
    simp [maxAttempts, backoff] at this
    omega
  interval_cases a <;> simp [backoff]

theorem doLoop_wait (doAttempt : Nat → Except AttemptError String) (ctxDone : Nat → Bool)
    (a : Nat) (w : List Nat) (err : AttemptError) (h : doAttempt a = .error err)
    (ha : a + 1 < maxAttempts) (hw : (classify err).wait = true) :
    Client.doLoop doAttempt ctxDone a w =
      if ctxDone (a + 1) then ⟨.error .context, a + 1, w ++ [backoff.getD a 0]⟩
      else Client.doLoop doAttempt ctxDone (a + 1) (w ++ [backoff.getD a 0]) := by
  have hr : (classify err).retry = true := by
    rw [classify_retry]; rw [classify_wait] at hw; simp [hw]
  rw [Client.doLoop, h]
  have hlt : ¬ maxAttempts ≤ a + 1 := by omega
  simp only [hlt, dif_neg, not_false_eq_true, hr, hw, Bool.not_true, if_true, Bool.false_eq_true,
    if_false]
  rw [(backoff_get a ha).1]

theorem doLoop_calls_le (doAttempt : Nat → Except AttemptError String) (ctxDone : Nat → Bool)
    (n a : Nat) (w : List Nat) (hn : maxAttempts - a ≤ n) (ha : a < maxAttempts) :
    (Client.doLoop doAttempt ctxDone a w).calls ≤ maxAttempts := by
  induction n generalizing a w with
  | zero => omega
  | succ n ih =>
    cases h : doAttempt a with
    | ok b => rw [doLoop_ok _ _ _ _ _ h]; exact ha
    | error err =>
      by_cases hlast : maxAttempts ≤ a + 1
      · rw [doLoop_last _ _ _ _ _ h hlast]; exact ha
      · have ha' : a + 1 < maxAttempts := by omega
        cases hr : (classify err).retry with
        | false => rw [doLoop_stop _ _ _ _ _ h hr]; exact ha
        | true =>
          cases hw : (classify err).wait with
          | false =>
            rw [doLoop_retry _ _ _ _ _ h ha' hr hw]
            exact ih _ _ (by omega) ha'
          | true =>
            rw [doLoop_wait _ _ _ _ _ h ha' hw]
            split_ifs
            · exact ha
            · exact ih _ _ (by omega) ha'

/-- C6. `Client.do` never calls `doAttempt` more than 4 times; and when every attempt
fails with a retryable HTTP status and the context is never done during a wait, it
makes exactly 4 attempts, waiting 100ms, 500ms and 1s between them, and returns the
error of the 4th attempt itself. -/
theorem do_retry_budget (doAttempt : Nat → Except AttemptError String)
    (ctxDone : Nat → Bool) :
    (Client.do_ doAttempt ctxDone).calls ≤ 4
    ∧ ((∀ k, ∃ err, doAttempt k = .error err ∧ err.hasRetryableStatus = true) →
       (∀ k, ctxDone k = false) →
       ∃ err4, doAttempt 3 = .error err4 ∧
         Client.do_ doAttempt ctxDone =
           ⟨.error (.attempt err4), 4, [100 * millisecond, 500 * millisecond, 1 * second]⟩) := by
  constructor
  · exact doLoop_calls_le doAttempt ctxDone 4 0 [] (by decide) (by decide)
  · intro hfail hctx
    obtain ⟨e1, h1, s1⟩ := hfail 0
    obtain ⟨e2, h2, s2⟩ := hfail 1
    obtain ⟨e3, h3, s3⟩ := hfail 2
    obtain ⟨e4, h4, _⟩ := hfail 3
    refine ⟨e4, h4, ?_⟩
    unfold Client.do_
    rw [doLoop_wait _ _ 0 _ e1 h1 (by decide) (by rw [classify_wait]; exact s1), hctx,
      doLoop_wait _ _ 1 _ e2 h2 (by decide) (by rw [classify_wait]; exact s2), hctx,
      doLoop_wait _ _ 2 _ e3 h3 (by decide) (by rw [classify_wait]; exact s3), hctx,
      doLoop_last _ _ 3 _ e4 h4 (by decide)]
    simp [backoff]

/-- C6, witness: four attempts that all fail with status 502. -/
theorem do_retry_budget_witness :
    (∀ k : Nat, ∃ err, (fun _ => Except.error status502 : Nat → Except AttemptError String) k
        = .error err ∧ err.hasRetryableStatus = true)
    ∧ (∀ k : Nat, (fun _ => false : Nat → Bool) k = false)
    ∧ ∃ err4, (fun _ => Except.error status502 : Nat → Except AttemptError String) 3
        = .error err4 ∧
      Client.do_ (fun _ => .error status502) (fun _ => false) =
        ⟨.error (.attempt err4), 4, [100 * millisecond, 500 * millisecond, 1 * second]⟩ :=
  ⟨fun _ => ⟨status502, rfl, by decide⟩, fun _ => rfl,
    (do_retry_budget (fun _ => .error status502) (fun _ => false)).2
      (fun _ => ⟨status502, rfl, by decide⟩) (fun _ => rfl)⟩

/-- C7, as stated, fails on errors that match two of its cases. An attempt error
that has the proxy-failure message and carries the retryable status 502 is retried
after a wait of 100ms, not at once; and an attempt error with status 404 whose text
has the proxy-failure message is retried, not returned. -/
theorem do_proxy_message_with_status_waits :
    proxy502.proxy = true ∧ proxy502.status = some 502
    ∧ Client.do_ (fun k => if k = 0 then .error proxy502 else .ok "{}") (fun _ => false)
        = ⟨.ok "{}", 2, [100 * millisecond]⟩
    ∧ proxy404.proxy = true ∧ proxy404.status = some 404
    ∧ Client.do_ (fun k => if k = 0 then .error proxy404 else .ok "{}") (fun _ => false)
        = ⟨.ok "{}", 2, []⟩ := by
  refine ⟨rfl, rfl, ?_, rfl, rfl, ?_⟩
  · unfold Client.do_
    rw [doLoop_wait _ _ 0 _ proxy502 rfl (by decide) (by decide)]
    rw [doLoop_ok _ _ 1 _ "{}" rfl]
    simp [backoff]
  · unfold Client.do_
    rw [doLoop_retry _ _ 0 _ proxy404 rfl (by decide) (by decide) (by decide)]
    rw [doLoop_ok _ _ 1 _ "{}" rfl]

/-- C7, amended. After the failure `err` of an attempt that is not the 4th (`a`
attempts had failed before it, `a + 1 < 4`): a timeout, EOF or proxy-failure error
that carries no retryable status is retried with no wait; an error with a status in
{400, 403, 429, 500, 502, 504, 520, 522} starts a wait of 100ms, 500ms or 1s after the
1st, 2nd or 3rd failure (the index `a` is within `backoff`) and is retried when the
wait elapses; any other error is returned at once with no further attempt. -/
theorem do_decision_after_failure (doAttempt : Nat → Except AttemptError String)
    (ctxDone : Nat → Bool) (a : Nat) (w : List Nat) (err : AttemptError)
    (ha : a + 1 < maxAttempts) (h : doAttempt a = .error err) :
    (err.isTransient = true → err.hasRetryableStatus = false →
      Client.doLoop doAttempt ctxDone a w = Client.doLoop doAttempt ctxDone (a + 1) w)
    ∧ (err.hasRetryableStatus = true →
        a + 1 - 1 < backoff.length
        ∧ backoff[a + 1 - 1]? = some (scheduledWait (a + 1))
        ∧ (ctxDone (a + 1) = false →
            Client.doLoop doAttempt ctxDone a w =
              Client.doLoop doAttempt ctxDone (a + 1) (w ++ [scheduledWait (a + 1)])))
    ∧ (err.isTransient = false → err.hasRetryableStatus = false →
        Client.doLoop doAttempt ctxDone a w = ⟨.error (.attempt err), a + 1, w⟩) := by
  have h3 : a < 3 := by
    have := ha
    simp [maxAttempts, backoff] at this
    omega
  have hsched : backoff.getD a 0 = scheduledWait (a + 1) := by
    interval_cases a <;> simp [backoff, scheduledWait]
  refine ⟨?_, ?_, ?_⟩
  · intro ht hs
    exact doLoop_retry _ _ _ _ _ h ha (by rw [classify_retry, ht, hs]; rfl)
      (by rw [classify_wait, hs])
  · intro hs
    refine ⟨?_, ?_, ?_⟩
    · simp [backoff]; omega
    · interval_cases a <;> simp [backoff, scheduledWait]
    · intro hc
      rw [doLoop_wait _ _ _ _ _ h ha (by rw [classify_wait, hs]), hc, hsched]
      simp
  · intro ht hs
    exact doLoop_stop _ _ _ _ _ h (by rw [classify_retry, ht, hs]; rfl)

/-- C7, witness: a first attempt failing with status 404 is returned at once. -/
theorem do_decision_after_failure_witness :
    0 + 1 < maxAttempts
    ∧ (fun _ => Except.error status404 : Nat → Except AttemptError String) 0 = .error status404
    ∧ status404.isTransient = false ∧ status404.hasRetryableStatus = false
    ∧ Client.doLoop (fun _ => .error status404) (fun _ => false) 0 []
        = ⟨.error (.attempt status404), 0 + 1, []⟩ :=
  ⟨by decide, rfl, by decide, by decide,
    (do_decision_after_failure (fun _ => .error status404) (fun _ => false) 0 [] status404
      (by decide) rfl).2.2 (by decide) (by decide)⟩

theorem doLoop_cancelled (doAttempt : Nat → Except AttemptError String)
    (ctxDone : Nat → Bool) (k : Nat) (hk : k + 1 < maxAttempts)
    (hbefore : ∀ j, j < k → ∃ e, doAttempt j = .error e
      ∧ (e.hasRetryableStatus = true ∨ e.isTransient = true)
      ∧ (e.hasRetryableStatus = true → ctxDone (j + 1) = false))
    (err : AttemptError) (hfail : doAttempt k = .error err)
    (hstatus : err.hasRetryableStatus = true) (hdone : ctxDone (k + 1) = true)
    (n a : Nat) (w : List Nat) (hn : a + n = k) :
    (Client.doLoop doAttempt ctxDone a w).result = .error .context
    ∧ (Client.doLoop doAttempt ctxDone a w).calls = k + 1 := by
  induction n generalizing a w with
  | zero =>
    have : a = k := by omega
    subst this
    rw [doLoop_wait _ _ _ _ _ hfail hk (by rw [classify_wait, hstatus]), hdone]
    simp
  | succ n ih =>
    obtain ⟨e, he, hkind, hwait⟩ := hbefore a (by omega)
    have ha : a + 1 < maxAttempts := by omega
    cases hs : e.hasRetryableStatus with
    | true =>
      rw [doLoop_wait _ _ _ _ _ he ha (by rw [classify_wait, hs]), hwait hs]
      simpa using ih (a + 1) _ (by omega)
    | false =>
      have ht : e.isTransient = true := by
        rcases hkind with h | h
        · rw [hs] at h; exact absurd h (by decide)
        · exact h
      rw [doLoop_retry _ _ _ _ _ he ha (by rw [classify_retry, ht, hs]; rfl)
        (by rw [classify_wait, hs])]
      exact ih (a + 1) _ (by omega)

/-- C8. If the `k + 1`-th attempt of a call of `Client.do` (not the 4th; the attempts
before it failed and were retried, their waits having elapsed) fails with a
retryable HTTP status and the context is done during the backoff wait that follows,
the call returns the error of the context, not the HTTP error `err` that started the
wait, and makes no further attempt. -/
theorem do_cancelled_during_wait (doAttempt : Nat → Except AttemptError String)
    (ctxDone : Nat → Bool) (k : Nat) (hk : k + 1 < maxAttempts)
    (hbefore : ∀ j, j < k → ∃ e, doAttempt j = .error e
      ∧ (e.hasRetryableStatus = true ∨ e.isTransient = true)
      ∧ (e.hasRetryableStatus = true → ctxDone (j + 1) = false))
    (err : AttemptError) (hfail : doAttempt k = .error err)
    (hstatus : err.hasRetryableStatus = true) (hdone : ctxDone (k + 1) = true) :
    (Client.do_ doAttempt ctxDone).result = .error .context
    ∧ (Client.do_ doAttempt ctxDone).result ≠ .error (.attempt err)
    ∧ (Client.do_ doAttempt ctxDone).calls = k + 1 := by
  have h := doLoop_cancelled doAttempt ctxDone k hk hbefore err hfail hstatus hdone k 0 []
    (by omega)
  unfold Client.do_
  refine ⟨h.1, ?_, h.2⟩
  rw [h.1]
  simp

/-- C8, witness: the context is done during the wait after the second failure. -/
theorem do_cancelled_during_wait_witness :
    1 + 1 < maxAttempts
    ∧ (∀ j, j < 1 → ∃ e, (fun _ => Except.error status502 : Nat → Except AttemptError String) j
        = .error e
      ∧ (e.hasRetryableStatus = true ∨ e.isTransient = true)
      ∧ (e.hasRetryableStatus = true → (fun j => decide (j = 2) : Nat → Bool) (j + 1) = false))
    ∧ (Client.do_ (fun _ => .error status502) (fun j => decide (j = 2))).result
        = .error .context
    ∧ (Client.do_ (fun _ => .error status502) (fun j => decide (j = 2))).result
        ≠ .error (.attempt status502)
    ∧ (Client.do_ (fun _ => .error status502) (fun j => decide (j = 2))).calls = 1 + 1 :=
  ⟨by decide,
    fun j hj => ⟨status502, rfl, Or.inl (by decide), fun _ => by
      have : j = 0 := by omega
      subst this; decide⟩,
    do_cancelled_during_wait (fun _ => .error status502) (fun j => decide (j = 2)) 1 (by decide)
      (fun j hj => ⟨status502, rfl, Or.inl (by decide), fun _ => by
        have : j = 0 := by omega
        subst this; decide⟩)
      status502 rfl (by decide) (by decide)⟩

/-! ## The identity key -/

theorem numbers_eq_map (f : Flight) :
    f.numbers = f.Segments.map FlightSegment.FlightNumber := by
  unfold Flight.numbers
  have h : ∀ (l : List FlightSegment) (acc : List String),
      l.foldl (fun numbers seg => numbers ++ [seg.FlightNumber]) acc
        = acc ++ l.map FlightSegment.FlightNumber := by
    intro l
    induction l with
    | nil => simp
    | cons a l ih => intro acc; simp [ih]
  simpa using h f.Segments []

theorem append_sep_cancel (c : Char) (a b x y : List Char) (ha : c ∉ a) (hb : c ∉ b)
    (h : a ++ c :: x = b ++ c :: y) : a = b ∧ x = y := by
  induction a generalizing b with
  | nil =>
    cases b with
    | nil => simpa using h
    | cons b0 b =>
      simp at h
      exact absurd h.1 (by intro e; exact hb (by simp [e]))
  | cons a0 a ih =>
    cases b with
    | nil =>
      simp at h
      exact absurd h.1 (by intro e; exact ha (by simp [e]))
    | cons b0 b =>
      simp at h
      obtain ⟨h0, ht⟩ := h
      have := ih b (fun m => ha (List.mem_cons_of_mem _ m))
        (fun m => hb (List.mem_cons_of_mem _ m)) ht
      exact ⟨by rw [h0, this.1], this.2⟩

theorem stringsJoin_inj (l1 l2 : List String) (h1 : l1 ≠ []) (h2 : l2 ≠ [])
    (n1 : ∀ s ∈ l1, '_' ∉ s.data) (n2 : ∀ s ∈ l2, '_' ∉ s.data)
    (h : stringsJoin l1 "_" = stringsJoin l2 "_") : l1 = l2 := by
  induction l1 generalizing l2 with
  | nil => exact absurd rfl h1
  | cons a r1 ih =>
    cases l2 with
    | nil => exact absurd rfl h2
    | cons b r2 =>
      cases r1 with
      | nil =>
        cases r2 with
        | nil => simpa [stringsJoin] using h
        | cons b' r2 =>
          exfalso
          simp only [stringsJoin] at h
          have hd := congrArg String.data h
          simp only [String.data_append] at hd
          have := n1 a (by simp)
          rw [hd] at this
          exact this (by simp [show ("_" : String).data = ['_'] from rfl])
      | cons a' r1 =>
        cases r2 with
        | nil =>
          exfalso
          simp only [stringsJoin] at h
          have hd := congrArg String.data h
          simp only [String.data_append] at hd
          have := n2 b (by simp)
          rw [← hd] at this
          exact this (by simp [show ("_" : String).data = ['_'] from rfl])
        | cons b' r2 =>
          simp only [stringsJoin] at h
          have hd := congrArg String.data h
          simp only [String.data_append, show ("_" : String).data = ['_'] from rfl,
            List.append_assoc, List.singleton_append] at hd
          obtain ⟨hab, hrest⟩ := append_sep_cancel '_' _ _ _ _ (n1 a (by simp)) (n2 b (by simp)) hd
          have hab' : a = b := String.ext hab
          have hrest' : stringsJoin (a' :: r1) "_" = stringsJoin (b' :: r2) "_" :=
            String.ext hrest
          have := ih (b' :: r2) (by simp) (by simp)
            (fun s hs => n1 s (List.mem_cons_of_mem _ hs))
            (fun s hs => n2 s (List.mem_cons_of_mem _ hs)) hrest'
          rw [hab', this]

/-- C5. `Flight.ID`, documented as "a unique ID for the flight based on its segments'
flight numbers", is not unique: the flights with the one segment `A_B` and with the two
segments `A`, `B` have different sequences of flight numbers and the same ID, and so
have the flight with no segment and the flight with one segment of empty number. -/
theorem ID_not_injective :
    (flightOf ["A_B"]).Segments.map FlightSegment.FlightNumber
        ≠ (flightOf ["A", "B"]).Segments.map FlightSegment.FlightNumber
    ∧ (flightOf ["A_B"]).ID = (flightOf ["A", "B"]).ID
    ∧ (flightOf []).Segments.map FlightSegment.FlightNumber
        ≠ (flightOf [""]).Segments.map FlightSegment.FlightNumber
    ∧ (flightOf []).ID = (flightOf [""]).ID := by
  decide

/-- Where the ID is unique: for two flights that each have at least one segment and
whose flight numbers contain no `_`, the IDs are equal iff the sequences of segment
flight numbers are equal, whatever the other fields of the flights are. -/
theorem ID_eq_iff_numbers_eq (f g : Flight) (hf : f.Segments ≠ []) (hg : g.Segments ≠ [])
    (nf : ∀ seg ∈ f.Segments, '_' ∉ seg.FlightNumber.data)
    (ng : ∀ seg ∈ g.Segments, '_' ∉ seg.FlightNumber.data) :
    f.ID = g.ID ↔
      f.Segments.map FlightSegment.FlightNumber = g.Segments.map FlightSegment.FlightNumber := by
  unfold Flight.ID
  rw [numbers_eq_map, numbers_eq_map]
  constructor
  · intro h
    refine stringsJoin_inj _ _ (by simpa using hf) (by simpa using hg) ?_ ?_ h
    · intro s hs
      obtain ⟨seg, hseg, rfl⟩ := List.mem_map.mp hs
      exact nf seg hseg
    · intro s hs
      obtain ⟨seg, hseg, rfl⟩ := List.mem_map.mp hs
      exact ng seg hseg
  · intro h
    rw [h]

/-- The segments `AA100`, `AA200` and `AA200`, `AA100` give different IDs. -/
theorem ID_eq_iff_numbers_eq_witness :
    (flightOf ["AA100", "AA200"]).Segments ≠ [] ∧ (flightOf ["AA200", "AA100"]).Segments ≠ []
    ∧ (∀ seg ∈ (flightOf ["AA100", "AA200"]).Segments, '_' ∉ seg.FlightNumber.data)
    ∧ (∀ seg ∈ (flightOf ["AA200", "AA100"]).Segments, '_' ∉ seg.FlightNumber.data)
    ∧ (flightOf ["AA100", "AA200"]).ID ≠ (flightOf ["AA200", "AA100"]).ID
    ∧ ((flightOf ["AA100", "AA200"]).ID = (flightOf ["AA200", "AA100"]).ID ↔
        (flightOf ["AA100", "AA200"]).Segments.map FlightSegment.FlightNumber
          = (flightOf ["AA200", "AA100"]).Segments.map FlightSegment.FlightNumber) :=
  ⟨by decide, by decide, by decide, by decide, by decide,
    ID_eq_iff_numbers_eq (flightOf ["AA100", "AA200"]) (flightOf ["AA200", "AA100"])
      (by decide) (by decide) (by decide) (by decide)⟩

/-! ## Input validation -/

theorem isDecDigit_eq_isDigit (c : Char) : isDecDigit c = c.isDigit := by
  unfold isDecDigit Char.isDigit
  simp only [Char.le_def, ge_iff_le]
  rw [Bool.eq_iff_iff]
  simp [UInt32.le_def]

theorem daysIn_eq (y m : Nat) (h1 : 1 ≤ m) (h12 : m ≤ 12) : daysIn m y = daysInMonth y m := by
  unfold daysIn daysInMonth isLeap
  have hl : (y % 4 = 0 && (y % 100 != 0 || y % 400 = 0)) = true ↔
      (y % 400 = 0 ∨ (y % 4 = 0 ∧ y % 100 ≠ 0)) := by
    simp only [Bool.and_eq_true, Bool.or_eq_true, decide_eq_true_eq, bne_iff_ne, ne_eq]
    omega
  by_cases hleap : y % 400 = 0 ∨ (y % 4 = 0 ∧ y % 100 ≠ 0)
  · have hl' := hl.mpr hleap
    interval_cases m <;> simp [hl', hleap]
  · have hl' : (y % 4 = 0 && (y % 100 != 0 || y % 400 = 0)) = false := by
      rw [Bool.eq_false_iff]; exact fun h => hleap (hl.mp h)
    interval_cases m <;> simp [hl', hleap]

theorem getYear4_eq_some (l r : List Char) (y : Nat) :
    getYear4 l = some (y, r) ↔
      ∃ y1 y2 y3 y4, l = y1 :: y2 :: y3 :: y4 :: r
        ∧ isDecDigit y1 = true ∧ isDecDigit y2 = true ∧ isDecDigit y3 = true
        ∧ isDecDigit y4 = true
        ∧ y = ((decVal y1 * 10 + decVal y2) * 10 + decVal y3) * 10 + decVal y4 := by
  rcases l with _ | ⟨a, _ | ⟨b, _ | ⟨c, _ | ⟨d, l⟩⟩⟩⟩ <;> simp [getYear4]
  constructor
  · rintro ⟨⟨h1, h2, h3, h4⟩, hy, hr⟩
    exact ⟨a, b, c, d, ⟨rfl, rfl, rfl, rfl, hr⟩, h1, h2, h3, h4, hy.symm⟩
  · rintro ⟨y1, y2, y3, y4, ⟨rfl, rfl, rfl, rfl, rfl⟩, h1, h2, h3, h4, hy⟩
    exact ⟨⟨h1, h2, h3, h4⟩, hy.symm, rfl⟩

theorem skipDash_eq_some (l r : List Char) : skipDash l = some r ↔ l = '-' :: r := by
  rcases l with _ | ⟨a, l⟩ <;> simp [skipDash]

theorem getnum2_eq_some (l r : List Char) (n : Nat) :
    getnum2 l = some (n, r) ↔
      ∃ a b, l = a :: b :: r ∧ isDecDigit a = true ∧ isDecDigit b = true
        ∧ n = decVal a * 10 + decVal b := by
  rcases l with _ | ⟨a, _ | ⟨b, l⟩⟩ <;> simp [getnum2]
  constructor
  · rintro ⟨⟨h1, h2⟩, hn, hr⟩
    exact ⟨a, b, ⟨rfl, rfl, hr⟩, h1, h2, hn.symm⟩
  · rintro ⟨x, y, ⟨rfl, rfl, rfl⟩, h1, h2, hn⟩
    exact ⟨⟨h1, h2⟩, hn.symm, rfl⟩

theorem timeParseDate_isSome_iff (s : String) :
    (timeParseDate s.toList).isSome = true ↔ isCalendarDate s := by
  unfold isCalendarDate
  constructor
  · intro h
    unfold timeParseDate at h
    cases hy : getYear4 s.toList with
    | none => rw [hy] at h; simp at h
    | some yr =>
      obtain ⟨year, v1⟩ := yr
      rw [hy] at h
      simp only at h
      cases h1 : skipDash v1 with
      | none => rw [h1] at h; simp at h
      | some v2 =>
        rw [h1] at h
        simp only at h
        cases hm : getnum2 v2 with
        | none => rw [hm] at h; simp at h
        | some mr =>
          obtain ⟨month, v3⟩ := mr
          rw [hm] at h
          simp only at h
          by_cases hmr : month = 0 ∨ 12 < month
          · simp [hmr] at h
          · simp only [hmr, if_false] at h
            cases h2 : skipDash v3 with
            | none => rw [h2] at h; simp at h
            | some v4 =>
              rw [h2] at h
              simp only at h
              cases hdd : getnum2 v4 with
              | none => rw [hdd] at h; simp at h
              | some dr =>
                obtain ⟨day, v5⟩ := dr
                rw [hdd] at h
                simp only at h
                by_cases hv5 : v5 ≠ []
                · simp [hv5] at h
                · simp only [hv5, if_false] at h
                  by_cases hday : day < 1 ∨ daysIn month year < day
                  · exfalso; simp at h; omega
                  · simp only [ne_eq, not_not] at hv5
                    obtain ⟨y1, y2, y3, y4, hl, e1, e2, e3, e4, hyear⟩ :=
                      (getYear4_eq_some _ _ _).mp hy
                    have hv1 := (skipDash_eq_some _ _).mp h1
                    obtain ⟨m1, m2, hv2, f1, f2, hmonth⟩ := (getnum2_eq_some _ _ _).mp hm
                    have hv3 := (skipDash_eq_some _ _).mp h2
                    obtain ⟨d1, d2, hv4, g1, g2, hdayv⟩ := (getnum2_eq_some _ _ _).mp hdd
                    refine ⟨y1, y2, y3, y4, m1, m2, d1, d2, ?_, ?_, ?_⟩
                    · rw [hl, hv1, hv2, hv3, hv4, hv5]
                    · intro c hc
                      simp only [List.mem_cons, List.mem_singleton, List.not_mem_nil,
                        or_false] at hc
                      rcases hc with rfl | rfl | rfl | rfl | rfl | rfl | rfl | rfl <;>
                        simp [← isDecDigit_eq_isDigit, e1, e2, e3, e4, f1, f2, g1, g2]
                    · have hmm : 1 ≤ month ∧ month ≤ 12 := by omega
                      rw [daysIn_eq _ _ hmm.1 hmm.2] at hday
                      have e : ((decVal y1 * 10 + decVal y2) * 10 + decVal y3) * 10 + decVal y4
                          = decVal y1 * 1000 + decVal y2 * 100 + decVal y3 * 10 + decVal y4 := by
                        ring
                      rw [← e, ← hyear, ← hmonth, ← hdayv]
                      omega
  · rintro ⟨y1, y2, y3, y4, m1, m2, d1, d2, hs, hdig, hm1, hm12, hd1, hdmax⟩
    have hY1 : isDecDigit y1 = true := by rw [isDecDigit_eq_isDigit]; exact hdig y1 (by simp)
    have hY2 : isDecDigit y2 = true := by rw [isDecDigit_eq_isDigit]; exact hdig y2 (by simp)
    have hY3 : isDecDigit y3 = true := by rw [isDecDigit_eq_isDigit]; exact hdig y3 (by simp)
    have hY4 : isDecDigit y4 = true := by rw [isDecDigit_eq_isDigit]; exact hdig y4 (by simp)
    have hM1 : isDecDigit m1 = true := by rw [isDecDigit_eq_isDigit]; exact hdig m1 (by simp)
    have hM2 : isDecDigit m2 = true := by rw [isDecDigit_eq_isDigit]; exact hdig m2 (by simp)
    have hD1 : isDecDigit d1 = true := by rw [isDecDigit_eq_isDigit]; exact hdig d1 (by simp)
    have hD2 : isDecDigit d2 = true := by rw [isDecDigit_eq_isDigit]; exact hdig d2 (by simp)
    have e : ((decVal y1 * 10 + decVal y2) * 10 + decVal y3) * 10 + decVal y4
        = decVal y1 * 1000 + decVal y2 * 100 + decVal y3 * 10 + decVal y4 := by ring
    have hm0 : ¬ (decVal m1 * 10 + decVal m2 = 0 ∨ 12 < decVal m1 * 10 + decVal m2) := by omega
    have hday : ¬ (decVal d1 * 10 + decVal d2 < 1
        ∨ daysIn (decVal m1 * 10 + decVal m2)
            (((decVal y1 * 10 + decVal y2) * 10 + decVal y3) * 10 + decVal y4)
          < decVal d1 * 10 + decVal d2) := by
      rw [daysIn_eq _ _ hm1 hm12, e]; omega
    have hy : getYear4 s.toList = some
        (((decVal y1 * 10 + decVal y2) * 10 + decVal y3) * 10 + decVal y4,
          ['-', m1, m2, '-', d1, d2]) :=
      (getYear4_eq_some _ _ _).mpr ⟨y1, y2, y3, y4, hs, hY1, hY2, hY3, hY4, rfl⟩
    have h1 : skipDash ['-', m1, m2, '-', d1, d2] = some [m1, m2, '-', d1, d2] :=
      (skipDash_eq_some _ _).mpr rfl
    have hm : getnum2 [m1, m2, '-', d1, d2] = some (decVal m1 * 10 + decVal m2, ['-', d1, d2]) :=
      (getnum2_eq_some _ _ _).mpr ⟨m1, m2, rfl, hM1, hM2, rfl⟩
    have h2 : skipDash ['-', d1, d2] = some [d1, d2] := (skipDash_eq_some _ _).mpr rfl
    have hd : getnum2 [d1, d2] = some (decVal d1 * 10 + decVal d2, []) :=
      (getnum2_eq_some _ _ _).mpr ⟨d1, d2, rfl, hD1, hD2, rfl⟩
    unfold timeParseDate
    rw [hy]
    simp only [h1, hm, hm0, if_false, h2, hd, hday, ne_eq, not_true_eq_false]
    rfl

theorem toUpper_alpha_size (t : CaseTables) (c : Char) (h : c.isAlpha = true) :
    (unicodeToUpper t c).utf8Size = 1 := by
  have hb : 65 ≤ c.toNat ∧ c.toNat ≤ 122 := by
    simp only [Char.isAlpha, Char.isUpper, Char.isLower, Bool.or_eq_true, Bool.and_eq_true,
      decide_eq_true_eq, ge_iff_le, UInt32.le_def, BitVec.le_def] at h
    have e : c.toNat = c.val.toBitVec.toNat := rfl
    rw [e]
    have e1 : (UInt32.toBitVec 65).toNat = 65 := rfl
    have e2 : (UInt32.toBitVec 90).toNat = 90 := rfl
    have e3 : (UInt32.toBitVec 97).toNat = 97 := rfl
    have e4 : (UInt32.toBitVec 122).toNat = 122 := rfl
    rw [e1, e2, e3, e4] at h
    omega
  obtain ⟨n, hn⟩ : ∃ n, c.toNat = n := ⟨_, rfl⟩
  have hc : c = Char.ofNat n := by rw [← hn, Char.ofNat_toNat]
  rw [hn] at hb
  subst hc
  obtain ⟨h1, h2⟩ := hb
  interval_cases n <;> rfl

theorem goLen_toUpper_threeLetters (t : CaseTables) (s : String) (h : isThreeLetters s) :
    goLen (stringsToUpper t s) = 3 := by
  obtain ⟨hlen, halpha⟩ := h
  have hl : s.toList.length = 3 := hlen
  obtain ⟨a, b, c, hs⟩ := List.length_eq_three.mp hl
  rw [hs] at halpha
  have ha := toUpper_alpha_size t a (halpha a (by simp))
  have hb := toUpper_alpha_size t b (halpha b (by simp))
  have hc := toUpper_alpha_size t c (halpha c (by simp))
  have hs' : s.toList.map (unicodeToUpper t)
      = [unicodeToUpper t a, unicodeToUpper t b, unicodeToUpper t c] := by rw [hs]; rfl
  unfold goLen stringsToUpper
  rw [hs']
  simp only [String.utf8ByteSize, String.utf8ByteSize.go, ha, hb, hc]

/-- C9, as stated, fails in both directions: with a base URL and a supported cabin
class, the origin `123` and the destination `456` pass the validation of `Run`
although they are not alphabetic; and the origin `ÄÖÜ`, three alphabetic characters
that upper-casing leaves as they are, is rejected, because its length is 6 bytes. -/
theorem validate_accepts_digits :
    digitsConfig.BaseURL ≠ ""
    ∧ productTypeOf digitsConfig.CabinClass = some "COACH"
    ∧ ¬ isThreeLetters digitsConfig.Origin
    ∧ ¬ isThreeLetters digitsConfig.Destination
    ∧ (∀ t : CaseTables, Run.validate t digitsConfig =
        .ok ⟨"123", "456", "2025-01-15", 1, "main", "COACH"⟩)
    ∧ umlautConfig.Origin.length = 3
    ∧ (∀ t : CaseTables, t.upper 'Ä' = 'Ä' → t.upper 'Ö' = 'Ö' → t.upper 'Ü' = 'Ü' →
        goLen (stringsToUpper t umlautConfig.Origin) = 6
        ∧ Run.validate t umlautConfig = .error .originLength) := by
  refine ⟨by decide, by decide, ?_, ?_, ?_, by decide, ?_⟩
  · rintro ⟨_, h⟩
    exact absurd (h '1' (by decide)) (by decide)
  · rintro ⟨_, h⟩
    exact absurd (h '4' (by decide)) (by decide)
  · intro t
    rfl
  · intro t ha ho hu
    have hup : stringsToUpper t umlautConfig.Origin = "ÄÖÜ" := by
      show String.mk [unicodeToUpper t 'Ä', unicodeToUpper t 'Ö', unicodeToUpper t 'Ü'] = _
      have e1 : unicodeToUpper t 'Ä' = 'Ä' := by
        unfold unicodeToUpper; rw [if_neg (by decide)]; exact ha
      have e2 : unicodeToUpper t 'Ö' = 'Ö' := by
        unfold unicodeToUpper; rw [if_neg (by decide)]; exact ho
      have e3 : unicodeToUpper t 'Ü' = 'Ü' := by
        unfold unicodeToUpper; rw [if_neg (by decide)]; exact hu
      rw [e1, e2, e3]
    have hlen : goLen (stringsToUpper t umlautConfig.Origin) = 6 := by
      rw [hup]; decide
    refine ⟨hlen, ?_⟩
    unfold Run.validate
    rw [if_neg (by decide)]
    simp only [hlen]
    rfl

/-- C9, amended. Given a non-empty base URL and a supported cabin class, the input
validation of `Run` succeeds iff the upper-cased origin and the upper-cased
destination are each exactly 3 bytes long and the date is a real calendar date
written as `YYYY-MM-DD`; in particular it succeeds when origin and destination are
each exactly 3 ASCII letters and the date is such a date. -/
theorem validate_ok_iff (t : CaseTables) (cfg : Config) (hb : cfg.BaseURL ≠ "")
    (hc : (productTypeOf (stringsToLower t cfg.CabinClass)).isSome = true) :
    ((∃ v, Run.validate t cfg = .ok v) ↔
      goLen (stringsToUpper t cfg.Origin) = 3 ∧ goLen (stringsToUpper t cfg.Destination) = 3
        ∧ isCalendarDate cfg.Date)
    ∧ (isThreeLetters cfg.Origin → isThreeLetters cfg.Destination → isCalendarDate cfg.Date →
        ∃ v, Run.validate t cfg = .ok v) := by
  have key : (∃ v, Run.validate t cfg = .ok v) ↔
      goLen (stringsToUpper t cfg.Origin) = 3 ∧ goLen (stringsToUpper t cfg.Destination) = 3
        ∧ isCalendarDate cfg.Date := by
    rw [← timeParseDate_isSome_iff]
    obtain ⟨pt, hpt⟩ := Option.isSome_iff_exists.mp hc
    unfold Run.validate
    simp only [hb, if_false, hpt]
    by_cases ho : goLen (stringsToUpper t cfg.Origin) = 3
    · by_cases hd : goLen (stringsToUpper t cfg.Destination) = 3
      · cases hp : timeParseDate cfg.Date.toList <;> simp [ho, hd, hp]
      · simp [ho, hd]
    · simp [ho]
  refine ⟨key, ?_⟩
  intro ho hd hdate
  exact key.mpr ⟨goLen_toUpper_threeLetters t _ ho, goLen_toUpper_threeLetters t _ hd, hdate⟩

/-- C9, witness: `jfk` to `LAX` on 2024-02-29 in cabin `Main` is accepted. -/
theorem validate_ok_iff_witness :
    validConfig.BaseURL ≠ ""
    ∧ (productTypeOf (stringsToLower ⟨id, id⟩ validConfig.CabinClass)).isSome = true
    ∧ Run.validate ⟨id, id⟩ validConfig = .ok ⟨"JFK", "LAX", "2024-02-29", 2, "main", "COACH"⟩
    ∧ ((∃ v, Run.validate ⟨id, id⟩ validConfig = .ok v) ↔
        goLen (stringsToUpper ⟨id, id⟩ validConfig.Origin) = 3
        ∧ goLen (stringsToUpper ⟨id, id⟩ validConfig.Destination) = 3
        ∧ isCalendarDate validConfig.Date) :=
  ⟨by decide, by decide, by decide,
    (validate_ok_iff ⟨id, id⟩ validConfig (by decide) (by decide)).1⟩

/-! ## The cash search -/

theorem foldl_cashPrice (passengers : Int) (productType : String)
    (pds : List responsePricingDetail) (init : F64) :
    pds.foldl
      (fun cashPrice pd =>
        if pd.ProductType ≠ productType then cashPrice
        else F64.div pd.Amount (F64.ofInt passengers)) init
      = ((lastMatching productType pds).map (priceOf passengers)).getD init := by
  induction pds generalizing init with
  | nil => simp [lastMatching]
  | cons a pds ih =>
    rw [List.foldl_cons, ih]
    simp only [lastMatching, List.reverse_cons, List.find?_append]
    cases List.find? (fun pd => decide (pd.ProductType = productType)) pds.reverse with
    | some pd => simp
    | none =>
      by_cases h : a.ProductType = productType
      · simp [h, priceOf]
      · simp [h]

theorem cashPrice_eq (passengers : Int) (productType : String)
    (pds : List responsePricingDetail) :
    Search.cashPrice passengers productType pds
      = ((lastMatching productType pds).map (priceOf passengers)).getD (F64.fin false 0 0) := by
  unfold Search.cashPrice
  exact foldl_cashPrice passengers productType pds _

theorem segments_ok (clock : String → Option String) (sgs : List segmentResponse)
    (acc : List FlightSegment)
    (h : ∀ sg ∈ sgs, (clock sg.DepartureDateTime).isSome = true
      ∧ (clock sg.ArrivalDateTime).isSome = true) :
    Search.segments clock sgs acc = .ok (acc ++ sgs.map (fun sg =>
      ⟨sg.CarrierCode ++ sg.FlightNumber, (clock sg.DepartureDateTime).getD "",
        (clock sg.ArrivalDateTime).getD ""⟩)) := by
  induction sgs generalizing acc with
  | nil => simp [Search.segments]
  | cons sg sgs ih =>
    obtain ⟨hd, ha⟩ := h sg (by simp)
    obtain ⟨d, hd'⟩ := Option.isSome_iff_exists.mp hd
    obtain ⟨a, ha'⟩ := Option.isSome_iff_exists.mp ha
    simp only [Search.segments, parseTime, hd', ha']
    rw [ih _ (fun s hs => h s (List.mem_cons_of_mem _ hs))]
    simp [hd', ha']

theorem slices_cash (outOfRange : F64 → Int) (clock : String → Option String)
    (passengers : Int) (productType : String) (slices : List responseSlice)
    (flights : List Flight) (h : timesParse clock slices) :
    Search.slices outOfRange clock passengers productType false slices flights
      = .ok (flights ++ slices.filterMap (cashResult clock passengers productType)) := by
  induction slices generalizing flights with
  | nil => simp [Search.slices]
  | cons slice slices ih =>
    have hrest : timesParse clock slices := fun s hs => h s (List.mem_cons_of_mem _ hs)
    have hseg := segments_ok clock slice.Segments [] (h slice (by simp))
    simp only [List.nil_append] at hseg
    simp only [Search.slices, hseg, Bool.false_eq_true, if_false, cashPrice_eq]
    rw [List.filterMap_cons]
    cases hm : lastMatching productType slice.PricingDetail with
    | none =>
      have hcr : cashResult clock passengers productType slice = none := by
        simp [cashResult, hm]
      simp only [hcr, Option.map_none', Option.getD_none, F64.isZero, decide_True, if_true]
      exact ih flights hrest
    | some pd =>
      simp only [Option.map_some', Option.getD_some]
      cases hz : (priceOf passengers pd).isZero with
      | true =>
        have hcr : cashResult clock passengers productType slice = none := by
          simp [cashResult, hm, hz]
        simp only [hcr, if_true]
        exact ih flights hrest
      | false =>
        have hcr : cashResult clock passengers productType slice
            = some (cashFlight clock slice (priceOf passengers pd)) := by
          simp [cashResult, hm, hz]
        simp only [hcr, Bool.false_eq_true, if_false]
        rw [ih _ hrest]
        simp [cashFlight, segmentsOf]

set_option maxRecDepth 100000 in
/-- C10. The pricing loop of a cash search, commented "find the matching product
type" and, where it drops a slice, "No matching cabin class found", drops a slice in
which a matching entry with a non-zero price is found: with the entries 100 and then 0
for the requested product type `COACH` the search returns no flight, and with the same
entries in the other order it returns the flight priced 100. -/
theorem search_cash_drops_slice_with_priced_entry :
    (∃ pd ∈ (exampleSlice "100" [("COACH", 100), ("COACH", 0)]).PricingDetail,
        pd.ProductType = "COACH" ∧ (priceOf 1 pd).isZero = false)
    ∧ timesParse exampleClock [exampleSlice "100" [("COACH", 100), ("COACH", 0)]]
    ∧ Client.Search amd64OutOfRange exampleClock
        (.ok [exampleSlice "100" [("COACH", 100), ("COACH", 0)]]) 1 "COACH" false = .ok []
    ∧ Client.Search amd64OutOfRange exampleClock
        (.ok [exampleSlice "100" [("COACH", 0), ("COACH", 100)]]) 1 "COACH" false
      = .ok [⟨true, [⟨"AA100", "08:05", "11:20"⟩], "6h 15m", 0, F64.ofInt 100,
          F64.fin false 0 0, F64.fin false 0 0⟩] := by
  refine ⟨⟨⟨"", F64.ofInt 100, "COACH"⟩, by decide, by decide, by decide⟩, ?_, by decide,
    by decide⟩
  unfold timesParse
  decide

/-- What the cash search computes. In a currency-priced search (`redeemPoints = false`)
whose response parses, `Search` returns, in slice order, one flight for each slice whose
last pricing entry with the requested product type has a price (its taxes/fees amount divided by
the passenger count) that is not zero, with `CashPriceUSD` equal to that price and
`PointsRequired = 0`; a slice with no entry of that product type, or whose last such
entry has a price of zero, is dropped without error. -/
theorem search_cash_result (outOfRange : F64 → Int) (clock : String → Option String)
    (slices : List responseSlice) (passengers : Int) (productType : String)
    (h : timesParse clock slices) :
    Client.Search outOfRange clock (.ok slices) passengers productType false
        = .ok (slices.filterMap (cashResult clock passengers productType))
    ∧ (∀ slice f, cashResult clock passengers productType slice = some f →
        ∃ pd before after, slice.PricingDetail = before ++ pd :: after
          ∧ pd.ProductType = productType
          ∧ (∀ q ∈ after, q.ProductType ≠ productType)
          ∧ (F64.div pd.Amount (F64.ofInt passengers)).isZero = false
          ∧ f.CashPriceUSD = F64.div pd.Amount (F64.ofInt passengers)
          ∧ f.PointsRequired = 0
          ∧ f.Segments = segmentsOf clock slice)
    ∧ (∀ slice, cashResult clock passengers productType slice = none ↔
        (∀ pd ∈ slice.PricingDetail, pd.ProductType ≠ productType)
        ∨ ∃ pd before after, slice.PricingDetail = before ++ pd :: after
          ∧ pd.ProductType = productType
          ∧ (∀ q ∈ after, q.ProductType ≠ productType)
          ∧ (F64.div pd.Amount (F64.ofInt passengers)).isZero = true) := by
  have hlast : ∀ (pds : List responsePricingDetail) pd, lastMatching productType pds = some pd →
      ∃ before after, pds = before ++ pd :: after ∧ pd.ProductType = productType
        ∧ ∀ q ∈ after, q.ProductType ≠ productType := by
    intro pds pd hm
    unfold lastMatching at hm
    obtain ⟨hp, as, bs, hsplit, hno⟩ := List.find?_eq_some.mp hm
    refine ⟨bs.reverse, as.reverse, ?_, by simpa using hp, ?_⟩
    · have := congrArg List.reverse hsplit
      simpa using this
    · intro q hq
      have := hno q (by simpa using hq)
      simpa using this
  have hnone : ∀ (pds : List responsePricingDetail), lastMatching productType pds = none ↔
      ∀ pd ∈ pds, pd.ProductType ≠ productType := by
    intro pds
    unfold lastMatching
    rw [List.find?_eq_none]
    constructor
    · intro hx pd hpd
      simpa using hx pd (by simpa using hpd)
    · intro hx pd hpd
      simpa using hx pd (by simpa using hpd)
  refine ⟨?_, ?_, ?_⟩
  · unfold Client.Search
    simp only
    rw [slices_cash _ _ _ _ _ _ h]
    simp
  · intro slice f hf
    unfold cashResult at hf
    cases hm : lastMatching productType slice.PricingDetail with
    | none => rw [hm] at hf; simp at hf
    | some pd =>
      rw [hm] at hf
      simp only at hf
      cases hz : (priceOf passengers pd).isZero with
      | true => rw [hz] at hf; simp at hf
      | false =>
        rw [hz] at hf
        simp only [Bool.false_eq_true, if_false, Option.some.injEq] at hf
        obtain ⟨before, after, hsplit, hp, hno⟩ := hlast _ _ hm
        refine ⟨pd, before, after, hsplit, hp, hno, hz, ?_, ?_, ?_⟩ <;> rw [← hf] <;> rfl
  · intro slice
    unfold cashResult
    cases hm : lastMatching productType slice.PricingDetail with
    | none =>
      simp only [true_iff]
      exact Or.inl ((hnone _).mp hm)
    | some pd =>
      obtain ⟨before, after, hsplit, hp, hno⟩ := hlast _ _ hm
      simp only
      cases hz : (priceOf passengers pd).isZero with
      | true =>
        simp only [if_true, true_iff]
        exact Or.inr ⟨pd, before, after, hsplit, hp, hno, hz⟩
      | false =>
        simp only [Bool.false_eq_true, if_false]
        constructor
        · intro hx; simp at hx
        · rintro (hx | ⟨pd', before', after', hsplit', hp', hno', hz'⟩)
          · exact absurd hp (hx pd (by rw [hsplit]; simp))
          · exfalso
            have hm' : lastMatching productType slice.PricingDetail = some pd' := by
              unfold lastMatching
              rw [hsplit']
              simp only [List.reverse_append, List.reverse_cons, List.append_assoc,
                List.singleton_append, List.find?_append]
              have : List.find? (fun pd => decide (pd.ProductType = productType)) after'.reverse
                  = none := by
                rw [List.find?_eq_none]
                intro q hq
                simpa using hno' q (by simpa using hq)
              rw [this]
              simp [hp']
            rw [hm] at hm'
            simp only [Option.some.injEq] at hm'
            rw [hm'] at hz
            unfold priceOf at hz
            rw [hz] at hz'
            exact absurd hz' (by decide)

set_option maxRecDepth 100000 in
/-- Of two slices, the one offering `COACH` for 100 gives a flight priced 100 and the
one offering only `FIRST` is dropped. -/
theorem search_cash_result_witness :
    timesParse exampleClock
      [exampleSlice "100" [("COACH", 100)], exampleSlice "200" [("FIRST", 900)]]
    ∧ Client.Search amd64OutOfRange exampleClock
        (.ok [exampleSlice "100" [("COACH", 100)], exampleSlice "200" [("FIRST", 900)]])
        1 "COACH" false
      = .ok [⟨true, [⟨"AA100", "08:05", "11:20"⟩], "6h 15m", 0, F64.ofInt 100,
          F64.fin false 0 0, F64.fin false 0 0⟩]
    ∧ Client.Search amd64OutOfRange exampleClock
        (.ok [exampleSlice "100" [("COACH", 100)], exampleSlice "200" [("FIRST", 900)]])
        1 "COACH" false
      = .ok ([exampleSlice "100" [("COACH", 100)], exampleSlice "200" [("FIRST", 900)]].filterMap
          (cashResult exampleClock 1 "COACH")) :=
  ⟨by unfold timesParse; decide, by decide,
    (search_cash_result amd64OutOfRange exampleClock
      [exampleSlice "100" [("COACH", 100)], exampleSlice "200" [("FIRST", 900)]] 1 "COACH"
      (by unfold timesParse; decide)).1⟩

/-! ## Abbreviated integers: the text -/

theorem filter_dropWhile (p q : Char → Bool) (l : List Char)
    (h : ∀ c, q c = true → p c = false) :
    (l.dropWhile q).filter p = l.filter p := by
  induction l with
  | nil => rfl
  | cons a l ih =>
    by_cases hq : q a = true
    · simp [List.dropWhile_cons, hq, h a hq, ih]
    · simp [List.dropWhile_cons, hq]

theorem normalize_eq (s : String) : normalize s = withoutSeparators s := by
  unfold normalize withoutSeparators stringsTrimSpace
  rw [List.filter_filter]
  have key : ∀ c, unicodeIsSpace c = true →
      ((fun r => !unicodeIsSpace r) c && (fun r => r != ',') c) = false := by
    intro c hc; simp [hc]
  rw [List.filter_reverse, filter_dropWhile _ _ _ key, List.filter_reverse,
    filter_dropWhile _ _ _ key, List.reverse_reverse]
  apply List.filter_congr
  intro c _
  exact Bool.and_comm _ _

theorem digit_ne (c d : Char) (hc : isDecDigit c = true) (hd : isDecDigit d = false) : c ≠ d := by
  intro h; rw [h, hd] at hc; exact absurd hc (by decide)

theorem unitMult_digit (c : Char) (hc : isDecDigit c = true) : unitMult c = none := by
  unfold unitMult
  have h1 := digit_ne c 'k' hc (by decide)
  have h2 := digit_ne c 'K' hc (by decide)
  have h3 := digit_ne c 'm' hc (by decide)
  have h4 := digit_ne c 'M' hc (by decide)
  have h5 := digit_ne c 'b' hc (by decide)
  have h6 := digit_ne c 'B' hc (by decide)
  simp [h1, h2, h3, h4, h5, h6]

theorem getLast?_digits (pre digits : List Char) (hne : digits ≠ [])
    (hd : ∀ c ∈ digits, isDecDigit c = true) :
    ∃ c, (pre ++ digits).getLast? = some c ∧ isDecDigit c = true := by
  refine ⟨digits.getLast hne, ?_, hd _ (List.getLast_mem hne)⟩
  rw [List.getLast?_append_of_ne_nil _ hne, List.getLast?_eq_getLast _ hne]

theorem strip_and_mult (body suffix : List Char) (mult : Nat)
    (hlast : ∃ c, body.getLast? = some c ∧ unitMult c = none)
    (hm : multiplier suffix = some mult) :
    stripUnit (body ++ suffix) = body ∧ multOf (body ++ suffix) = (mult : Int) := by
  obtain ⟨c, hc, hcd⟩ := hlast
  have hbody : body ≠ [] := by intro h; rw [h] at hc; simp at hc
  unfold multiplier at hm
  by_cases h0 : suffix = []
  · subst h0
    simp only [if_true, Option.some.injEq] at hm
    subst hm
    simp [stripUnit, multOf, hc, hcd]
  · simp only [h0, if_false] at hm
    have hone : ∀ u : Char, suffix = [u] → (body ++ suffix).getLast? = some u
        ∧ (body ++ suffix).dropLast = body := by
      intro u hu; subst hu
      exact ⟨by simp, by simp⟩
    by_cases h1 : suffix = ['k'] ∨ suffix = ['K']
    · simp only [h1, if_true, Option.some.injEq] at hm
      subst hm
      rcases h1 with h | h <;> obtain ⟨e1, e2⟩ := hone _ h <;>
        simp [stripUnit, multOf, e1, e2, unitMult]
    · simp only [h1, if_false] at hm
      by_cases h2 : suffix = ['m'] ∨ suffix = ['M']
      · simp only [h2, if_true, Option.some.injEq] at hm
        subst hm
        rcases h2 with h | h <;> obtain ⟨e1, e2⟩ := hone _ h <;>
          simp [stripUnit, multOf, e1, e2, unitMult]
      · simp only [h2, if_false] at hm
        by_cases h3 : suffix = ['b'] ∨ suffix = ['B']
        · simp only [h3, if_true, Option.some.injEq] at hm
          subst hm
          rcases h3 with h | h <;> obtain ⟨e1, e2⟩ := hone _ h <;>
            simp [stripUnit, multOf, e1, e2, unitMult]
        · simp [h3] at hm

theorem foldl_digits_ge (digits : List Char) (n : Nat) :
    n ≤ digits.foldl (fun n c => n * 10 + decVal c) n := by
  induction digits generalizing n with
  | nil => simp
  | cons c cs ih =>
    simp only [List.foldl_cons]
    have := ih (n * 10 + decVal c)
    omega

theorem parseUintLoop_digits (digits : List Char) (n : Nat)
    (hd : ∀ c ∈ digits, isDecDigit c = true)
    (hr : digits.foldl (fun n c => n * 10 + decVal c) n < 2 ^ 64) :
    parseUintLoop digits n = .ok (digits.foldl (fun n c => n * 10 + decVal c) n) := by
  induction digits generalizing n with
  | nil => simp [parseUintLoop]
  | cons c cs ih =>
    have hc := hd c (by simp)
    have hc' : '0' ≤ c ∧ c ≤ '9' := by simpa [isDecDigit] using hc
    simp only [List.foldl_cons] at hr ⊢
    have hge := foldl_digits_ge cs (n * 10 + decVal c)
    have h1 : ¬ ((2 ^ 64 - 1) / 10 + 1 ≤ n) := by
      have : (2 ^ 64 - 1) / 10 + 1 = 1844674407370955162 := by norm_num
      rw [this]
      have : (2 : Nat) ^ 64 = 18446744073709551616 := by norm_num
      omega
    have h2 : ¬ (2 ^ 64 - 1 < n * 10 + (c.toNat - '0'.toNat)) := by
      have e : n * 10 + (c.toNat - '0'.toNat) = n * 10 + decVal c := rfl
      rw [e]
      omega
    rw [parseUintLoop]
    simp only [hc', and_self, if_true, h1, h2, if_false]
    exact ih _ (fun x hx => hd x (List.mem_cons_of_mem _ hx)) hr

theorem parseInt_signed_digits (sign digits : List Char) (sg : Int)
    (hs : signOf sign = some sg) (hne : digits ≠ [])
    (hd : ∀ c ∈ digits, isDecDigit c = true) (hr : natVal digits < 2 ^ 63) :
    strconvParseInt (sign ++ digits) = .ok (sg * (natVal digits : Int)) := by
  have hu : strconvParseUint digits = .ok (natVal digits) := by
    unfold strconvParseUint
    simp only [hne, if_false]
    exact parseUintLoop_digits digits 0 hd (by unfold natVal at hr; omega)
  have hr' : natVal digits < 9223372036854775808 := by
    have : (2 : Nat) ^ 63 = 9223372036854775808 := by norm_num
    omega
  have h63 : ¬ (9223372036854775808 ≤ natVal digits) := by omega
  have h63' : ¬ (9223372036854775808 < natVal digits) := by omega
  unfold signOf at hs
  by_cases h0 : sign = [] ∨ sign = ['+']
  · simp only [h0, if_true, Option.some.injEq] at hs
    subst hs
    rcases h0 with h | h
    · subst h
      obtain ⟨d, ds, hds⟩ := List.exists_cons_of_ne_nil hne
      subst hds
      have hdd : isDecDigit d = true := hd d (by simp)
      have hp : d ≠ '+' := digit_ne d '+' hdd (by decide)
      have hm : d ≠ '-' := digit_ne d '-' hdd (by decide)
      simp [strconvParseInt, hp, hm, hu, h63]
    · subst h
      simp [strconvParseInt, hu, h63]
  · simp only [h0, if_false] at hs
    by_cases h1 : sign = ['-']
    · simp only [h1, if_true, Option.some.injEq] at hs
      subst hs
      subst h1
      simp [strconvParseInt, hu, h63']
    · simp [h1] at hs

/-! ## Abbreviated integers: exact binary64 arithmetic on small integers -/

theorem bitLen_unique (n b : Nat) (hn : n ≠ 0) (hlo : 2 ^ (b - 1) ≤ n) (hhi : n < 2 ^ b) :
    F64.bitLen n = b := by
  obtain ⟨clo, chi⟩ := bitLen_bounds n hn
  have hb : b ≠ 0 := by
    intro h; rw [h] at hhi; simp at hhi; exact hn hhi
  have hc : F64.bitLen n ≠ 0 := by
    intro h; rw [h] at chi; simp at chi; exact hn chi
  by_contra hne
  rcases Nat.lt_or_gt_of_ne hne with h | h
  · have : 2 ^ (F64.bitLen n) ≤ 2 ^ (b - 1) := Nat.pow_le_pow_right (by norm_num) (by omega)
    omega
  · have : 2 ^ b ≤ 2 ^ (F64.bitLen n - 1) := Nat.pow_le_pow_right (by norm_num) (by omega)
    omega

theorem bitLen_mul_pow (n k : Nat) (hn : n ≠ 0) :
    F64.bitLen (n * 2 ^ k) = F64.bitLen n + k := by
  obtain ⟨clo, chi⟩ := bitLen_bounds n hn
  have hc : F64.bitLen n ≠ 0 := by
    intro h; rw [h] at chi; simp at chi; exact hn chi
  have hk : 0 < 2 ^ k := by positivity
  apply bitLen_unique
  · exact Nat.mul_ne_zero hn (by positivity)
  · have e : F64.bitLen n + k - 1 = (F64.bitLen n - 1) + k := by omega
    rw [e, pow_add]
    exact Nat.mul_le_mul_right _ clo
  · rw [pow_add]
    exact Nat.mul_lt_mul_of_pos_right chi hk

theorem bitLen_pow (k : Nat) : F64.bitLen (2 ^ k) = k + 1 := by
  have := bitLen_mul_pow 1 k (by norm_num)
  rw [one_mul] at this
  rw [this]
  have : F64.bitLen 1 = 1 := by decide
  omega

theorem nearestEven_exact (q d : Nat) (hd : 0 < d) : F64.nearestEven (q * d) d = q := by
  unfold F64.nearestEven
  simp only [Nat.mul_mod_left, Nat.mul_div_cancel _ hd]
  have h1 : ¬ (d < 2 * 0 ∨ 2 * 0 = d ∧ q % 2 = 1) := by omega
  simp only [h1, if_false]

theorem ofRatio_scaled_int (s : Bool) (n k : Nat) (hn : n ≠ 0) (hlt : n < 2 ^ 53) :
    F64.ofRatio s (n * 2 ^ k) (2 ^ k) =
      F64.fin s (n * 2 ^ (53 - F64.bitLen n)) ((F64.bitLen n : Int) - 53) := by
  obtain ⟨clo, chi⟩ := bitLen_bounds n hn
  have hb1 : F64.bitLen n ≠ 0 := by
    intro h; rw [h] at chi; simp at chi; exact hn chi
  have hb53 : F64.bitLen n ≤ 53 := by
    by_contra h
    have : 2 ^ 53 ≤ 2 ^ (F64.bitLen n - 1) := Nat.pow_le_pow_right (by norm_num) (by omega)
    omega
  obtain ⟨j, hj⟩ : ∃ j, 53 - F64.bitLen n = j := ⟨_, rfl⟩
  rw [hj]
  have hbj : F64.bitLen n + j = 53 := by omega
  have hk : 0 < 2 ^ k := by positivity
  have hnk : n * 2 ^ k ≠ 0 := Nat.mul_ne_zero hn (by positivity)
  -- the scaled mantissa lies in [2^52, 2^53)
  have hqlo : 2 ^ 52 ≤ n * 2 ^ j := by
    have : 2 ^ 52 = 2 ^ (F64.bitLen n - 1) * 2 ^ j := by
      rw [← pow_add]; congr 1; omega
    rw [this]
    exact Nat.mul_le_mul_right _ clo
  have hqhi : n * 2 ^ j < 2 ^ 53 := by
    have : 2 ^ 53 = 2 ^ (F64.bitLen n) * 2 ^ j := by
      rw [← pow_add]; congr 1; omega
    rw [this]
    exact Nat.mul_lt_mul_of_pos_right chi (by positivity)
  have he0 : max (((F64.bitLen (n * 2 ^ k) : Nat) : Int) - ((F64.bitLen (2 ^ k) : Nat) : Int) - 53)
      (-1074) = -((j : Int) + 1) := by
    rw [bitLen_mul_pow n k hn, bitLen_pow]
    push_cast
    rw [max_eq_left (by omega)]
    omega
  have hbin : F64.binade (n * 2 ^ k) (2 ^ k) = -(j : Int) := by
    unfold F64.binade
    simp only [he0]
    have hneg : -((j : Int) + 1) ≤ 0 := by omega
    have htn : (-(-((j : Int) + 1))).toNat = j + 1 := by omega
    simp only [F64.scaleNum, F64.scaleDen, hneg, if_true, htn]
    have hq : n * 2 ^ k * 2 ^ (j + 1) / 2 ^ k = n * 2 ^ (j + 1) := by
      rw [Nat.mul_right_comm, Nat.mul_div_cancel _ hk]
    rw [hq]
    have : ¬ (n * 2 ^ (j + 1) < 2 ^ 53) := by
      have e2 : n * 2 ^ (j + 1) = (n * 2 ^ j) * 2 := by rw [pow_succ]; ring
      rw [e2]
      omega
    simp only [this, if_false]
    omega
  unfold F64.ofRatio
  simp only [hnk, if_false, hbin]
  have hneg : -(j : Int) ≤ 0 := by omega
  have htn : (-(-(j : Int))).toNat = j := by omega
  simp only [F64.scaleNum, F64.scaleDen, hneg, if_true, htn]
  have hq : n * 2 ^ k * 2 ^ j = (n * 2 ^ j) * 2 ^ k := by ring
  rw [hq, nearestEven_exact _ _ hk]
  have h0 : n * 2 ^ j ≠ 0 := by omega
  have h53 : n * 2 ^ j ≠ 2 ^ 53 := by omega
  have h971 : ¬ (971 < -(j : Int)) := by omega
  simp only [h0, h53, h971, if_false]
  congr 1
  omega

theorem ofRatio_int (s : Bool) (n : Nat) (hn : n ≠ 0) (hlt : n < 2 ^ 53) :
    F64.ofRatio s n 1 =
      F64.fin s (n * 2 ^ (53 - F64.bitLen n)) ((F64.bitLen n : Int) - 53) := by
  have := ofRatio_scaled_int s n 0 hn hlt
  simpa using this

theorem ofRatio_scale_nonneg (s : Bool) (y t : Nat) (hy : y ≠ 0) (hlt : y < 2 ^ 53) :
    F64.ofRatio s (F64.scaleNum (y * 2 ^ t) (t : Int)) (F64.scaleDen 1 (t : Int))
      = F64.ofRatio s y 1 := by
  rw [ofRatio_int s y hy hlt]
  by_cases ht : t = 0
  · subst ht
    simp only [F64.scaleNum, F64.scaleDen, Nat.cast_zero, le_refl, if_true, neg_zero,
      Int.toNat_zero, pow_zero, mul_one]
    exact ofRatio_int s y hy hlt
  · have hpos : ¬ ((t : Int) ≤ 0) := by omega
    simp only [F64.scaleNum, F64.scaleDen, hpos, if_false, Int.toNat_ofNat, one_mul]
    exact ofRatio_scaled_int s y t hy hlt

theorem mul_int_exact (sa sb : Bool) (a b : Nat) (ha : a ≠ 0) (hb : b ≠ 0)
    (hab : a * b < 2 ^ 53) :
    F64.mul (F64.ofRatio sa a 1) (F64.ofRatio sb b 1) = F64.ofRatio (xor sa sb) (a * b) 1 := by
  have hapos : 0 < a := Nat.pos_of_ne_zero ha
  have hbpos : 0 < b := Nat.pos_of_ne_zero hb
  have ha53 : a < 2 ^ 53 := lt_of_le_of_lt (Nat.le_mul_of_pos_right a hbpos) hab
  have hb53 : b < 2 ^ 53 := lt_of_le_of_lt (Nat.le_mul_of_pos_left b hapos) hab
  rw [ofRatio_int sa a ha ha53, ofRatio_int sb b hb hb53]
  obtain ⟨alo, ahi⟩ := bitLen_bounds a ha
  obtain ⟨blo, bhi⟩ := bitLen_bounds b hb
  have hba : F64.bitLen a ≤ 53 := by
    by_contra h
    have : 2 ^ 53 ≤ 2 ^ (F64.bitLen a - 1) := Nat.pow_le_pow_right (by norm_num) (by omega)
    omega
  have hbb : F64.bitLen b ≤ 53 := by
    by_contra h
    have : 2 ^ 53 ≤ 2 ^ (F64.bitLen b - 1) := Nat.pow_le_pow_right (by norm_num) (by omega)
    omega
  obtain ⟨i, hi⟩ : ∃ i, 53 - F64.bitLen a = i := ⟨_, rfl⟩
  obtain ⟨j, hj⟩ : ∃ j, 53 - F64.bitLen b = j := ⟨_, rfl⟩
  rw [hi, hj]
  have he : -(((F64.bitLen a : Nat) : Int) - 53 + (((F64.bitLen b : Nat) : Int) - 53))
      = ((i + j : Nat) : Int) := by
    push_cast; omega
  have hm : a * 2 ^ i * (b * 2 ^ j) = (a * b) * 2 ^ (i + j) := by
    rw [pow_add]; ring
  simp only [F64.mul]
  rw [he, hm]
  exact ofRatio_scale_nonneg _ (a * b) (i + j) (Nat.mul_ne_zero ha hb) hab

theorem mathRound_int (s : Bool) (n : Nat) (hn : n ≠ 0) (hlt : n < 2 ^ 53) :
    F64.mathRound (F64.ofRatio s n 1) = F64.ofRatio s n 1 := by
  rw [ofRatio_int s n hn hlt]
  obtain ⟨j, hj⟩ : ∃ j, 53 - F64.bitLen n = j := ⟨_, rfl⟩
  rw [hj]
  simp only [F64.mathRound]
  by_cases h0 : (0 : Int) ≤ (F64.bitLen n : Int) - 53
  · simp only [h0, if_true]
  · simp only [h0, if_false]
    have htn : (-(((F64.bitLen n : Nat) : Int) - 53)).toNat = j := by omega
    have hp : 0 < 2 ^ j := by positivity
    rw [htn, Nat.mul_mod_left, Nat.mul_div_cancel _ hp]
    have : ¬ (2 ^ j ≤ 2 * 0) := by omega
    simp only [this, if_false]
    rw [ofRatio_int s n hn hlt, hj]

theorem toInt_int (outOfRange : F64 → Int) (s : Bool) (n : Nat) (hn : n ≠ 0)
    (hlt : n < 2 ^ 53) :
    F64.toInt outOfRange (F64.ofRatio s n 1) = (if s then -1 else 1) * (n : Int) := by
  rw [ofRatio_int s n hn hlt]
  obtain ⟨j, hj⟩ : ∃ j, 53 - F64.bitLen n = j := ⟨_, rfl⟩
  rw [hj]
  obtain ⟨lo, hi⟩ := bitLen_bounds n hn
  have hb : F64.bitLen n ≤ 53 := by
    by_contra h
    have : 2 ^ 53 ≤ 2 ^ (F64.bitLen n - 1) := Nat.pow_le_pow_right (by norm_num) (by omega)
    omega
  have he : -(((F64.bitLen n : Nat) : Int) - 53) = ((j : Nat) : Int) := by omega
  have hp : 0 < 2 ^ j := by positivity
  have htr : F64.truncFin s (n * 2 ^ j) ((F64.bitLen n : Int) - 53)
      = (if s then -1 else 1) * (n : Int) := by
    unfold F64.truncFin
    rw [he]
    by_cases hj0 : j = 0
    · subst hj0
      simp [F64.scaleNum, F64.scaleDen]
    · have hpos : ¬ ((j : Int) ≤ 0) := by omega
      simp only [F64.scaleNum, F64.scaleDen, hpos, if_false, Int.toNat_ofNat, one_mul,
        Nat.mul_div_cancel _ hp]
  simp only [F64.toInt, htr]
  have hn63 : (n : Int) < 2 ^ 63 := by
    have : (n : Int) < 2 ^ 53 := by exact_mod_cast hlt
    have : (2 : Int) ^ 53 < 2 ^ 63 := by norm_num
    omega
  have hrange : -(2 : Int) ^ 63 ≤ (if s then -1 else 1) * (n : Int)
      ∧ (if s then -1 else 1) * (n : Int) < (2 : Int) ^ 63 := by
    cases s <;> simp <;> omega
  simp only [hrange, and_self, if_true]

theorem scaleNum_zero (e : Int) : F64.scaleNum 0 e = 0 := by
  unfold F64.scaleNum
  split_ifs <;> simp

theorem round_mul_int (outOfRange : F64 → Int) (n : Int) (mult : Nat) (hm : mult ≠ 0)
    (hm53 : mult < 2 ^ 53) (h : n.natAbs * mult < 2 ^ 53) :
    F64.toInt outOfRange (F64.mathRound (F64.mul (F64.ofInt n) (F64.ofInt (mult : Int))))
      = n * (mult : Int) := by
  have hmult : F64.ofInt (mult : Int) = F64.ofRatio false mult 1 := by
    unfold F64.ofInt
    have : ¬ ((mult : Int) < 0) := by omega
    simp [this]
  rw [hmult]
  by_cases hn : n = 0
  · subst hn
    have h0 : F64.ofInt 0 = F64.fin false 0 0 := by decide
    rw [h0, ofRatio_int false mult hm hm53]
    simp only [F64.mul, Nat.zero_mul, scaleNum_zero, F64.ofRatio, if_true, F64.mathRound,
      le_refl, F64.toInt, F64.truncFin, Nat.zero_div]
    simp
  · have hna : n.natAbs ≠ 0 := by omega
    unfold F64.ofInt
    rw [mul_int_exact _ _ _ _ hna hm h, mathRound_int _ _ (Nat.mul_ne_zero hna hm) h,
      toInt_int _ _ _ (Nat.mul_ne_zero hna hm) h]
    by_cases hneg : n < 0
    · simp only [hneg, decide_True, Bool.xor_false, if_true]
      push_cast
      rw [abs_of_neg hneg]
      ring
    · simp only [hneg, decide_False, Bool.xor_false, Bool.false_eq_true, if_false]
      push_cast
      rw [abs_of_nonneg (by omega : (0 : Int) ≤ n)]
      ring

/-! ## The merge step: cents per point -/

/-- The rounds of `powLoop` beyond the binary digits of `i` are not used: with
`i < 2^fuel` more fuel gives the same result. -/
theorem powLoop_fuel (fuel k : Nat) : ∀ (i : Nat) (a1 : F64) (ae : Int) (x1 : F64) (xe : Int),
    i < 2 ^ fuel → powLoop (fuel + k) i a1 ae x1 xe = powLoop fuel i a1 ae x1 xe := by
  induction fuel with
  | zero =>
    intro i a1 ae x1 xe h
    have hi : i = 0 := by simpa using h
    subst hi
    cases k with
    | zero => rfl
    | succ k => simp [powLoop]
  | succ fuel ih =>
    intro i a1 ae x1 xe h
    have h2 : i / 2 < 2 ^ fuel := by
      rw [Nat.div_lt_iff_lt_mul (by decide)]
      rw [pow_succ] at h
      exact h
    rw [Nat.succ_add]
    simp only [powLoop, ih _ _ _ _ _ h2]

set_option maxRecDepth 100000 in
/-- The value of `math.Pow(10, 2)` is 100. -/
theorem mathPow10_two : mathPow10 2 = F64.ofInt 100 := by decide

set_option maxRecDepth 100000 in
/-- The squarings of `math.Pow` round: `math.Pow(10, 33)` is the binary64 value
`1.0000000000000001e33`, one unit in the last place above the nearest value to
`10^33`. -/
theorem mathPow10_thirty_three :
    mathPow10 33 = F64.fin false 6938893903907229 57
    ∧ F64.ofRatio false (10 ^ 33) 1 = F64.fin false 6938893903907228 57 := by decide

/-- The call `round(x, 2)` is `math.Round(x * 100) / 100`. -/
theorem round_two (x : F64) :
    round x 2 = F64.div (F64.mathRound (F64.mul x (F64.ofInt 100))) (F64.ofInt 100) := by
  simp only [round, mathPow10_two]

theorem nearestEven_le (n d : Nat) : F64.nearestEven n d ≤ n / d + 1 := by
  unfold F64.nearestEven
  simp only
  split_ifs <;> omega

theorem binade_quot_lt (n d : Nat) (hn : n ≠ 0) :
    F64.scaleNum n (F64.binade n d) / F64.scaleDen d (F64.binade n d) < 2 ^ 53 := by
  by_cases hd : d = 0
  · subst hd
    have : ∀ e, F64.scaleDen 0 e = 0 := by
      intro e; unfold F64.scaleDen; split_ifs <;> simp
    rw [this, Nat.div_zero]
    positivity
  obtain ⟨nlo, nhi⟩ := bitLen_bounds n hn
  obtain ⟨dlo, dhi⟩ := bitLen_bounds d hd
  have hbd : F64.bitLen d ≠ 0 := by
    intro h; rw [h] at dhi; simp at dhi; exact hd dhi
  unfold F64.binade
  simp only
  obtain ⟨e0, he0⟩ : ∃ e0, max ((F64.bitLen n : Int) - (F64.bitLen d : Int) - 53) (-1074) = e0 :=
    ⟨_, rfl⟩
  rw [he0]
  have hge : (F64.bitLen n : Int) - (F64.bitLen d : Int) - 53 ≤ e0 := by
    rw [← he0]; exact le_max_left _ _
  by_cases hq : F64.scaleNum n e0 / F64.scaleDen d e0 < 2 ^ 53
  · rw [if_pos hq]; exact hq
  · rw [if_neg hq]
    by_cases hs : e0 + 1 ≤ 0
    · simp only [F64.scaleNum, F64.scaleDen, hs, if_true]
      rw [Nat.div_lt_iff_lt_mul (Nat.pos_of_ne_zero hd)]
      obtain ⟨t, ht⟩ : ∃ t, (-(e0 + 1)).toNat = t := ⟨_, rfl⟩
      rw [ht]
      have h1 : n * 2 ^ t < 2 ^ (F64.bitLen n) * 2 ^ t :=
        Nat.mul_lt_mul_of_pos_right nhi (by positivity)
      have h2 : 2 ^ (F64.bitLen n) * 2 ^ t ≤ 2 ^ 53 * 2 ^ (F64.bitLen d - 1) := by
        rw [← pow_add, ← pow_add]
        exact Nat.pow_le_pow_right (by norm_num) (by omega)
      have h3 : 2 ^ 53 * 2 ^ (F64.bitLen d - 1) ≤ 2 ^ 53 * d := Nat.mul_le_mul_left _ dlo
      omega
    · simp only [F64.scaleNum, F64.scaleDen, hs, if_false]
      obtain ⟨t, ht⟩ : ∃ t, (e0 + 1).toNat = t := ⟨_, rfl⟩
      rw [ht]
      have hpos : 0 < d * 2 ^ t := Nat.mul_pos (Nat.pos_of_ne_zero hd) (by positivity)
      rw [Nat.div_lt_iff_lt_mul hpos]
      have h2 : 2 ^ (F64.bitLen n) ≤ 2 ^ 53 * (2 ^ (F64.bitLen d - 1) * 2 ^ t) := by
        rw [← pow_add, ← pow_add]
        exact Nat.pow_le_pow_right (by norm_num) (by omega)
      have h3 : 2 ^ 53 * (2 ^ (F64.bitLen d - 1) * 2 ^ t) ≤ 2 ^ 53 * (d * 2 ^ t) :=
        Nat.mul_le_mul_left _ (Nat.mul_le_mul_right _ dlo)
      omega

theorem ofRatio_mant_lt (s : Bool) (n d : Nat) (s1 : Bool) (m : Nat) (e : Int)
    (h : F64.ofRatio s n d = F64.fin s1 m e) : m < 2 ^ 53 := by
  unfold F64.ofRatio at h
  by_cases hn : n = 0
  · simp only [hn, if_true, F64.fin.injEq] at h
    rw [← h.2.1]; positivity
  · simp only [hn, if_false] at h
    have hq := binade_quot_lt n d hn
    have hle := nearestEven_le (F64.scaleNum n (F64.binade n d)) (F64.scaleDen d (F64.binade n d))
    split_ifs at h with h1 h2 h3 h4
    · simp only [F64.fin.injEq] at h; rw [← h.2.1]; positivity
    · simp only [F64.fin.injEq] at h; rw [← h.2.1]; norm_num
    · simp only [F64.fin.injEq] at h; rw [← h.2.1]; omega

theorem mul_mant_lt (x y : F64) (s : Bool) (m : Nat) (e : Int)
    (h : F64.mul x y = F64.fin s m e) : m < 2 ^ 53 := by
  cases x with
  | nan => simp [F64.mul] at h
  | inf a =>
    cases y with
    | nan => simp [F64.mul] at h
    | inf b => simp [F64.mul] at h
    | fin b m2 e2 =>
      simp only [F64.mul] at h
      split_ifs at h
  | fin a m1 e1 =>
    cases y with
    | nan => simp [F64.mul] at h
    | inf b =>
      simp only [F64.mul] at h
      split_ifs at h
    | fin b m2 e2 =>
      simp only [F64.mul] at h
      exact ofRatio_mant_lt _ _ _ _ _ _ h

theorem roundHalfAway_intCast (z : ℤ) : roundHalfAway (z : ℚ) = z := by
  have h12 : ⌊(1 / 2 : ℚ)⌋ = 0 := by
    rw [Int.floor_eq_iff]; norm_num
  unfold roundHalfAway
  split_ifs with h
  · rw [Int.floor_int_add, h12, add_zero]
  · have : -(z : ℚ) = ((-z : ℤ) : ℚ) := by push_cast; ring
    rw [this, Int.floor_int_add, h12, add_zero, neg_neg]

theorem roundHalfAway_neg (q : ℚ) : roundHalfAway (-q) = -roundHalfAway q := by
  unfold roundHalfAway
  rcases lt_trichotomy q 0 with h | h | h
  · have h1 : (0 : ℚ) ≤ -q := by linarith
    have h2 : ¬ (0 : ℚ) ≤ q := by linarith
    simp [h1, h2]
  · subst h
    have h12 : ⌊(2⁻¹ : ℚ)⌋ = 0 := by
      rw [Int.floor_eq_iff]; norm_num
    simp [h12]
  · have h1 : ¬ (0 : ℚ) ≤ -q := by linarith
    have h2 : (0 : ℚ) ≤ q := by linarith
    simp [h1, h2]

theorem floor_half_div (m P : Nat) (hP : 0 < P) :
    ⌊(m : ℚ) / P + 1 / 2⌋ = ((if P ≤ 2 * (m % P) then m / P + 1 else m / P : Nat) : ℤ) := by
  have hm : (m : ℚ) = (P : ℚ) * ((m / P : Nat) : ℚ) + ((m % P : Nat) : ℚ) := by
    exact_mod_cast (Nat.div_add_mod m P).symm
  have hP' : (0 : ℚ) < P := by exact_mod_cast hP
  have hr : ((m % P : Nat) : ℚ) < P := by exact_mod_cast Nat.mod_lt m hP
  have hr0 : (0 : ℚ) ≤ ((m % P : Nat) : ℚ) := by positivity
  have hx : (m : ℚ) / P = ((m / P : Nat) : ℚ) + ((m % P : Nat) : ℚ) / P := by
    field_simp
    linarith
  rw [Int.floor_eq_iff, hx]
  by_cases h : P ≤ 2 * (m % P)
  · have h' : (P : ℚ) ≤ 2 * ((m % P : Nat) : ℚ) := by exact_mod_cast h
    have h1 : (1 / 2 : ℚ) ≤ ((m % P : Nat) : ℚ) / P := by
      rw [le_div_iff₀ hP']; linarith
    have h2 : ((m % P : Nat) : ℚ) / P < 1 := by
      rw [div_lt_one hP']; exact hr
    simp only [h, if_true, Int.cast_natCast, Nat.cast_add, Nat.cast_one, Int.cast_add,
      Int.cast_one]
    constructor <;> linarith
  · have h' : 2 * ((m % P : Nat) : ℚ) < P := by exact_mod_cast (not_le.mp h)
    have h1 : ((m % P : Nat) : ℚ) / P < 1 / 2 := by
      rw [div_lt_iff₀ hP']; linarith
    have h2 : (0 : ℚ) ≤ ((m % P : Nat) : ℚ) / P := by positivity
    simp only [h, if_false, Int.cast_natCast]
    constructor <;> linarith

theorem toRat_ofRatio_int (s : Bool) (n : Nat) (hlt : n < 2 ^ 53) :
    (F64.ofRatio s n 1).isFinite = true
    ∧ (F64.ofRatio s n 1).toRat = (if s then -1 else 1) * (n : ℚ) := by
  by_cases hn : n = 0
  · subst hn
    simp [F64.ofRatio, F64.toRat, F64.isFinite]
  · rw [ofRatio_int s n hn hlt]
    obtain ⟨lo, hi⟩ := bitLen_bounds n hn
    have hb : F64.bitLen n ≤ 53 := by
      by_contra h
      have : 2 ^ 53 ≤ 2 ^ (F64.bitLen n - 1) := Nat.pow_le_pow_right (by norm_num) (by omega)
      omega
    refine ⟨rfl, ?_⟩
    simp only [F64.toRat]
    have h2 : ((2 : ℚ) ^ (53 - F64.bitLen n)) * (2 : ℚ) ^ ((F64.bitLen n : Int) - 53) = 1 := by
      rw [← zpow_natCast, ← zpow_add₀ (by norm_num : (2 : ℚ) ≠ 0)]
      have : ((53 - F64.bitLen n : Nat) : Int) + ((F64.bitLen n : Int) - 53) = 0 := by omega
      rw [this, zpow_zero]
    push_cast
    rw [mul_assoc, mul_assoc, h2, mul_one]

theorem mathRound_spec (s : Bool) (m : Nat) (e : Int) (hm : m < 2 ^ 53) :
    (F64.mathRound (F64.fin s m e)).isFinite = true
    ∧ (F64.mathRound (F64.fin s m e)).toRat
        = (roundHalfAway (F64.fin s m e).toRat : ℚ) := by
  have hsign : ∀ q : ℚ, 0 ≤ q →
      ((roundHalfAway ((if s then -1 else 1) * q) : ℤ) : ℚ)
        = (if s then -1 else 1) * ((roundHalfAway q : ℤ) : ℚ) := by
    intro q hq
    cases s
    · simp
    · simp only [if_true, neg_mul, one_mul, roundHalfAway_neg]
      push_cast; ring
  by_cases he : 0 ≤ e
  · simp only [F64.mathRound, he, if_true]
    refine ⟨rfl, ?_⟩
    obtain ⟨t, rfl⟩ := Int.eq_ofNat_of_zero_le he
    have hz : (F64.fin s m (t : Int)).toRat
        = (((if s then -1 else 1) * (m : ℤ) * 2 ^ t : ℤ) : ℚ) := by
      simp only [F64.toRat, zpow_natCast]
      cases s <;> push_cast <;> ring
    rw [hz, roundHalfAway_intCast]
  · simp only [F64.mathRound, he, if_false]
    obtain ⟨j, hj⟩ : ∃ j, (-e).toNat = j := ⟨_, rfl⟩
    rw [hj]
    have hP : 0 < 2 ^ j := by positivity
    have hj1 : 1 ≤ j := by omega
    have hP2 : 2 ≤ 2 ^ j := by
      calc 2 = 2 ^ 1 := by norm_num
        _ ≤ 2 ^ j := Nat.pow_le_pow_right (by norm_num) hj1
    obtain ⟨k, hk⟩ : ∃ k, (if 2 ^ j ≤ 2 * (m % 2 ^ j) then m / 2 ^ j + 1 else m / 2 ^ j) = k :=
      ⟨_, rfl⟩
    rw [hk]
    have hk53 : k < 2 ^ 53 := by
      have hq : m / 2 ^ j ≤ m / 2 := by
        calc m / 2 ^ j ≤ m / 2 ^ 1 := Nat.div_le_div_left (Nat.pow_le_pow_right (by norm_num) hj1)
              (by norm_num)
          _ = m / 2 := by norm_num
      rw [← hk]
      split_ifs <;> omega
    obtain ⟨hfin, hval⟩ := toRat_ofRatio_int s k hk53
    refine ⟨hfin, ?_⟩
    rw [hval]
    have hv : (F64.fin s m e).toRat = (if s then -1 else 1) * ((m : ℚ) / ((2 ^ j : Nat) : ℚ)) := by
      simp only [F64.toRat]
      have : (2 : ℚ) ^ e = 1 / ((2 ^ j : Nat) : ℚ) := by
        have he' : e = -(j : Int) := by omega
        rw [he', zpow_neg, zpow_natCast]
        push_cast
        rw [one_div]
      rw [this]
      ring
    rw [hv, hsign _ (by positivity)]
    congr 1
    have hfl := floor_half_div m (2 ^ j) hP
    rw [hk] at hfl
    unfold roundHalfAway
    rw [if_pos (by positivity), hfl]
    simp

/-! ## Abbreviated integers: tokens without a fractional part -/

theorem multiplier_pos (suffix : List Char) (mult : Nat) (hm : multiplier suffix = some mult) :
    mult ≠ 0 ∧ mult < 2 ^ 53 := by
  unfold multiplier at hm
  split_ifs at hm <;> simp at hm <;> subst hm <;> norm_num

theorem signOf_abs (sign : List Char) (sg : Int) (hs : signOf sign = some sg) :
    sg = 1 ∨ sg = -1 := by
  unfold signOf at hs
  split_ifs at hs <;> simp at hs <;> omega

theorem body_not_sign (sign digits : List Char) (sg : Int) (hs : signOf sign = some sg)
    (hne : digits ≠ []) (hd : ∀ c ∈ digits, isDecDigit c = true) :
    sign ++ digits ≠ [] ∧ sign ++ digits ≠ ['+'] ∧ sign ++ digits ≠ ['-'] := by
  obtain ⟨d, ds, hds⟩ := List.exists_cons_of_ne_nil hne
  subst hds
  have hdd : isDecDigit d = true := hd d (by simp)
  have hp : d ≠ '+' := digit_ne d '+' hdd (by decide)
  have hm : d ≠ '-' := digit_ne d '-' hdd (by decide)
  unfold signOf at hs
  by_cases h0 : sign = []
  · subst h0; simp [hp, hm]
  · by_cases h1 : sign = ['+']
    · subst h1; simp
    · by_cases h2 : sign = ['-']
      · subst h2; simp
      · simp [h0, h1, h2] at hs

theorem no_float_chars (sign digits : List Char) (sg : Int) (hs : signOf sign = some sg)
    (hd : ∀ c ∈ digits, isDecDigit c = true) :
    (sign ++ digits).any (fun c => c = '.' || c = 'e' || c = 'E') = false := by
  rw [List.any_eq_false]
  intro c hc
  rw [List.mem_append] at hc
  rcases hc with hc | hc
  · unfold signOf at hs
    by_cases h0 : sign = []
    · subst h0; simp at hc
    · by_cases h1 : sign = ['+']
      · subst h1; simp at hc; subst hc; decide
      · by_cases h2 : sign = ['-']
        · subst h2; simp at hc; subst hc; decide
        · simp [h0, h1, h2] at hs
  · have hdd := hd c hc
    have h1 := digit_ne c '.' hdd (by decide)
    have h2 := digit_ne c 'e' hdd (by decide)
    have h3 := digit_ne c 'E' hdd (by decide)
    simp [h1, h2, h3]

theorem parseAbbrevInt_integer_token (outOfRange : F64 → Int) (s : String)
    (sign digits suffix : List Char) (sg : Int) (mult : Nat)
    (htok : withoutSeparators s = sign ++ digits ++ suffix)
    (hs : signOf sign = some sg) (hne : digits ≠ [])
    (hd : ∀ c ∈ digits, isDecDigit c = true) (hm : multiplier suffix = some mult)
    (hr : natVal digits * mult < 2 ^ 53) :
    parseAbbrevInt outOfRange s = .ok (sg * (natVal digits : Int) * (mult : Int)) := by
  obtain ⟨hm0, hm53⟩ := multiplier_pos suffix mult hm
  have hmpos : 0 < mult := Nat.pos_of_ne_zero hm0
  obtain ⟨hb0, hb1, hb2⟩ := body_not_sign sign digits sg hs hne hd
  have hs0 : s ≠ "" := by
    intro h
    rw [h] at htok
    have : withoutSeparators "" = [] := by decide
    rw [this] at htok
    have := congrArg List.length htok
    simp at this
    have hl : digits.length = 0 := by omega
    exact hne (List.length_eq_zero.mp hl)
  have hnorm : normalize s = (sign ++ digits) ++ suffix := by rw [normalize_eq, htok]
  have hne' : (sign ++ digits) ++ suffix ≠ [] := by
    intro h
    exact hb0 (List.append_eq_nil.mp h).1
  obtain ⟨hstrip, hmult⟩ := strip_and_mult (sign ++ digits) suffix mult
    (by
      obtain ⟨c, h1, h2⟩ := getLast?_digits sign digits hne hd
      exact ⟨c, h1, unitMult_digit c h2⟩) hm
  have hN : natVal digits < 2 ^ 63 := by
    have : natVal digits ≤ natVal digits * mult := Nat.le_mul_of_pos_right _ hmpos
    have : (2 : Nat) ^ 53 < 2 ^ 63 := by norm_num
    omega
  have hparse := parseInt_signed_digits sign digits sg hs hne hd hN
  have habs : (sg * (natVal digits : Int)).natAbs = natVal digits := by
    rcases signOf_abs sign sg hs with h | h <;> subst h <;> simp
  have hround := round_mul_int outOfRange (sg * (natVal digits : Int)) mult hm0 hm53
    (by rw [habs]; exact hr)
  unfold parseAbbrevInt
  simp only [hs0, if_false, hnorm, hne', hstrip, hmult]
  have hcond : ¬ (sign ++ digits = [] ∨ sign ++ digits = ['+'] ∨ sign ++ digits = ['-']) := by
    simp [hb0, hb1, hb2]
  simp only [hcond, if_false, no_float_chars sign digits sg hs hd, Bool.not_false, if_true,
    hparse, hround]

/-! ## Abbreviated integers: tokens with a fractional part -/

theorem readMantissa_digits (ds rest : List Char) (st : ReadState)
    (hd : ∀ c ∈ ds, isDecDigit c = true) (h0 : st.nd = 0 → st.mantissa = 0)
    (hnd : 0 ≤ st.nd) :
    ∃ st', readMantissa false (ds ++ rest) st = readMantissa false rest st'
      ∧ st'.mantissa = ds.foldl (fun n c => n * 10 + decVal c) st.mantissa
      ∧ st'.sawdot = st.sawdot ∧ st'.underscores = st.underscores
      ∧ st'.sawdigits = (st.sawdigits || !ds.isEmpty)
      ∧ (st'.nd = 0 → st'.mantissa = 0) ∧ 0 ≤ st'.nd
      ∧ st'.dp - st'.nd = st.dp - st.nd - ds.length := by
  induction ds generalizing st with
  | nil => exact ⟨st, by simp, rfl, rfl, rfl, by simp, h0, hnd, by simp⟩
  | cons c cs ih =>
    have hc := hd c (by simp)
    have hu : c ≠ '_' := digit_ne c '_' hc (by decide)
    have hdot : c ≠ '.' := digit_ne c '.' hc (by decide)
    have hcs : ∀ x ∈ cs, isDecDigit x = true := fun x hx => hd x (List.mem_cons_of_mem _ hx)
    by_cases hz : c = '0' ∧ st.nd = 0
    · obtain ⟨st', h1, h2, h3, h4, h5, h6, h7, h8⟩ :=
        ih { st with sawdigits := true, dp := st.dp - 1 } hcs h0 hnd
      refine ⟨st', ?_, ?_, h3, h4, ?_, h6, h7, ?_⟩
      · rw [List.cons_append, readMantissa, if_neg hu, if_neg hdot, if_pos hc, if_pos hz]
        exact h1
      · rw [h2]
        simp only [List.foldl_cons]
        have hm := h0 hz.2
        have hv : decVal c = 0 := by rw [hz.1]; decide
        rw [hm, hv]
      · rw [h5]; simp
      · rw [h8]; simp only [List.length_cons]; push_cast; ring
    · have hnz : st.nd + 1 = 0 → st.mantissa * 10 + decVal c = 0 := by intro h; omega
      obtain ⟨st', h1, h2, h3, h4, h5, h6, h7, h8⟩ :=
        ih { st with sawdigits := true, nd := st.nd + 1,
                     mantissa := st.mantissa * 10 + decVal c } hcs hnz (by simp only; omega)
      refine ⟨st', ?_, ?_, h3, h4, ?_, h6, h7, ?_⟩
      · rw [List.cons_append, readMantissa, if_neg hu, if_neg hdot, if_pos hc, if_neg hz]
        exact h1
      · rw [h2]; simp only [List.foldl_cons]
      · rw [h5]; simp
      · rw [h8]; simp only [List.length_cons]; push_cast; ring

theorem readMantissa_decimal (ints fracs : List Char)
    (hi : ∀ c ∈ ints, isDecDigit c = true) (hf : ∀ c ∈ fracs, isDecDigit c = true)
    (hne : ints ++ fracs ≠ []) :
    ∃ st, readMantissa false (ints ++ '.' :: fracs) ⟨false, false, 0, 0, 0, false⟩ = (st, [])
      ∧ st.mantissa = natVal (ints ++ fracs) ∧ st.sawdot = true ∧ st.underscores = false
      ∧ st.sawdigits = true ∧ st.dp - st.nd = -(fracs.length : Int) := by
  obtain ⟨s1, a1, a2, a3, a4, a5, a6, a7, _⟩ :=
    readMantissa_digits ints ('.' :: fracs) ⟨false, false, 0, 0, 0, false⟩ hi (by simp) (by simp)
  obtain ⟨s2, b1, b2, b3, b4, b5, b6, b7, b8⟩ :=
    readMantissa_digits fracs [] { s1 with sawdot := true, dp := s1.nd } hf a6 a7
  refine ⟨s2, ?_, ?_, b3, ?_, ?_, ?_⟩
  · rw [a1, readMantissa]
    simp only [show ('.' : Char) ≠ '_' by decide, if_false, if_true, a3, Bool.false_eq_true]
    have := b1
    rw [List.append_nil] at this
    rw [this, readMantissa]
  · rw [b2]
    simp only
    rw [a2, natVal, List.foldl_append]
  · rw [b4]; exact a4
  · rw [b5]
    simp only
    rw [a5]
    cases ints with
    | nil =>
      cases fracs with
      | nil => exact absurd rfl hne
      | cons _ _ => simp
    | cons _ _ => simp
  · rw [b8]; simp

theorem char_le_iff (a b : Char) : a ≤ b ↔ a.toNat ≤ b.toNat := by
  simp only [Char.le_def, UInt32.le_def, BitVec.le_def]
  rfl

theorem mantissa_char (c : Char) (h : isDecDigit c = true ∨ c = '.') :
    c ≠ '+' ∧ c ≠ '-' ∧ c ≠ 'i' ∧ c ≠ 'I' ∧ c ≠ 'n' ∧ c ≠ 'N' ∧ c ≠ 'x' ∧ c ≠ 'X'
      ∧ ¬ ('A' ≤ c ∧ c ≤ 'Z') := by
  rcases h with h | h
  · refine ⟨digit_ne c _ h (by decide), digit_ne c _ h (by decide), digit_ne c _ h (by decide),
      digit_ne c _ h (by decide), digit_ne c _ h (by decide), digit_ne c _ h (by decide),
      digit_ne c _ h (by decide), digit_ne c _ h (by decide), ?_⟩
    have h9 : c ≤ '9' := by
      have : '0' ≤ c ∧ c ≤ '9' := by simpa [isDecDigit] using h
      exact this.2
    rw [char_le_iff] at h9
    rintro ⟨hA, _⟩
    rw [char_le_iff] at hA
    have e1 : ('9' : Char).toNat = 57 := rfl
    have e2 : ('A' : Char).toNat = 65 := rfl
    omega
  · subst h
    decide

theorem special_body (sign body : List Char) (sg : Int) (hs : signOf sign = some sg)
    (b0 : Char) (tl : List Char) (hb : body = b0 :: tl)
    (h0 : isDecDigit b0 = true ∨ b0 = '.') :
    special (sign ++ body) = none := by
  obtain ⟨h1, h2, h3, h4, h5, h6, _, _, h9⟩ := mantissa_char b0 h0
  have hcp : ∀ pre : List Char, pre ≠ [] → pre.head? = some 'i' →
      commonPrefixLenIgnoreCase (b0 :: tl) pre = 0 := by
    intro pre hpre hhead
    obtain ⟨p, ps, hp⟩ := List.exists_cons_of_ne_nil hpre
    subst hp
    simp only [List.head?_cons, Option.some.injEq] at hhead
    subst hhead
    simp only [commonPrefixLenIgnoreCase, h9, if_false, h3]
  have hinf : ∀ (neg : Bool) (k : Nat), specialInf neg k (b0 :: tl) = none := by
    intro neg k
    unfold specialInf
    rw [hcp "infinity".toList (by decide) (by decide)]
    simp
  subst hb
  unfold signOf at hs
  by_cases e0 : sign = []
  · subst e0
    simp only [List.nil_append, special, h1, h2, h3, h4, h5, h6, or_self, if_false]
  · by_cases e1 : sign = ['+']
    · subst e1
      simp only [List.singleton_append, special, true_or, if_true, hinf]
    · by_cases e2 : sign = ['-']
      · subst e2
        simp only [List.singleton_append, special, or_true, if_true, hinf]
      · simp [e0, e1, e2] at hs

theorem dropSign_body (sign body : List Char) (sg : Int) (hs : signOf sign = some sg)
    (b0 : Char) (tl : List Char) (hb : body = b0 :: tl)
    (h0 : isDecDigit b0 = true ∨ b0 = '.') :
    dropSign (sign ++ body) = body
      ∧ decide ((sign ++ body).head? = some '-') = decide (sign = ['-'])
      ∧ sign ++ body ≠ [] := by
  obtain ⟨h1, h2, _⟩ := mantissa_char b0 h0
  subst hb
  unfold signOf at hs
  by_cases e0 : sign = []
  · subst e0
    simp [dropSign, h1, h2]
  · by_cases e1 : sign = ['+']
    · subst e1
      simp [dropSign]
    · by_cases e2 : sign = ['-']
      · subst e2
        simp [dropSign]
      · simp [e0, e1, e2] at hs

theorem hexPrefix_body (body : List Char)
    (h : ∀ c ∈ body, isDecDigit c = true ∨ c = '.') : hexPrefix body = false := by
  unfold hexPrefix
  rcases body with _ | ⟨a, _ | ⟨x, _ | ⟨y, tl⟩⟩⟩ <;> simp
  intro _
  obtain ⟨_, _, _, _, _, _, h7, h8, _⟩ := mantissa_char x (h x (by simp))
  exact ⟨h7, h8⟩

theorem parseFloat_decimal (sign ints fracs : List Char) (sg : Int)
    (hs : signOf sign = some sg)
    (hi : ∀ c ∈ ints, isDecDigit c = true) (hf : ∀ c ∈ fracs, isDecDigit c = true)
    (hne : ints ++ fracs ≠ []) :
    strconvParseFloat (sign ++ (ints ++ '.' :: fracs)) =
      match F64.ofRatio (decide (sign = ['-'])) (natVal (ints ++ fracs)) (10 ^ fracs.length) with
      | .inf _ => .error .ErrRange
      | f => .ok f := by
  have hbody : ∀ c ∈ ints ++ '.' :: fracs, isDecDigit c = true ∨ c = '.' := by
    intro c hc
    simp only [List.mem_append, List.mem_cons] at hc
    rcases hc with hc | hc | hc
    · exact Or.inl (hi c hc)
    · exact Or.inr hc
    · exact Or.inl (hf c hc)
  obtain ⟨b0, tl, hb⟩ : ∃ b0 tl, ints ++ '.' :: fracs = b0 :: tl := by
    cases ints with
    | nil => exact ⟨'.', fracs, rfl⟩
    | cons a as => exact ⟨a, as ++ '.' :: fracs, rfl⟩
  have hb0 : isDecDigit b0 = true ∨ b0 = '.' := hbody b0 (by rw [hb]; simp)
  obtain ⟨hdrop, hneg, hnil⟩ := dropSign_body sign _ sg hs b0 tl hb hb0
  obtain ⟨st, hrm, hmant, _, hus, hsd, hdp⟩ := readMantissa_decimal ints fracs hi hf hne
  have hread : readFloat (sign ++ (ints ++ '.' :: fracs)) =
      some ⟨decide (sign = ['-']), false, natVal (ints ++ fracs),
        if natVal (ints ++ fracs) ≠ 0 then -(fracs.length : Int) else 0, []⟩ := by
    unfold readFloat
    simp only [hnil, if_false, hdrop, hexPrefix_body _ hbody, Bool.false_eq_true, hrm, hsd,
      Bool.not_true, hus, readExponent, readFloatFinish, hneg, hmant, false_and,
      if_true, Bool.not_false, List.length_nil, Nat.sub_zero, List.take_length]
    simp only [hdp.symm ▸ hdp, Option.some.injEq, FloatLit.mk.injEq, true_and, and_true]
    have : st.sawdot = true := by assumption
    simp only [this, if_true]
    split_ifs <;> first | rfl | omega
  unfold strconvParseFloat
  rw [special_body sign _ sg hs b0 tl hb hb0]
  simp only [hread, ne_eq, not_true_eq_false, if_false]
  have hval : FloatLit.value ⟨decide (sign = ['-']), false, natVal (ints ++ fracs),
        if natVal (ints ++ fracs) ≠ 0 then -(fracs.length : Int) else 0, []⟩
      = F64.ofRatio (decide (sign = ['-'])) (natVal (ints ++ fracs)) (10 ^ fracs.length) := by
    unfold FloatLit.value
    simp only [Bool.false_eq_true, if_false]
    by_cases hN : natVal (ints ++ fracs) = 0
    · simp [hN, F64.ofRatio]
    · simp only [hN, ne_eq, not_false_eq_true, if_true]
      by_cases hk : fracs.length = 0
      · simp [hk]
      · have : ¬ ((0 : Int) ≤ -(fracs.length : Int)) := by omega
        simp only [this, if_false, neg_neg, Int.toNat_ofNat]
  rw [hval]

theorem bitLen_mul_bounds (n c : Nat) (hn : n ≠ 0) (hc : c ≠ 0) :
    F64.bitLen n + F64.bitLen c ≤ F64.bitLen (n * c) + 1
      ∧ F64.bitLen (n * c) ≤ F64.bitLen n + F64.bitLen c := by
  obtain ⟨nlo, nhi⟩ := bitLen_bounds n hn
  obtain ⟨clo, chi⟩ := bitLen_bounds c hc
  obtain ⟨plo, phi⟩ := bitLen_bounds (n * c) (Nat.mul_ne_zero hn hc)
  have hbn : F64.bitLen n ≠ 0 := by
    intro h; rw [h] at nhi; simp at nhi; exact hn nhi
  have hbc : F64.bitLen c ≠ 0 := by
    intro h; rw [h] at chi; simp at chi; exact hc chi
  have hup : n * c < 2 ^ (F64.bitLen n + F64.bitLen c) := by
    rw [pow_add]
    exact Nat.mul_lt_mul'' nhi chi
  have hdn : 2 ^ (F64.bitLen n + F64.bitLen c - 2) ≤ n * c := by
    have : F64.bitLen n + F64.bitLen c - 2 = (F64.bitLen n - 1) + (F64.bitLen c - 1) := by omega
    rw [this, pow_add]
    exact Nat.mul_le_mul nlo clo
  constructor
  · by_contra h
    have : 2 ^ (F64.bitLen (n * c)) ≤ 2 ^ (F64.bitLen n + F64.bitLen c - 2) :=
      Nat.pow_le_pow_right (by norm_num) (by omega)
    omega
  · by_contra h
    have : 2 ^ (F64.bitLen n + F64.bitLen c) ≤ 2 ^ (F64.bitLen (n * c) - 1) :=
      Nat.pow_le_pow_right (by norm_num) (by omega)
    omega

theorem ofRatio_mul_right (s : Bool) (n c : Nat) (hn : n ≠ 0) (hlt : n < 2 ^ 53)
    (hc : c ≠ 0) :
    F64.ofRatio s (n * c) c = F64.ofRatio s n 1 := by
  rw [ofRatio_int s n hn hlt]
  obtain ⟨clo, chi⟩ := bitLen_bounds n hn
  have hb1 : F64.bitLen n ≠ 0 := by
    intro h; rw [h] at chi; simp at chi; exact hn chi
  have hb53 : F64.bitLen n ≤ 53 := by
    by_contra h
    have : 2 ^ 53 ≤ 2 ^ (F64.bitLen n - 1) := Nat.pow_le_pow_right (by norm_num) (by omega)
    omega
  obtain ⟨j, hj⟩ : ∃ j, 53 - F64.bitLen n = j := ⟨_, rfl⟩
  rw [hj]
  have hbj : F64.bitLen n + j = 53 := by omega
  have hcpos : 0 < c := Nat.pos_of_ne_zero hc
  have hnc : n * c ≠ 0 := Nat.mul_ne_zero hn hc
  have hqlo : 2 ^ 52 ≤ n * 2 ^ j := by
    have : 2 ^ 52 = 2 ^ (F64.bitLen n - 1) * 2 ^ j := by
      rw [← pow_add]; congr 1; omega
    rw [this]
    exact Nat.mul_le_mul_right _ clo
  have hqhi : n * 2 ^ j < 2 ^ 53 := by
    have : 2 ^ 53 = 2 ^ (F64.bitLen n) * 2 ^ j := by
      rw [← pow_add]; congr 1; omega
    rw [this]
    exact Nat.mul_lt_mul_of_pos_right chi (by positivity)
  obtain ⟨m1, m2⟩ := bitLen_mul_bounds n c hn hc
  have hquot : ∀ t : Nat, n * c * 2 ^ t / c = n * 2 ^ t := by
    intro t
    rw [Nat.mul_right_comm, Nat.mul_div_cancel _ hcpos]
  have hbin : F64.binade (n * c) c = -(j : Int) := by
    unfold F64.binade
    have hcases : max (((F64.bitLen (n * c) : Nat) : Int) - ((F64.bitLen c : Nat) : Int) - 53)
        (-1074) = -((j : Int) + 1) ∨
        max (((F64.bitLen (n * c) : Nat) : Int) - ((F64.bitLen c : Nat) : Int) - 53)
        (-1074) = -(j : Int) := by
      rw [max_eq_left (by omega)]
      omega
    rcases hcases with he0 | he0
    · simp only [he0]
      have hneg : -((j : Int) + 1) ≤ 0 := by omega
      have htn : (-(-((j : Int) + 1))).toNat = j + 1 := by omega
      simp only [F64.scaleNum, F64.scaleDen, hneg, if_true, htn, hquot]
      have : ¬ (n * 2 ^ (j + 1) < 2 ^ 53) := by
        have e2 : n * 2 ^ (j + 1) = (n * 2 ^ j) * 2 := by rw [pow_succ]; ring
        rw [e2]
        omega
      simp only [this, if_false]
      omega
    · simp only [he0]
      have hneg : -(j : Int) ≤ 0 := by omega
      have htn : (-(-(j : Int))).toNat = j := by omega
      simp only [F64.scaleNum, F64.scaleDen, hneg, if_true, htn, hquot, hqhi]
  unfold F64.ofRatio
  simp only [hnc, if_false, hbin]
  have hneg : -(j : Int) ≤ 0 := by omega
  have htn : (-(-(j : Int))).toNat = j := by omega
  simp only [F64.scaleNum, F64.scaleDen, hneg, if_true, htn]
  have hq : n * c * 2 ^ j = (n * 2 ^ j) * c := by ring
  rw [hq, nearestEven_exact _ _ hcpos]
  have h0 : n * 2 ^ j ≠ 0 := by omega
  have h53 : n * 2 ^ j ≠ 2 ^ 53 := by omega
  have h971 : ¬ (971 < -(j : Int)) := by omega
  simp only [h0, h53, h971, if_false]
  congr 1
  omega

theorem round_mul_ratio (outOfRange : F64 → Int) (s : Bool) (n mult : Nat) (hm : mult ≠ 0)
    (hm53 : mult < 2 ^ 53) (h : n * mult < 2 ^ 53) :
    F64.toInt outOfRange
        (F64.mathRound (F64.mul (F64.ofRatio s n 1) (F64.ofInt (mult : Int))))
      = (if s then -1 else 1) * ((n : Int) * (mult : Int)) := by
  have hmult : F64.ofInt (mult : Int) = F64.ofRatio false mult 1 := by
    unfold F64.ofInt
    have : ¬ ((mult : Int) < 0) := by omega
    simp [this]
  rw [hmult]
  by_cases hn : n = 0
  · subst hn
    have h0 : F64.ofRatio s 0 1 = F64.fin s 0 0 := by simp [F64.ofRatio]
    rw [h0, ofRatio_int false mult hm hm53]
    simp only [F64.mul, Nat.zero_mul, scaleNum_zero, F64.ofRatio, if_true, F64.mathRound,
      le_refl, F64.toInt, F64.truncFin, Nat.zero_div]
    simp
  · rw [mul_int_exact _ _ _ _ hn hm h, mathRound_int _ _ (Nat.mul_ne_zero hn hm) h,
      toInt_int _ _ _ (Nat.mul_ne_zero hn hm) h]
    simp

theorem parseAbbrevInt_decimal_token (outOfRange : F64 → Int) (s : String)
    (sign ints fracs suffix : List Char) (sg : Int) (mult : Nat)
    (htok : withoutSeparators s = sign ++ (ints ++ '.' :: fracs) ++ suffix)
    (hs : signOf sign = some sg)
    (hi : ∀ c ∈ ints, isDecDigit c = true) (hf : ∀ c ∈ fracs, isDecDigit c = true)
    (hne : ints ++ fracs ≠ []) (hm : multiplier suffix = some mult) :
    parseAbbrevInt outOfRange s =
      match F64.ofRatio (decide (sign = ['-'])) (natVal (ints ++ fracs)) (10 ^ fracs.length) with
      | .inf _ =>
          .error (.numError "ParseFloat" (String.mk (sign ++ (ints ++ '.' :: fracs))) .ErrRange)
      | f => .ok (F64.toInt outOfRange (F64.mathRound (F64.mul f (F64.ofInt (mult : Int))))) := by
  have hdot : '.' ∈ sign ++ (ints ++ '.' :: fracs) := by simp
  have hb0 : sign ++ (ints ++ '.' :: fracs) ≠ [] := by
    intro h; rw [h] at hdot; simp at hdot
  have hb1 : sign ++ (ints ++ '.' :: fracs) ≠ ['+'] := by
    intro h; rw [h] at hdot; exact absurd hdot (by decide)
  have hb2 : sign ++ (ints ++ '.' :: fracs) ≠ ['-'] := by
    intro h; rw [h] at hdot; exact absurd hdot (by decide)
  have hs0 : s ≠ "" := by
    intro h
    rw [h] at htok
    have : withoutSeparators "" = [] := by decide
    rw [this] at htok
    have := congrArg List.length htok
    simp at this
    omega
  have hnorm : normalize s = (sign ++ (ints ++ '.' :: fracs)) ++ suffix := by
    rw [normalize_eq, htok]
  have hne' : (sign ++ (ints ++ '.' :: fracs)) ++ suffix ≠ [] := by
    intro h
    exact hb0 (List.append_eq_nil.mp h).1
  have hlast : ∃ c, (sign ++ (ints ++ '.' :: fracs)).getLast? = some c ∧ unitMult c = none := by
    by_cases hfr : fracs = []
    · subst hfr
      refine ⟨'.', ?_, by decide⟩
      rw [← List.append_assoc, show ['.'] = [] ++ ['.'] from rfl, ← List.append_assoc]
      simp
    · obtain ⟨c, h1, h2⟩ := getLast?_digits (sign ++ ints ++ ['.']) fracs hfr hf
      refine ⟨c, ?_, unitMult_digit c h2⟩
      rw [← h1]
      simp
  obtain ⟨hstrip, hmult⟩ := strip_and_mult _ suffix mult hlast hm
  have hany : (sign ++ (ints ++ '.' :: fracs)).any (fun c => c = '.' || c = 'e' || c = 'E')
      = true := by
    rw [List.any_eq_true]
    exact ⟨'.', hdot, by decide⟩
  have hcond : ¬ (sign ++ (ints ++ '.' :: fracs) = [] ∨ sign ++ (ints ++ '.' :: fracs) = ['+']
      ∨ sign ++ (ints ++ '.' :: fracs) = ['-']) := by
    simp only [hb0, hb1, hb2, or_self, not_false_eq_true]
  unfold parseAbbrevInt
  simp only [hs0, if_false, hnorm, hne', hstrip, hmult, hcond, hany, Bool.not_true,
    Bool.false_eq_true, parseFloat_decimal sign ints fracs sg hs hi hf hne]
  cases F64.ofRatio (decide (sign = ['-'])) (natVal (ints ++ fracs)) (10 ^ fracs.length) <;> rfl

theorem natVal_append_zeros (ints zeros : List Char) (hz : ∀ c ∈ zeros, c = '0') :
    natVal (ints ++ zeros) = natVal ints * 10 ^ zeros.length := by
  unfold natVal
  rw [List.foldl_append]
  generalize List.foldl (fun n c => n * 10 + decVal c) 0 ints = a
  induction zeros generalizing a with
  | nil => simp
  | cons z zs ih =>
    have hz0 : z = '0' := hz z (by simp)
    subst hz0
    simp only [List.foldl_cons, List.length_cons]
    rw [ih (fun c hc => hz c (List.mem_cons_of_mem _ hc))]
    have : decVal '0' = 0 := by decide
    rw [this, pow_succ]
    ring

theorem parseAbbrevInt_zero_fraction (outOfRange : F64 → Int) (s : String)
    (sign ints zeros suffix : List Char) (sg : Int) (mult : Nat)
    (htok : withoutSeparators s = sign ++ (ints ++ '.' :: zeros) ++ suffix)
    (hs : signOf sign = some sg) (hne : ints ≠ [])
    (hi : ∀ c ∈ ints, isDecDigit c = true) (hz : ∀ c ∈ zeros, c = '0')
    (hm : multiplier suffix = some mult) (hr : natVal ints * mult < 2 ^ 53) :
    parseAbbrevInt outOfRange s = .ok (sg * (natVal ints : Int) * (mult : Int)) := by
  obtain ⟨hm0, hm53⟩ := multiplier_pos suffix mult hm
  have hmpos : 0 < mult := Nat.pos_of_ne_zero hm0
  have hf : ∀ c ∈ zeros, isDecDigit c = true := by
    intro c hc; rw [hz c hc]; decide
  have hne' : ints ++ zeros ≠ [] := by
    intro h; exact hne (List.append_eq_nil.mp h).1
  rw [parseAbbrevInt_decimal_token outOfRange s sign ints zeros suffix sg mult htok hs hi hf
    hne' hm, natVal_append_zeros ints zeros hz]
  have hN : natVal ints < 2 ^ 53 := by
    have : natVal ints ≤ natVal ints * mult := Nat.le_mul_of_pos_right _ hmpos
    omega
  have hsign : (if decide (sign = ['-']) = true then (-1 : Int) else 1) = sg := by
    unfold signOf at hs
    by_cases e0 : sign = [] ∨ sign = ['+']
    · simp only [e0, if_true, Option.some.injEq] at hs
      subst hs
      rcases e0 with e | e <;> subst e <;> decide
    · simp only [e0, if_false] at hs
      by_cases e2 : sign = ['-']
      · simp only [e2, if_true, Option.some.injEq] at hs
        subst hs; subst e2; decide
      · simp [e2] at hs
  have hratio : F64.ofRatio (decide (sign = ['-'])) (natVal ints * 10 ^ zeros.length)
      (10 ^ zeros.length) = F64.ofRatio (decide (sign = ['-'])) (natVal ints) 1 := by
    by_cases h0 : natVal ints = 0
    · simp [h0, F64.ofRatio]
    · exact ofRatio_mul_right _ _ _ h0 hN (by positivity)
  rw [hratio]
  have hround := round_mul_ratio outOfRange (decide (sign = ['-'])) (natVal ints) mult hm0 hm53 hr
  have hfin : ∀ b, F64.ofRatio (decide (sign = ['-'])) (natVal ints) 1 ≠ F64.inf b := by
    intro b
    by_cases h0 : natVal ints = 0
    · simp [h0, F64.ofRatio]
    · rw [ofRatio_int _ _ h0 hN]; simp
  cases hv : F64.ofRatio (decide (sign = ['-'])) (natVal ints) 1 with
  | inf b => exact absurd hv (hfin b)
  | fin a m e =>
    rw [hv] at hround
    simp only [hround, hsign]
    rw [← hsign]; ring_nf
  | nan =>
    rw [hv] at hround
    simp only [hround, hsign]
    rw [← hsign]; ring_nf

/-! ## Abbreviated integers: accuracy of the binary64 computation -/

theorem scaleDen_ne_zero (d : Nat) (hd : d ≠ 0) (e : Int) : F64.scaleDen d e ≠ 0 := by
  unfold F64.scaleDen
  split_ifs
  · exact hd
  · exact Nat.mul_ne_zero hd (by positivity)

theorem scale_ratio (n d : Nat) (hd : d ≠ 0) (e : Int) :
    (F64.scaleNum n e : ℚ) / (F64.scaleDen d e : ℚ) = (n : ℚ) / (d : ℚ) * (2 : ℚ) ^ (-e) := by
  have hd' : (d : ℚ) ≠ 0 := by exact_mod_cast hd
  unfold F64.scaleNum F64.scaleDen
  by_cases he : e ≤ 0
  · simp only [he, if_true]
    obtain ⟨t, ht⟩ := Int.eq_ofNat_of_zero_le (by omega : 0 ≤ -e)
    rw [ht, Int.toNat_ofNat, zpow_natCast]
    push_cast
    ring
  · simp only [he, if_false]
    obtain ⟨t, ht⟩ := Int.eq_ofNat_of_zero_le (by omega : 0 ≤ e)
    rw [ht, Int.toNat_ofNat, zpow_neg, zpow_natCast]
    push_cast
    field_simp

theorem nearestEven_err (N D : Nat) (hD : D ≠ 0) :
    |(F64.nearestEven N D : ℚ) - (N : ℚ) / (D : ℚ)| ≤ 1 / 2 := by
  have hDpos : 0 < D := Nat.pos_of_ne_zero hD
  have hD' : (0 : ℚ) < D := by exact_mod_cast hDpos
  have hN : (N : ℚ) = (D : ℚ) * ((N / D : Nat) : ℚ) + ((N % D : Nat) : ℚ) := by
    exact_mod_cast (Nat.div_add_mod N D).symm
  have hx : (N : ℚ) / D = ((N / D : Nat) : ℚ) + ((N % D : Nat) : ℚ) / D := by
    field_simp
    linarith
  have hr0 : (0 : ℚ) ≤ ((N % D : Nat) : ℚ) / D := by positivity
  have hr1 : ((N % D : Nat) : ℚ) / D < 1 := by
    rw [div_lt_one hD']
    exact_mod_cast Nat.mod_lt N hDpos
  unfold F64.nearestEven
  simp only
  rw [hx, abs_le]
  by_cases hc : D < 2 * (N % D) ∨ 2 * (N % D) = D ∧ N / D % 2 = 1
  · rw [if_pos hc]
    have h2 : D ≤ 2 * (N % D) := by omega
    have h2' : (D : ℚ) ≤ 2 * ((N % D : Nat) : ℚ) := by exact_mod_cast h2
    have h3 : (1 / 2 : ℚ) ≤ ((N % D : Nat) : ℚ) / D := by
      rw [le_div_iff₀ hD']; linarith
    push_cast
    constructor <;> linarith
  · rw [if_neg hc]
    have h2 : 2 * (N % D) ≤ D := by omega
    have h2' : 2 * ((N % D : Nat) : ℚ) ≤ (D : ℚ) := by exact_mod_cast h2
    have h3 : ((N % D : Nat) : ℚ) / D ≤ 1 / 2 := by
      rw [div_le_iff₀ hD']; linarith
    constructor <;> linarith

theorem binade_lower (n d : Nat) (hn : n ≠ 0) (hd : d ≠ 0) :
    F64.binade n d = -1074
    ∨ 2 ^ 52 * F64.scaleDen d (F64.binade n d) ≤ F64.scaleNum n (F64.binade n d) := by
  obtain ⟨nlo, nhi⟩ := bitLen_bounds n hn
  obtain ⟨dlo, dhi⟩ := bitLen_bounds d hd
  have hbn : F64.bitLen n ≠ 0 := by
    intro h; rw [h] at nhi; simp at nhi; exact hn nhi
  have hbd : F64.bitLen d ≠ 0 := by
    intro h; rw [h] at dhi; simp at dhi; exact hd dhi
  unfold F64.binade
  simp only
  obtain ⟨e0, he0⟩ : ∃ e0, max ((F64.bitLen n : Int) - (F64.bitLen d : Int) - 53) (-1074) = e0 :=
    ⟨_, rfl⟩
  rw [he0]
  by_cases hq : F64.scaleNum n e0 / F64.scaleDen d e0 < 2 ^ 53
  · rw [if_pos hq]
    by_cases hmin : e0 = -1074
    · exact Or.inl hmin
    · right
      have hmax : e0 = (F64.bitLen n : Int) - (F64.bitLen d : Int) - 53 := by
        rcases max_cases ((F64.bitLen n : Int) - (F64.bitLen d : Int) - 53) (-1074) with h | h
        · rw [← he0]; exact h.1
        · exact absurd (he0 ▸ h.1) hmin
      by_cases hs : e0 ≤ 0
      · simp only [F64.scaleNum, F64.scaleDen, hs, if_true]
        obtain ⟨t, ht⟩ : ∃ t, (-e0).toNat = t := ⟨_, rfl⟩
        rw [ht]
        have h1 : 2 ^ 52 * d ≤ 2 ^ 52 * 2 ^ (F64.bitLen d) := Nat.mul_le_mul_left _ (le_of_lt dhi)
        have h2 : 2 ^ 52 * 2 ^ (F64.bitLen d) ≤ 2 ^ (F64.bitLen n - 1) * 2 ^ t := by
          rw [← pow_add, ← pow_add]
          exact Nat.pow_le_pow_right (by norm_num) (by omega)
        have h3 : 2 ^ (F64.bitLen n - 1) * 2 ^ t ≤ n * 2 ^ t := Nat.mul_le_mul_right _ nlo
        omega
      · simp only [F64.scaleNum, F64.scaleDen, hs, if_false]
        obtain ⟨t, ht⟩ : ∃ t, e0.toNat = t := ⟨_, rfl⟩
        rw [ht]
        have h1 : 2 ^ 52 * (d * 2 ^ t) ≤ 2 ^ 52 * (2 ^ (F64.bitLen d) * 2 ^ t) :=
          Nat.mul_le_mul_left _ (Nat.mul_le_mul_right _ (le_of_lt dhi))
        have h2 : 2 ^ 52 * (2 ^ (F64.bitLen d) * 2 ^ t) ≤ 2 ^ (F64.bitLen n - 1) := by
          rw [← pow_add, ← pow_add]
          exact Nat.pow_le_pow_right (by norm_num) (by omega)
        omega
  · rw [if_neg hq]
    right
    have hD0 := scaleDen_ne_zero d hd e0
    have hq' : 2 ^ 53 * F64.scaleDen d e0 ≤ F64.scaleNum n e0 := by
      have := (Nat.le_div_iff_mul_le (Nat.pos_of_ne_zero hD0)).mp (not_lt.mp hq)
      omega
    revert hq'
    by_cases hs : e0 + 1 ≤ 0
    · have hs0 : e0 ≤ 0 := by omega
      simp only [F64.scaleNum, F64.scaleDen, hs, hs0, if_true]
      obtain ⟨t, ht⟩ : ∃ t, (-(e0 + 1)).toNat = t := ⟨_, rfl⟩
      have ht1 : (-e0).toNat = t + 1 := by omega
      rw [ht, ht1]
      intro hq'
      have e1 : n * 2 ^ (t + 1) = 2 * (n * 2 ^ t) := by rw [pow_succ]; ring
      have e2 : (2 : Nat) ^ 53 = 2 * 2 ^ 52 := by norm_num
      rw [e1, e2] at hq'
      have : 2 * (2 ^ 52 * d) ≤ 2 * (n * 2 ^ t) := by
        calc 2 * (2 ^ 52 * d) = 2 * 2 ^ 52 * d := by ring
          _ ≤ 2 * (n * 2 ^ t) := hq'
      omega
    · by_cases hs0 : e0 ≤ 0
      · have hz : e0 = 0 := by omega
        subst hz
        simp only [F64.scaleNum, F64.scaleDen, le_refl, if_true, neg_zero, Int.toNat_zero,
          pow_zero, mul_one]
        intro hq'
        norm_num at hq' ⊢
        omega
      · simp only [F64.scaleNum, F64.scaleDen, hs, hs0, if_false]
        obtain ⟨t, ht⟩ : ∃ t, e0.toNat = t := ⟨_, rfl⟩
        have ht1 : (e0 + 1).toNat = t + 1 := by omega
        rw [ht, ht1]
        intro hq'
        have e1 : d * 2 ^ (t + 1) = 2 * (d * 2 ^ t) := by rw [pow_succ]; ring
        have e2 : (2 : Nat) ^ 53 = 2 * 2 ^ 52 := by norm_num
        rw [e1]
        rw [e2] at hq'
        calc 2 ^ 52 * (2 * (d * 2 ^ t)) = 2 * 2 ^ 52 * (d * 2 ^ t) := by ring
          _ ≤ n := hq'

theorem binade_le (n d : Nat) (hn : n ≠ 0) (hd : d ≠ 0) (t : Int) (ht : -1074 ≤ t)
    (hq : F64.scaleNum n t / F64.scaleDen d t < 2 ^ 53) : F64.binade n d ≤ t := by
  rcases binade_lower n d hn hd with h | h
  · omega
  · have hDt := scaleDen_ne_zero d hd t
    have hDe := scaleDen_ne_zero d hd (F64.binade n d)
    have hDt' : (0 : ℚ) < (F64.scaleDen d t : ℚ) := by
      exact_mod_cast Nat.pos_of_ne_zero hDt
    have hDe' : (0 : ℚ) < (F64.scaleDen d (F64.binade n d) : ℚ) := by
      exact_mod_cast Nat.pos_of_ne_zero hDe
    have h1 : F64.scaleNum n t < 2 ^ 53 * F64.scaleDen d t := by
      have := (Nat.div_lt_iff_lt_mul (Nat.pos_of_ne_zero hDt)).mp hq
      omega
    have h1' : (F64.scaleNum n t : ℚ) / (F64.scaleDen d t : ℚ) < 2 ^ 53 := by
      rw [div_lt_iff₀ hDt']
      exact_mod_cast h1
    have h2' : (2 : ℚ) ^ 52 ≤ (F64.scaleNum n (F64.binade n d) : ℚ)
        / (F64.scaleDen d (F64.binade n d) : ℚ) := by
      rw [le_div_iff₀ hDe']
      exact_mod_cast h
    rw [scale_ratio n d hd] at h1' h2'
    have hx : (0 : ℚ) < (n : ℚ) / d := by
      have : (0 : ℚ) < n := by exact_mod_cast Nat.pos_of_ne_zero hn
      have : (0 : ℚ) < d := by exact_mod_cast Nat.pos_of_ne_zero hd
      positivity
    by_contra hgt
    have hlt : t + 1 ≤ F64.binade n d := by omega
    have hp : (2 : ℚ) ^ (-(F64.binade n d)) ≤ (2 : ℚ) ^ (-(t + 1)) :=
      zpow_le_zpow_right₀ (by norm_num) (by omega)
    have hp2 : (2 : ℚ) ^ (-(t + 1)) = (2 : ℚ) ^ (-t) / 2 := by
      rw [neg_add, zpow_add₀ (by norm_num : (2 : ℚ) ≠ 0)]
      norm_num
      ring
    have hpos : (0 : ℚ) < (2 : ℚ) ^ (-t) := by positivity
    have h3 : (n : ℚ) / d * (2 : ℚ) ^ (-(F64.binade n d)) ≤ (n : ℚ) / d * ((2 : ℚ) ^ (-t) / 2) := by
      rw [← hp2]
      exact mul_le_mul_of_nonneg_left hp (le_of_lt hx)
    have h4 : (n : ℚ) / d * ((2 : ℚ) ^ (-t) / 2) < 2 ^ 53 / 2 := by
      have : (n : ℚ) / d * ((2 : ℚ) ^ (-t) / 2) = (n : ℚ) / d * (2 : ℚ) ^ (-t) / 2 := by ring
      rw [this]
      linarith
    have e53 : (2 : ℚ) ^ 53 / 2 = 2 ^ 52 := by norm_num
    rw [e53] at h4
    linarith

theorem ofRatio_spec (s : Bool) (n d : Nat) (hd : d ≠ 0) (hlt : n < 2 ^ 53 * d) :
    ∃ m e, F64.ofRatio s n d = F64.fin s m e
      ∧ |(m : ℚ) * (2 : ℚ) ^ e - (n : ℚ) / d| ≤ (n : ℚ) / d / 2 ^ 53 + (2 : ℚ) ^ (-1075 : ℤ) := by
  have hx0 : (0 : ℚ) ≤ (n : ℚ) / d := by positivity
  have hε : (0 : ℚ) ≤ (2 : ℚ) ^ (-1075 : ℤ) := by positivity
  by_cases hn : n = 0
  · refine ⟨0, 0, by simp [F64.ofRatio, hn], ?_⟩
    rw [hn]
    simp only [Nat.cast_zero, zero_mul, zero_div, sub_zero, abs_zero, zero_add]
    exact hε
  · have hble : F64.binade n d ≤ 0 := by
      apply binade_le n d hn hd 0 (by norm_num)
      simp only [F64.scaleNum, F64.scaleDen, le_refl, if_true, neg_zero, Int.toNat_zero, pow_zero,
        mul_one]
      rw [Nat.div_lt_iff_lt_mul (Nat.pos_of_ne_zero hd)]
      exact hlt
    obtain ⟨e, he⟩ : ∃ e, F64.binade n d = e := ⟨_, rfl⟩
    obtain ⟨q, hq⟩ : ∃ q, F64.nearestEven (F64.scaleNum n e) (F64.scaleDen d e) = q := ⟨_, rfl⟩
    have hD := scaleDen_ne_zero d hd e
    have herr := nearestEven_err (F64.scaleNum n e) (F64.scaleDen d e) hD
    rw [hq, scale_ratio n d hd] at herr
    have h2e : (0 : ℚ) < (2 : ℚ) ^ e := by positivity
    have hinv : (2 : ℚ) ^ (-e) * (2 : ℚ) ^ e = 1 := by
      rw [← zpow_add₀ (by norm_num : (2 : ℚ) ≠ 0)]
      simp
    -- the value of the result is `q * 2^e`
    have hval : ∃ m e1, F64.ofRatio s n d = F64.fin s m e1
        ∧ (m : ℚ) * (2 : ℚ) ^ e1 = (q : ℚ) * (2 : ℚ) ^ e := by
      unfold F64.ofRatio
      simp only [hn, if_false, he, hq]
      by_cases hq0 : q = 0
      · rw [if_pos hq0]
        exact ⟨0, 0, rfl, by rw [hq0]; simp⟩
      · rw [if_neg hq0]
        by_cases hq53 : q = 2 ^ 53
        · rw [if_pos hq53, if_neg (by omega)]
          refine ⟨2 ^ 52, e + 1, rfl, ?_⟩
          rw [hq53, zpow_add₀ (by norm_num : (2 : ℚ) ≠ 0)]
          push_cast
          ring
        · rw [if_neg hq53, if_neg (by omega)]
          exact ⟨q, e, rfl, rfl⟩
    obtain ⟨m, e1, hres, hv⟩ := hval
    refine ⟨m, e1, hres, ?_⟩
    rw [hv]
    have hfac : (q : ℚ) * (2 : ℚ) ^ e - (n : ℚ) / d
        = ((q : ℚ) - (n : ℚ) / d * (2 : ℚ) ^ (-e)) * (2 : ℚ) ^ e := by
      rw [sub_mul, mul_assoc, hinv, mul_one]
    rw [hfac, abs_mul, abs_of_pos h2e]
    have hb1 : |(q : ℚ) - (n : ℚ) / d * (2 : ℚ) ^ (-e)| * (2 : ℚ) ^ e ≤ 1 / 2 * (2 : ℚ) ^ e :=
      mul_le_mul_of_nonneg_right herr (le_of_lt h2e)
    have hb2 : 1 / 2 * (2 : ℚ) ^ e ≤ (n : ℚ) / d / 2 ^ 53 + (2 : ℚ) ^ (-1075 : ℤ) := by
      rcases binade_lower n d hn hd with h | h
      · rw [he] at h
        rw [h]
        have : (1 / 2 : ℚ) * (2 : ℚ) ^ (-1074 : ℤ) = (2 : ℚ) ^ (-1075 : ℤ) := by
          rw [show (-1075 : ℤ) = -1074 + -1 by norm_num, zpow_add₀ (by norm_num : (2 : ℚ) ≠ 0)]
          rw [zpow_neg_one]
          ring
        rw [this]
        linarith [div_nonneg hx0 (by positivity : (0 : ℚ) ≤ 2 ^ 53)]
      · rw [he] at h
        have hD' : (0 : ℚ) < (F64.scaleDen d e : ℚ) := by
          exact_mod_cast Nat.pos_of_ne_zero hD
        have h2' : (2 : ℚ) ^ 52 ≤ (F64.scaleNum n e : ℚ) / (F64.scaleDen d e : ℚ) := by
          rw [le_div_iff₀ hD']
          exact_mod_cast h
        rw [scale_ratio n d hd] at h2'
        have h3 : (2 : ℚ) ^ 52 * (2 : ℚ) ^ e ≤ (n : ℚ) / d := by
          have := mul_le_mul_of_nonneg_right h2' (le_of_lt h2e)
          rwa [mul_assoc, hinv, mul_one] at this
        have h4 : 1 / 2 * (2 : ℚ) ^ e ≤ (n : ℚ) / d / 2 ^ 53 := by
          rw [le_div_iff₀ (by positivity)]
          have : (1 / 2 * (2 : ℚ) ^ e) * 2 ^ 53 = (2 : ℚ) ^ 52 * (2 : ℚ) ^ e := by
            norm_num
            ring
          rw [this]
          exact h3
        linarith
    linarith

theorem ofRatio_spec_rat (s : Bool) (n d : Nat) (hd : d ≠ 0) (x : ℚ) (hx : (n : ℚ) / d = x)
    (hlt : x < 2 ^ 53) :
    ∃ m e, F64.ofRatio s n d = F64.fin s m e
      ∧ |(m : ℚ) * (2 : ℚ) ^ e - x| ≤ x / 2 ^ 53 + (2 : ℚ) ^ (-1075 : ℤ) := by
  have hd' : (0 : ℚ) < d := by exact_mod_cast Nat.pos_of_ne_zero hd
  have h : n < 2 ^ 53 * d := by
    rw [← hx, div_lt_iff₀ hd'] at hlt
    exact_mod_cast hlt
  rw [← hx]
  exact ofRatio_spec s n d hd h

theorem mul_spec (s1 : Bool) (m1 : Nat) (e1 : Int) (s2 : Bool) (m2 : Nat) (e2 : Int)
    (hlt : (m1 : ℚ) * (2 : ℚ) ^ e1 * ((m2 : ℚ) * (2 : ℚ) ^ e2) < 2 ^ 53) :
    ∃ m e, F64.mul (F64.fin s1 m1 e1) (F64.fin s2 m2 e2) = F64.fin (xor s1 s2) m e
      ∧ |(m : ℚ) * (2 : ℚ) ^ e - (m1 : ℚ) * (2 : ℚ) ^ e1 * ((m2 : ℚ) * (2 : ℚ) ^ e2)|
          ≤ (m1 : ℚ) * (2 : ℚ) ^ e1 * ((m2 : ℚ) * (2 : ℚ) ^ e2) / 2 ^ 53
            + (2 : ℚ) ^ (-1075 : ℤ) := by
  simp only [F64.mul]
  apply ofRatio_spec_rat _ _ _ (scaleDen_ne_zero 1 (by norm_num) _) _ _ hlt
  rw [scale_ratio _ 1 (by norm_num), neg_neg, zpow_add₀ (by norm_num : (2 : ℚ) ≠ 0)]
  push_cast
  ring

theorem toInt_spec (outOfRange : F64 → Int) (s : Bool) (m : Nat) (e : Int) (z : ℤ)
    (hz : (F64.fin s m e).toRat = (z : ℚ)) (hlo : -(2 : Int) ^ 63 ≤ z) (hhi : z < (2 : Int) ^ 63) :
    F64.toInt outOfRange (F64.fin s m e) = z := by
  have hD := scaleDen_ne_zero 1 (by norm_num) (-e)
  have hD' : (0 : ℚ) < (F64.scaleDen 1 (-e) : ℚ) := by exact_mod_cast Nat.pos_of_ne_zero hD
  have hr := scale_ratio m 1 (by norm_num) (-e)
  rw [neg_neg] at hr
  simp only [Nat.cast_one, div_one] at hr
  have htr : F64.truncFin s m e = z := by
    unfold F64.truncFin
    simp only [F64.toRat] at hz
    cases s with
    | false =>
      simp only [Bool.false_eq_true, if_false, one_mul] at hz ⊢
      rw [hz] at hr
      have hz0 : 0 ≤ z := by
        have : (0 : ℚ) ≤ (z : ℚ) := by rw [← hz]; positivity
        exact_mod_cast this
      obtain ⟨k, rfl⟩ := Int.eq_ofNat_of_zero_le hz0
      have hN : F64.scaleNum m (-e) = k * F64.scaleDen 1 (-e) := by
        have : (F64.scaleNum m (-e) : ℚ) = (k : ℚ) * (F64.scaleDen 1 (-e) : ℚ) := by
          rw [div_eq_iff (ne_of_gt hD')] at hr
          simpa using hr
        exact_mod_cast this
      rw [hN, Nat.mul_div_cancel _ (Nat.pos_of_ne_zero hD)]
    | true =>
      simp only [if_true] at hz ⊢
      have hz' : (m : ℚ) * (2 : ℚ) ^ e = ((-z : ℤ) : ℚ) := by
        push_cast; linarith
      rw [hz'] at hr
      have hz0 : 0 ≤ -z := by
        have : (0 : ℚ) ≤ ((-z : ℤ) : ℚ) := by rw [← hz']; positivity
        exact_mod_cast this
      obtain ⟨k, hk⟩ := Int.eq_ofNat_of_zero_le hz0
      rw [hk] at hr
      have hN : F64.scaleNum m (-e) = k * F64.scaleDen 1 (-e) := by
        have : (F64.scaleNum m (-e) : ℚ) = (k : ℚ) * (F64.scaleDen 1 (-e) : ℚ) := by
          rw [div_eq_iff (ne_of_gt hD')] at hr
          simpa using hr
        exact_mod_cast this
      rw [hN, Nat.mul_div_cancel _ (Nat.pos_of_ne_zero hD)]
      omega
  simp only [F64.toInt, htr]
  rw [if_pos ⟨hlo, hhi⟩]

theorem roundHalfAway_close (r : ℤ) (y : ℚ) (h1 : (r : ℚ) - 1 / 2 < y) (h2 : y < (r : ℚ) + 1 / 2) :
    roundHalfAway y = r := by
  unfold roundHalfAway
  by_cases h0 : 0 ≤ y
  · rw [if_pos h0, Int.floor_eq_iff]
    constructor <;> linarith
  · rw [if_neg h0]
    have : ⌊-y + 1 / 2⌋ = -r := by
      rw [Int.floor_eq_iff]
      push_cast
      constructor <;> linarith
    rw [this, neg_neg]

theorem roundHalfAway_bounds (v : ℚ) :
    ((roundHalfAway v : ℤ) : ℚ) - 1 / 2 ≤ v ∧ v ≤ ((roundHalfAway v : ℤ) : ℚ) + 1 / 2 := by
  unfold roundHalfAway
  by_cases h0 : 0 ≤ v
  · rw [if_pos h0]
    have h1 := Int.floor_le (v + 1 / 2)
    have h2 := Int.lt_floor_add_one (v + 1 / 2)
    constructor <;> linarith
  · rw [if_neg h0]
    have h1 := Int.floor_le (-v + 1 / 2)
    have h2 := Int.lt_floor_add_one (-v + 1 / 2)
    push_cast
    constructor <;> linarith

theorem roundHalfAway_stable (y v δ : ℚ) (hy : |y - v| ≤ δ)
    (hv : ∀ k : ℤ, δ < |v - ((k : ℚ) + 1 / 2)|) : roundHalfAway y = roundHalfAway v := by
  obtain ⟨b1, b2⟩ := roundHalfAway_bounds v
  have hδ : 0 ≤ δ := le_trans (abs_nonneg _) hy
  have hlo := hv (roundHalfAway v - 1)
  have hhi := hv (roundHalfAway v)
  push_cast at hlo
  rw [abs_of_nonneg (by linarith)] at hlo
  rw [abs_of_nonpos (by linarith)] at hhi
  obtain ⟨y1, y2⟩ := abs_le.mp hy
  apply roundHalfAway_close <;> linarith

theorem sign_bit (sign : List Char) (sg : Int) (hs : signOf sign = some sg) :
    (if decide (sign = ['-']) = true then (-1 : Int) else 1) = sg := by
  unfold signOf at hs
  by_cases e0 : sign = [] ∨ sign = ['+']
  · simp only [e0, if_true, Option.some.injEq] at hs
    subst hs
    rcases e0 with e | e <;> subst e <;> decide
  · simp only [e0, if_false] at hs
    by_cases e2 : sign = ['-']
    · simp only [e2, if_true, Option.some.injEq] at hs
      subst hs; subst e2; decide
    · simp [e2] at hs

theorem multiplier_le (suffix : List Char) (mult : Nat) (hm : multiplier suffix = some mult) :
    1 ≤ mult ∧ mult ≤ 1000000000 := by
  unfold multiplier at hm
  split_ifs at hm <;> simp only [Option.some.injEq] at hm <;> omega

theorem ofInt_mult (mult : Nat) (hm0 : mult ≠ 0) (hm53 : mult < 2 ^ 53) :
    ∃ m2 e2, F64.ofInt (mult : Int) = F64.fin false m2 e2
      ∧ (m2 : ℚ) * (2 : ℚ) ^ e2 = (mult : ℚ) := by
  have hmult : F64.ofInt (mult : Int) = F64.ofRatio false mult 1 := by
    unfold F64.ofInt
    have : ¬ ((mult : Int) < 0) := by omega
    simp [this]
  have h := (toRat_ofRatio_int false mult hm53).2
  rw [ofRatio_int false mult hm0 hm53] at h
  refine ⟨_, _, by rw [hmult, ofRatio_int false mult hm0 hm53], ?_⟩
  simpa [F64.toRat] using h

theorem round_error (outOfRange : F64 → Int) (s : Bool) (N j mult : Nat)
    (hm1 : 1 ≤ mult) (hm9 : mult ≤ 1000000000)
    (hmargin : ∀ k : ℤ, ((N : ℚ) / 10 ^ j * mult + 1) / 2 ^ 50
      < |(if s then -1 else 1) * ((N : ℚ) / 10 ^ j * mult) - ((k : ℚ) + 1 / 2)|) :
    ∃ m e, F64.ofRatio s N (10 ^ j) = F64.fin s m e
      ∧ F64.toInt outOfRange (F64.mathRound (F64.mul (F64.fin s m e) (F64.ofInt (mult : Int))))
        = roundHalfAway ((if s then -1 else 1) * ((N : ℚ) / 10 ^ j * mult)) := by
  obtain ⟨x, hx⟩ : ∃ x : ℚ, (N : ℚ) / 10 ^ j = x := ⟨_, rfl⟩
  obtain ⟨sg, hsg⟩ : ∃ sg : ℚ, (if s then (-1 : ℚ) else 1) = sg := ⟨_, rfl⟩
  rw [hx, hsg] at hmargin ⊢
  have hsg1 : |sg| = 1 := by rw [← hsg]; cases s <;> simp
  have hx0 : 0 ≤ x := by rw [← hx]; positivity
  have hM1 : (1 : ℚ) ≤ mult := by exact_mod_cast hm1
  have hM9 : (mult : ℚ) ≤ 1000000000 := by exact_mod_cast hm9
  have hw0 : 0 ≤ x * mult := by positivity
  -- the product is below 2^49
  have hw : x * mult < 2 ^ 49 := by
    have h1 := hmargin (⌊sg * (x * mult)⌋)
    have h2 : |sg * (x * mult) - ((⌊sg * (x * mult)⌋ : ℚ) + 1 / 2)| ≤ 1 / 2 := by
      rw [abs_le]
      have a1 := Int.floor_le (sg * (x * mult))
      have a2 := Int.lt_floor_add_one (sg * (x * mult))
      constructor <;> linarith
    have h3 : (x * mult + 1) / 2 ^ 50 < 1 / 2 := lt_of_lt_of_le h1 h2
    rw [div_lt_iff₀ (by positivity)] at h3
    norm_num at h3 ⊢
    linarith
  have hxw : x ≤ x * mult := by nlinarith
  have hε : (2 : ℚ) ^ (-1075 : ℤ) ≤ 1 / 2 ^ 100 := by
    have : (2 : ℚ) ^ (-1075 : ℤ) ≤ (2 : ℚ) ^ (-100 : ℤ) :=
      zpow_le_zpow_right₀ (by norm_num) (by norm_num)
    rw [show (2 : ℚ) ^ (-100 : ℤ) = 1 / 2 ^ 100 by rw [zpow_neg, one_div]; norm_cast] at this
    exact this
  have hε0 : (0 : ℚ) ≤ (2 : ℚ) ^ (-1075 : ℤ) := by positivity
  obtain ⟨ε, hεdef⟩ : ∃ ε : ℚ, (2 : ℚ) ^ (-1075 : ℤ) = ε := ⟨_, rfl⟩
  rw [hεdef] at hε hε0
  -- the decimal rounded to binary64
  obtain ⟨m, e, hf, herr⟩ := ofRatio_spec_rat s N (10 ^ j) (by positivity) x
    (by rw [← hx]; push_cast; ring) (by norm_num at hw ⊢; linarith)
  rw [hεdef] at herr
  obtain ⟨a, ha⟩ : ∃ a : ℚ, (m : ℚ) * (2 : ℚ) ^ e = a := ⟨_, rfl⟩
  rw [ha] at herr
  have ha0 : 0 ≤ a := by rw [← ha]; positivity
  obtain ⟨a1, a2⟩ := abs_le.mp herr
  -- the multiplier is exact
  obtain ⟨m2, e2, hmul, hmv⟩ := ofInt_mult mult (by omega) (by
    have : (1000000000 : Nat) < 2 ^ 53 := by norm_num
    omega)
  have hMε : (mult : ℚ) * ε ≤ 1000000000 * (1 / 2 ^ 100) :=
    mul_le_mul hM9 hε hε0 (by norm_num)
  have hMε0 : 0 ≤ (mult : ℚ) * ε := by positivity
  have hp1 : a * mult ≤ x * mult + x * mult / 2 ^ 53 + mult * ε := by
    have : a * mult ≤ (x + x / 2 ^ 53 + ε) * mult :=
      mul_le_mul_of_nonneg_right (by linarith) (by positivity)
    linarith [this]
  have hp2 : x * mult - x * mult / 2 ^ 53 - mult * ε ≤ a * mult := by
    have : (x - x / 2 ^ 53 - ε) * mult ≤ a * mult :=
      mul_le_mul_of_nonneg_right (by linarith) (by positivity)
    linarith [this]
  -- the product rounded to binary64
  obtain ⟨m', e', hy, herr2⟩ := mul_spec s m e false m2 e2 (by
    rw [ha, hmv]
    norm_num at hw hMε ⊢
    linarith)
  rw [ha, hmv, hεdef] at herr2
  obtain ⟨c1, c2⟩ := abs_le.mp herr2
  simp only [Bool.xor_false] at hy
  refine ⟨m, e, hf, ?_⟩
  rw [hmul, hy]
  obtain ⟨hfin, hround⟩ := mathRound_spec s m' e' (mul_mant_lt _ _ _ _ _ hy)
  have hyv : (F64.fin s m' e').toRat = sg * ((m' : ℚ) * (2 : ℚ) ^ e') := by
    simp only [F64.toRat]
    rw [← hsg]
    cases s <;> simp
  have hclose : |(F64.fin s m' e').toRat - sg * (x * mult)| ≤ (x * mult + 1) / 2 ^ 50 := by
    rw [hyv, ← mul_sub, abs_mul, hsg1, one_mul, abs_le]
    norm_num at hMε ⊢
    constructor <;> linarith
  have hstab := roundHalfAway_stable _ _ _ hclose hmargin
  rw [hstab] at hround
  obtain ⟨zb1, zb2⟩ := roundHalfAway_bounds (sg * (x * mult))
  have hvabs : |sg * (x * mult)| = x * mult := by
    rw [abs_mul, hsg1, one_mul, abs_of_nonneg hw0]
  obtain ⟨v1, v2⟩ := abs_le.mp (le_of_eq hvabs)
  have hzlo : -(2 : Int) ^ 63 ≤ roundHalfAway (sg * (x * mult)) := by
    have : (-(2 : ℚ) ^ 63) ≤ ((roundHalfAway (sg * (x * mult)) : ℤ) : ℚ) := by
      norm_num at hw ⊢
      linarith
    exact_mod_cast this
  have hzhi : roundHalfAway (sg * (x * mult)) < (2 : Int) ^ 63 := by
    have : ((roundHalfAway (sg * (x * mult)) : ℤ) : ℚ) < (2 : ℚ) ^ 63 := by
      norm_num at hw ⊢
      linarith
    exact_mod_cast this
  cases hmr : F64.mathRound (F64.fin s m' e') with
  | fin s3 m3 e3 =>
    rw [hmr] at hround
    exact toInt_spec outOfRange s3 m3 e3 _ hround hzlo hzhi
  | inf b => rw [hmr] at hfin; cases hfin
  | nan => rw [hmr] at hfin; cases hfin

theorem signOf_cast (sign : List Char) (sg : Int) (hs : signOf sign = some sg) :
    (sg : ℚ) = (if decide (sign = ['-']) = true then (-1 : ℚ) else 1) := by
  have h := sign_bit sign sg hs
  rw [← h]
  split_ifs <;> simp

theorem parseAbbrevInt_fraction_token (outOfRange : F64 → Int) (s : String)
    (sign ints fracs suffix : List Char) (sg : Int) (mult : Nat)
    (htok : withoutSeparators s = sign ++ (ints ++ '.' :: fracs) ++ suffix)
    (hs : signOf sign = some sg)
    (hi : ∀ c ∈ ints, isDecDigit c = true) (hf : ∀ c ∈ fracs, isDecDigit c = true)
    (hne : ints ++ fracs ≠ []) (hm : multiplier suffix = some mult)
    (hmargin : ∀ k : ℤ, (|tokenValue sg ints fracs mult| + 1) / 2 ^ 50
      < |tokenValue sg ints fracs mult - ((k : ℚ) + 1 / 2)|) :
    parseAbbrevInt outOfRange s = .ok (roundHalfAway (tokenValue sg ints fracs mult)) := by
  obtain ⟨hm1, hm9⟩ := multiplier_le suffix mult hm
  have hsgq := signOf_cast sign sg hs
  have hval : tokenValue sg ints fracs mult
      = (if decide (sign = ['-']) = true then (-1 : ℚ) else 1)
        * ((natVal (ints ++ fracs) : ℚ) / 10 ^ fracs.length * mult) := by
    unfold tokenValue
    rw [hsgq]
    ring
  have habs : |tokenValue sg ints fracs mult|
      = (natVal (ints ++ fracs) : ℚ) / 10 ^ fracs.length * mult := by
    rw [hval, abs_mul, abs_of_nonneg (by positivity :
      (0 : ℚ) ≤ (natVal (ints ++ fracs) : ℚ) / 10 ^ fracs.length * mult)]
    split_ifs <;> simp
  rw [habs] at hmargin
  rw [hval] at hmargin ⊢
  obtain ⟨m, e, hfl, hres⟩ := round_error outOfRange (decide (sign = ['-']))
    (natVal (ints ++ fracs)) fracs.length mult hm1 hm9 hmargin
  rw [parseAbbrevInt_decimal_token outOfRange s sign ints fracs suffix sg mult htok hs hi hf
    hne hm, hfl]
  simp only [hres]

theorem margin_of_integer (v : ℚ) (z : ℤ) (hv : v = (z : ℚ)) (hz : |v| + 1 < 2 ^ 49) (k : ℤ) :
    (|v| + 1) / 2 ^ 50 < |v - ((k : ℚ) + 1 / 2)| := by
  have h1 : (|v| + 1) / 2 ^ 50 < 1 / 2 := by
    rw [div_lt_iff₀ (by positivity)]
    norm_num at hz ⊢
    linarith
  have h2 : (1 / 2 : ℚ) ≤ |v - ((k : ℚ) + 1 / 2)| := by
    rw [hv]
    rcases le_or_lt z k with h | h
    · have : (z : ℚ) ≤ (k : ℚ) := by exact_mod_cast h
      rw [abs_of_nonpos (by linarith)]
      linarith
    · have : (k : ℚ) + 1 ≤ (z : ℚ) := by exact_mod_cast h
      rw [abs_of_nonneg (by linarith)]
      linarith
  linarith

theorem ofRatio_exact (s : Bool) (n d a t : Nat) (hd : d ≠ 0) (ha : a < 2 ^ 53)
    (ht : t ≤ 1074) (h : n * 2 ^ t = a * d) :
    ∃ m e, F64.ofRatio s n d = F64.fin s m e
      ∧ (m : ℚ) * (2 : ℚ) ^ e = (a : ℚ) / 2 ^ t := by
  have hdpos : 0 < d := Nat.pos_of_ne_zero hd
  by_cases hn : n = 0
  · have ha0 : a = 0 := by
      rw [hn, zero_mul] at h
      rcases Nat.mul_eq_zero.mp h.symm with h0 | h0
      · exact h0
      · exact absurd h0 hd
    exact ⟨0, 0, by simp [F64.ofRatio, hn], by simp [ha0]⟩
  · have ha0 : a ≠ 0 := by
      intro h0
      rw [h0, zero_mul] at h
      rcases Nat.mul_eq_zero.mp h with h1 | h1
      · exact hn h1
      · exact absurd h1 (by positivity)
    have hble : F64.binade n d ≤ -(t : Int) := by
      apply binade_le n d hn hd _ (by omega)
      have hneg : -(t : Int) ≤ 0 := by omega
      simp only [F64.scaleNum, F64.scaleDen, hneg, if_true, neg_neg, Int.toNat_ofNat]
      rw [h, Nat.mul_div_cancel _ hdpos]
      exact ha
    obtain ⟨e, he⟩ : ∃ e, F64.binade n d = e := ⟨_, rfl⟩
    rw [he] at hble
    obtain ⟨u, hu⟩ : ∃ u : Nat, -e = ((t + u : Nat) : Int) :=
      ⟨(-e - t).toNat, by push_cast; omega⟩
    have hneg : e ≤ 0 := by omega
    have hN : F64.scaleNum n e = (a * 2 ^ u) * d := by
      simp only [F64.scaleNum, hneg, if_true, hu, Int.toNat_ofNat]
      rw [pow_add, ← mul_assoc, h]
      ring
    have hD : F64.scaleDen d e = d := by
      simp only [F64.scaleDen, hneg, if_true]
    have hq53 : a * 2 ^ u < 2 ^ 53 := by
      have := binade_quot_lt n d hn
      rw [he, hN, hD, Nat.mul_div_cancel _ hdpos] at this
      exact this
    have hq0 : a * 2 ^ u ≠ 0 := Nat.mul_ne_zero ha0 (by positivity)
    refine ⟨a * 2 ^ u, e, ?_, ?_⟩
    · unfold F64.ofRatio
      simp only [hn, if_false, he, hN, hD, nearestEven_exact _ _ hdpos]
      rw [if_neg hq0, if_neg (by omega), if_neg (by omega)]
    · have he' : e = -((t : Int) + (u : Int)) := by push_cast at hu; omega
      rw [he', zpow_neg, zpow_add₀ (by norm_num : (2 : ℚ) ≠ 0), zpow_natCast, zpow_natCast]
      push_cast
      field_simp
      ring

theorem mul_exact (s1 : Bool) (m1 : Nat) (e1 : Int) (s2 : Bool) (m2 : Nat) (e2 : Int)
    (a t : Nat) (ha : a < 2 ^ 53) (ht : t ≤ 1074)
    (h : (m1 : ℚ) * (2 : ℚ) ^ e1 * ((m2 : ℚ) * (2 : ℚ) ^ e2) = (a : ℚ) / 2 ^ t) :
    ∃ m e, F64.mul (F64.fin s1 m1 e1) (F64.fin s2 m2 e2) = F64.fin (xor s1 s2) m e
      ∧ (m : ℚ) * (2 : ℚ) ^ e = (a : ℚ) / 2 ^ t := by
  simp only [F64.mul]
  have hD := scaleDen_ne_zero 1 (by norm_num) (-(e1 + e2))
  have hD' : (F64.scaleDen 1 (-(e1 + e2)) : ℚ) ≠ 0 := by exact_mod_cast hD
  apply ofRatio_exact _ _ _ a t hD ha ht
  have hr := scale_ratio (m1 * m2) 1 (by norm_num) (-(e1 + e2))
  rw [neg_neg, zpow_add₀ (by norm_num : (2 : ℚ) ≠ 0)] at hr
  have hr2 : (F64.scaleNum (m1 * m2) (-(e1 + e2)) : ℚ) / (F64.scaleDen 1 (-(e1 + e2)) : ℚ)
      = (a : ℚ) / 2 ^ t := by
    rw [hr, ← h]
    push_cast
    ring
  rw [div_eq_div_iff hD' (by positivity)] at hr2
  exact_mod_cast hr2

theorem round_exact (outOfRange : F64 → Int) (s : Bool) (N j mult a t : Nat)
    (hm1 : 1 ≤ mult) (hm9 : mult ≤ 1000000000) (ha : a * mult < 2 ^ 53) (ht : t ≤ 1074)
    (h : N * 2 ^ t = a * 10 ^ j) :
    ∃ m e, F64.ofRatio s N (10 ^ j) = F64.fin s m e
      ∧ F64.toInt outOfRange (F64.mathRound (F64.mul (F64.fin s m e) (F64.ofInt (mult : Int))))
        = roundHalfAway ((if s then -1 else 1) * ((N : ℚ) / 10 ^ j * mult)) := by
  have ha53 : a < 2 ^ 53 := lt_of_le_of_lt (Nat.le_mul_of_pos_right a (by omega)) ha
  obtain ⟨m, e, hf, hfv⟩ := ofRatio_exact s N (10 ^ j) a t (by positivity) ha53 ht h
  obtain ⟨m2, e2, hmul, hmv⟩ := ofInt_mult mult (by omega) (by
    have : (1000000000 : Nat) < 2 ^ 53 := by norm_num
    omega)
  obtain ⟨m', e', hy, hyv⟩ := mul_exact s m e false m2 e2 (a * mult) t ha ht (by
    rw [hfv, hmv]; push_cast; ring)
  simp only [Bool.xor_false] at hy
  refine ⟨m, e, hf, ?_⟩
  rw [hmul, hy]
  have hx : (N : ℚ) / 10 ^ j = (a : ℚ) / 2 ^ t := by
    rw [div_eq_div_iff (by positivity) (by positivity)]
    exact_mod_cast h
  obtain ⟨sg, hsg⟩ : ∃ sg : ℚ, (if s then (-1 : ℚ) else 1) = sg := ⟨_, rfl⟩
  rw [hsg]
  have hsg1 : |sg| = 1 := by rw [← hsg]; cases s <;> simp
  have hv : (F64.fin s m' e').toRat = sg * ((N : ℚ) / 10 ^ j * mult) := by
    simp only [F64.toRat]
    rw [hsg, mul_assoc, hyv, hx]
    push_cast
    ring
  obtain ⟨hfin, hround⟩ := mathRound_spec s m' e' (mul_mant_lt _ _ _ _ _ hy)
  rw [hv] at hround
  obtain ⟨zb1, zb2⟩ := roundHalfAway_bounds (sg * ((N : ℚ) / 10 ^ j * mult))
  have hw : (N : ℚ) / 10 ^ j * mult < 2 ^ 53 := by
    rw [hx]
    have h1 : (a : ℚ) / 2 ^ t * mult = ((a * mult : Nat) : ℚ) / 2 ^ t := by push_cast; ring
    rw [h1, div_lt_iff₀ (by positivity)]
    have h2 : ((a * mult : Nat) : ℚ) < 2 ^ 53 := by exact_mod_cast ha
    have h3 : (1 : ℚ) ≤ 2 ^ t := one_le_pow₀ (by norm_num)
    nlinarith
  have hw0 : (0 : ℚ) ≤ (N : ℚ) / 10 ^ j * mult := by positivity
  have hvabs : |sg * ((N : ℚ) / 10 ^ j * mult)| = (N : ℚ) / 10 ^ j * mult := by
    rw [abs_mul, hsg1, one_mul, abs_of_nonneg hw0]
  obtain ⟨v1, v2⟩ := abs_le.mp (le_of_eq hvabs)
  have hzlo : -(2 : Int) ^ 63 ≤ roundHalfAway (sg * ((N : ℚ) / 10 ^ j * mult)) := by
    have : (-(2 : ℚ) ^ 63) ≤ ((roundHalfAway (sg * ((N : ℚ) / 10 ^ j * mult)) : ℤ) : ℚ) := by
      norm_num at hw ⊢
      linarith
    exact_mod_cast this
  have hzhi : roundHalfAway (sg * ((N : ℚ) / 10 ^ j * mult)) < (2 : Int) ^ 63 := by
    have : ((roundHalfAway (sg * ((N : ℚ) / 10 ^ j * mult)) : ℤ) : ℚ) < (2 : ℚ) ^ 63 := by
      norm_num at hw ⊢
      linarith
    exact_mod_cast this
  cases hmr : F64.mathRound (F64.fin s m' e') with
  | fin s3 m3 e3 =>
    rw [hmr] at hround
    exact toInt_spec outOfRange s3 m3 e3 _ hround hzlo hzhi
  | inf b => rw [hmr] at hfin; cases hfin
  | nan => rw [hmr] at hfin; cases hfin

theorem parseAbbrevInt_exact_token (outOfRange : F64 → Int) (s : String)
    (sign ints fracs suffix : List Char) (sg : Int) (mult a t : Nat)
    (htok : withoutSeparators s = sign ++ (ints ++ '.' :: fracs) ++ suffix)
    (hs : signOf sign = some sg)
    (hi : ∀ c ∈ ints, isDecDigit c = true) (hf : ∀ c ∈ fracs, isDecDigit c = true)
    (hne : ints ++ fracs ≠ []) (hm : multiplier suffix = some mult)
    (ha : a * mult < 2 ^ 53) (ht : t ≤ 1074)
    (h : natVal (ints ++ fracs) * 2 ^ t = a * 10 ^ fracs.length) :
    parseAbbrevInt outOfRange s = .ok (roundHalfAway (tokenValue sg ints fracs mult)) := by
  obtain ⟨hm1, hm9⟩ := multiplier_le suffix mult hm
  have hsgq := signOf_cast sign sg hs
  have hval : tokenValue sg ints fracs mult
      = (if decide (sign = ['-']) = true then (-1 : ℚ) else 1)
        * ((natVal (ints ++ fracs) : ℚ) / 10 ^ fracs.length * mult) := by
    unfold tokenValue
    rw [hsgq]
    ring
  rw [hval]
  obtain ⟨m, e, hfl, hres⟩ := round_exact outOfRange (decide (sign = ['-']))
    (natVal (ints ++ fracs)) fracs.length mult a t hm1 hm9 ha ht h
  rw [parseAbbrevInt_decimal_token outOfRange s sign ints fracs suffix sg mult htok hs hi hf
    hne hm, hfl]
  simp only [hres]

/-! ## The merge step: accuracy of cents per point -/

theorem ofRatio_toRat (s : Bool) (n d : Nat) (hd : d ≠ 0) (x : ℚ) (hx : (n : ℚ) / d = x)
    (hlt : x < 2 ^ 53) :
    (F64.ofRatio s n d).isFinite = true
      ∧ |(F64.ofRatio s n d).toRat - (if s then -1 else 1) * x|
          ≤ x / 2 ^ 53 + (2 : ℚ) ^ (-1075 : ℤ) := by
  obtain ⟨m, e, h, hb⟩ := ofRatio_spec_rat s n d hd x hx hlt
  rw [h]
  refine ⟨rfl, ?_⟩
  simp only [F64.toRat]
  cases s
  · simpa using hb
  · simp only [if_true]
    have : (-1 : ℚ) * (m : ℚ) * 2 ^ e - -1 * x = -((m : ℚ) * 2 ^ e - x) := by ring
    rw [this, abs_neg]
    exact hb

theorem sign_mul (s1 s2 : Bool) :
    ((if s1 then -1 else 1 : ℚ)) * (if s2 then -1 else 1) = if xor s1 s2 then -1 else 1 := by
  cases s1 <;> cases s2 <;> simp

theorem abs_sign_mul (s : Bool) (x : ℚ) (hx : 0 ≤ x) : |(if s then -1 else 1 : ℚ) * x| = x := by
  cases s
  · simpa using hx
  · simp only [if_true, neg_one_mul, abs_neg]
    exact abs_of_nonneg hx

theorem mul_toRat (a b : F64) (ha : a.isFinite = true) (hb : b.isFinite = true)
    (hlt : |a.toRat * b.toRat| < 2 ^ 53) :
    (F64.mul a b).isFinite = true
      ∧ |(F64.mul a b).toRat - a.toRat * b.toRat|
          ≤ |a.toRat * b.toRat| / 2 ^ 53 + (2 : ℚ) ^ (-1075 : ℤ) := by
  cases a with
  | inf _ => simp [F64.isFinite] at ha
  | nan => simp [F64.isFinite] at ha
  | fin s1 m1 e1 =>
    cases b with
    | inf _ => simp [F64.isFinite] at hb
    | nan => simp [F64.isFinite] at hb
    | fin s2 m2 e2 =>
      have hX : (0 : ℚ) ≤ (m1 : ℚ) * (2 : ℚ) ^ e1 * ((m2 : ℚ) * (2 : ℚ) ^ e2) := by positivity
      have hprod : (F64.fin s1 m1 e1).toRat * (F64.fin s2 m2 e2).toRat
          = (if xor s1 s2 then -1 else 1) * ((m1 : ℚ) * (2 : ℚ) ^ e1 * ((m2 : ℚ) * (2 : ℚ) ^ e2)) := by
        rw [← sign_mul]
        simp only [F64.toRat]
        ring
      rw [hprod] at hlt ⊢
      rw [abs_sign_mul _ _ hX] at hlt ⊢
      simp only [F64.mul]
      apply ofRatio_toRat _ _ _ (scaleDen_ne_zero 1 (by norm_num) _) _ _ hlt
      rw [scale_ratio _ 1 (by norm_num), neg_neg, zpow_add₀ (by norm_num : (2 : ℚ) ≠ 0)]
      push_cast
      ring

theorem div_toRat (a b : F64) (ha : a.isFinite = true) (hb : b.isFinite = true)
    (hb0 : b.isZero = false) (hlt : |a.toRat / b.toRat| < 2 ^ 53) :
    (F64.div a b).isFinite = true
      ∧ |(F64.div a b).toRat - a.toRat / b.toRat|
          ≤ |a.toRat / b.toRat| / 2 ^ 53 + (2 : ℚ) ^ (-1075 : ℤ) := by
  cases a with
  | inf _ => simp [F64.isFinite] at ha
  | nan => simp [F64.isFinite] at ha
  | fin s1 m1 e1 =>
    cases b with
    | inf _ => simp [F64.isFinite] at hb
    | nan => simp [F64.isFinite] at hb
    | fin s2 m2 e2 =>
      have hm2 : m2 ≠ 0 := by simpa [F64.isZero] using hb0
      have hm2' : (m2 : ℚ) ≠ 0 := by exact_mod_cast hm2
      have h2 : ((2 : ℚ) ^ e2) ≠ 0 := zpow_ne_zero _ (by norm_num)
      have hX : (0 : ℚ) ≤ (m1 : ℚ) / (m2 : ℚ) * (2 : ℚ) ^ (e1 - e2) := by positivity
      have hquot : (F64.fin s1 m1 e1).toRat / (F64.fin s2 m2 e2).toRat
          = (if xor s1 s2 then -1 else 1) * ((m1 : ℚ) / (m2 : ℚ) * (2 : ℚ) ^ (e1 - e2)) := by
        rw [zpow_sub₀ (by norm_num : (2 : ℚ) ≠ 0)]
        cases s1 <;> cases s2 <;> simp [F64.toRat] <;> field_simp
      rw [hquot] at hlt ⊢
      rw [abs_sign_mul _ _ hX] at hlt ⊢
      simp only [F64.div, hm2, if_false]
      apply ofRatio_toRat _ _ _ (scaleDen_ne_zero m2 hm2 _) _ _ hlt
      rw [scale_ratio _ m2 hm2, neg_neg]

theorem natAbs_sign (r : Int) :
    (if decide (r < 0) = true then -1 else 1 : ℚ) * (r.natAbs : ℚ) = (r : ℚ) := by
  by_cases h : r < 0
  · simp only [h, decide_True, if_true]
    have : ((r.natAbs : Int) : ℚ) = -(r : ℚ) := by
      rw [← Int.cast_neg]
      congr 1
      omega
    rw [Int.cast_natCast] at this
    rw [this]; ring
  · simp only [h, decide_False, Bool.false_eq_true, if_false, one_mul]
    have : ((r.natAbs : Int) : ℚ) = (r : ℚ) := by
      congr 1
      omega
    rw [Int.cast_natCast] at this
    exact this

theorem sub_toRat (a b : F64) (ha : a.isFinite = true) (hb : b.isFinite = true)
    (hlt : |a.toRat - b.toRat| < 2 ^ 53) :
    (F64.sub a b).isFinite = true
      ∧ |(F64.sub a b).toRat - (a.toRat - b.toRat)|
          ≤ |a.toRat - b.toRat| / 2 ^ 53 + (2 : ℚ) ^ (-1075 : ℤ) := by
  have hη : (0 : ℚ) ≤ (2 : ℚ) ^ (-1075 : ℤ) := by positivity
  cases a with
  | inf _ => simp [F64.isFinite] at ha
  | nan => simp [F64.isFinite] at ha
  | fin s1 m1 e1 =>
    cases b with
    | inf _ => simp [F64.isFinite] at hb
    | nan => simp [F64.isFinite] at hb
    | fin s2 m2 e2 =>
      have hpow : ∀ (m : Nat) (e e' : Int), e' ≤ e →
          ((m * 2 ^ (e - e').toNat : Nat) : ℚ) * (2 : ℚ) ^ e' = (m : ℚ) * (2 : ℚ) ^ e := by
        intro m e e' h
        obtain ⟨t, ht⟩ := Int.eq_ofNat_of_zero_le (by omega : 0 ≤ e - e')
        have he : e = e' + t := by omega
        rw [ht, Int.toNat_ofNat, he, zpow_add₀ (by norm_num : (2 : ℚ) ≠ 0), zpow_natCast]
        push_cast
        ring
      set e := min e1 e2 with he
      set r : Int := (if s1 then -1 else 1) * ((m1 * 2 ^ (e1 - e).toNat : Nat) : Int)
        + (if !s2 then -1 else 1) * ((m2 * 2 ^ (e2 - e).toNat : Nat) : Int) with hr
      have hval : (r : ℚ) * (2 : ℚ) ^ e
          = (F64.fin s1 m1 e1).toRat - (F64.fin s2 m2 e2).toRat := by
        have h1 := hpow m1 e1 e (min_le_left _ _)
        have h2 := hpow m2 e2 e (min_le_right _ _)
        simp only [F64.toRat, hr]
        push_cast at h1 h2 ⊢
        cases s1 with
        | false =>
          cases s2 with
          | false => simp; linear_combination h1 - h2
          | true => simp; linear_combination h1 + h2
        | true =>
          cases s2 with
          | false => simp; linear_combination -h1 - h2
          | true => simp; linear_combination -h1 + h2
      have hsub : F64.sub (F64.fin s1 m1 e1) (F64.fin s2 m2 e2)
          = if r = 0 then F64.fin (s1 && !s2) 0 0
            else F64.ofRatio (decide (r < 0)) (F64.scaleNum r.natAbs (-e)) (F64.scaleDen 1 (-e)) := rfl
      rw [hsub]
      rw [← hval] at hlt ⊢
      by_cases h0 : r = 0
      · rw [if_pos h0, h0]
        simpa [F64.isFinite, F64.toRat] using hη
      · rw [if_neg h0]
        have h2e : (0 : ℚ) < (2 : ℚ) ^ e := by positivity
        have habs : |(r : ℚ) * (2 : ℚ) ^ e| = (r.natAbs : ℚ) * (2 : ℚ) ^ e := by
          rw [abs_mul, abs_of_pos h2e, Nat.cast_natAbs, Int.cast_abs]
        rw [habs] at hlt ⊢
        have key := ofRatio_toRat (decide (r < 0)) (F64.scaleNum r.natAbs (-e))
          (F64.scaleDen 1 (-e)) (scaleDen_ne_zero 1 (by norm_num) _)
          ((r.natAbs : ℚ) * (2 : ℚ) ^ e)
          (by rw [scale_ratio _ 1 (by norm_num), neg_neg]; push_cast; ring) hlt
        have hsgn : (if decide (r < 0) = true then -1 else 1 : ℚ) * ((r.natAbs : ℚ) * (2 : ℚ) ^ e)
            = (r : ℚ) * (2 : ℚ) ^ e := by
          rw [← mul_assoc, natAbs_sign]
        rw [hsgn] at key
        exact key

theorem err_step (A a b κ ε τ u η : ℚ) (hu : 0 ≤ u)
    (h1 : |a - A| ≤ |A| * ε + τ) (h2 : |b - a * κ| ≤ |a * κ| * u + η) :
    |b - A * κ| ≤ |A * κ| * (ε + u + ε * u) + (τ * |κ| * (1 + u) + η) := by
  have hK : 0 ≤ |κ| := abs_nonneg κ
  have ha : |a| ≤ |A| + (|A| * ε + τ) := by
    have : a = A + (a - A) := by ring
    calc |a| = |A + (a - A)| := by rw [← this]
      _ ≤ |A| + |a - A| := abs_add _ _
      _ ≤ |A| + (|A| * ε + τ) := by linarith
  have h3 : |b - A * κ| ≤ |b - a * κ| + |a - A| * |κ| := by
    have : b - A * κ = (b - a * κ) + (a - A) * κ := by ring
    rw [this, ← abs_mul]
    exact abs_add _ _
  have h4 : |a * κ| * u ≤ (|A| + (|A| * ε + τ)) * |κ| * u := by
    rw [abs_mul]
    exact mul_le_mul_of_nonneg_right (mul_le_mul_of_nonneg_right ha hK) hu
  have h5 : |a - A| * |κ| ≤ (|A| * ε + τ) * |κ| := mul_le_mul_of_nonneg_right h1 hK
  rw [abs_mul A κ]
  nlinarith [h2, h3, h4, h5]


theorem ofInt_toRat (p : Int) (hp : p.natAbs < 2 ^ 53) :
    (F64.ofInt p).isFinite = true ∧ (F64.ofInt p).toRat = (p : ℚ) := by
  obtain ⟨h1, h2⟩ := toRat_ofRatio_int (decide (p < 0)) p.natAbs hp
  refine ⟨h1, ?_⟩
  unfold F64.ofInt
  rw [h2, natAbs_sign]

theorem bound_step (a κ b u η : ℚ) (hu : u ≤ 1) (hη : η ≤ 1)
    (h2 : |b - a * κ| ≤ |a * κ| * u + η) : |b| ≤ 2 * |a * κ| + 1 := by
  have hb : |b| ≤ |a * κ| + |b - a * κ| := by
    have : b = a * κ + (b - a * κ) := by ring
    calc |b| = |a * κ + (b - a * κ)| := by rw [← this]
      _ ≤ |a * κ| + |b - a * κ| := abs_add _ _
  have h0 : 0 ≤ |a * κ| := abs_nonneg _
  nlinarith

theorem cpp_accuracy (cash taxes : F64) (points : Int) (hc : cash.isFinite = true)
    (ht : taxes.isFinite = true) (hp0 : points ≠ 0) (hp : points.natAbs < 2 ^ 53)
    (hD : |cash.toRat - taxes.toRat| < 2 ^ 30) :
    (F64.mul (F64.mul (F64.div (F64.sub cash taxes) (F64.ofInt points)) (F64.ofInt 100))
        (F64.ofInt 100)).isFinite = true
    ∧ |(F64.mul (F64.mul (F64.div (F64.sub cash taxes) (F64.ofInt points)) (F64.ofInt 100))
        (F64.ofInt 100)).toRat| < 2 ^ 52
    ∧ |(F64.mul (F64.mul (F64.div (F64.sub cash taxes) (F64.ofInt points)) (F64.ofInt 100))
        (F64.ofInt 100)).toRat - exactCpp cash.toRat taxes.toRat points * 100|
      ≤ |exactCpp cash.toRat taxes.toRat points * 100| / 2 ^ 50 + (2 : ℚ) ^ (-1058 : ℤ) := by
  obtain ⟨η, hη0, hη1, hηdef⟩ : ∃ η : ℚ, 0 ≤ η ∧ η ≤ 1 ∧ η = (2 : ℚ) ^ (-1075 : ℤ) := by
    refine ⟨_, by positivity, ?_, rfl⟩
    rw [zpow_neg]
    exact inv_le_one_of_one_le₀ (one_le_zpow₀ (by norm_num) (by norm_num))
  have h58 : (2 : ℚ) ^ (-1058 : ℤ) = 2 ^ 17 * η := by
    rw [hηdef, ← zpow_natCast, ← zpow_add₀ (by norm_num : (2 : ℚ) ≠ 0)]
    norm_num
  obtain ⟨u, hudef⟩ : ∃ u : ℚ, u = 1 / 2 ^ 53 := ⟨_, rfl⟩
  have hu0 : 0 ≤ u := by rw [hudef]; positivity
  have hu1 : u ≤ 1 := by rw [hudef]; norm_num
  have hdiv : ∀ x : ℚ, x / 2 ^ 53 = x * u := by intro x; rw [hudef]; ring
  obtain ⟨hpf, hpv⟩ := ofInt_toRat points hp
  obtain ⟨hcf, hcv⟩ := ofInt_toRat 100 (by norm_num)
  have hpz := ofInt_isZero points hp0
  have hP : (1 : ℚ) ≤ |(points : ℚ)| := by
    have : (1 : ℤ) ≤ |points| := Int.one_le_abs hp0
    exact_mod_cast this
  have hPinv : |((points : ℚ))⁻¹| ≤ 1 := by
    rw [abs_inv]
    exact inv_le_one_of_one_le₀ hP
  set D : ℚ := cash.toRat - taxes.toRat with hDdef
  obtain ⟨f1, b1⟩ := sub_toRat cash taxes hc ht (lt_trans hD (by norm_num))
  rw [← hηdef, hdiv] at b1
  set x1 := F64.sub cash taxes with hx1
  have m1 : |x1.toRat| ≤ 2 ^ 32 := by
    have := bound_step D 1 x1.toRat u η hu1 hη1 (by simpa using b1)
    rw [mul_one] at this
    linarith
  have q2 : |x1.toRat / (F64.ofInt points).toRat| ≤ 2 ^ 32 := by
    rw [hpv, div_eq_mul_inv, abs_mul]
    calc |x1.toRat| * |((points : ℚ))⁻¹| ≤ |x1.toRat| * 1 :=
          mul_le_mul_of_nonneg_left hPinv (abs_nonneg _)
      _ ≤ 2 ^ 32 := by rw [mul_one]; exact m1
  obtain ⟨f2, b2⟩ := div_toRat x1 (F64.ofInt points) f1 hpf hpz (lt_of_le_of_lt q2 (by norm_num))
  rw [← hηdef, hdiv, hpv, div_eq_mul_inv] at b2
  rw [hpv, div_eq_mul_inv] at q2
  set x2 := F64.div x1 (F64.ofInt points) with hx2
  have m2 : |x2.toRat| ≤ 2 ^ 34 := by
    have := bound_step _ _ _ u η hu1 hη1 b2
    linarith
  have q3 : |x2.toRat * (F64.ofInt 100).toRat| ≤ 2 ^ 41 := by
    rw [hcv, abs_mul]
    have : |((100 : ℤ) : ℚ)| = 100 := by norm_num
    rw [this]
    nlinarith [abs_nonneg x2.toRat]
  obtain ⟨f3, b3⟩ := mul_toRat x2 (F64.ofInt 100) f2 hcf (lt_of_le_of_lt q3 (by norm_num))
  rw [← hηdef, hdiv, hcv] at b3
  rw [hcv] at q3
  set x3 := F64.mul x2 (F64.ofInt 100) with hx3
  have m3 : |x3.toRat| ≤ 2 ^ 43 := by
    have := bound_step _ _ _ u η hu1 hη1 b3
    linarith
  have q4 : |x3.toRat * (F64.ofInt 100).toRat| ≤ 2 ^ 50 := by
    rw [hcv, abs_mul]
    have : |((100 : ℤ) : ℚ)| = 100 := by norm_num
    rw [this]
    nlinarith [abs_nonneg x3.toRat]
  obtain ⟨f4, b4⟩ := mul_toRat x3 (F64.ofInt 100) f3 hcf (lt_of_le_of_lt q4 (by norm_num))
  rw [← hηdef, hdiv, hcv] at b4
  rw [hcv] at q4
  set y := F64.mul x3 (F64.ofInt 100) with hy
  have m4 : |y.toRat| < 2 ^ 52 := by
    have := bound_step _ _ _ u η hu1 hη1 b4
    have h : (2 : ℚ) * 2 ^ 50 + 1 < 2 ^ 52 := by norm_num
    linarith
  refine ⟨f4, m4, ?_⟩
  have e2 := err_step D x1.toRat x2.toRat ((points : ℚ))⁻¹ u η u η hu0 b1 b2
  have e3 := err_step _ _ x3.toRat ((100 : ℤ) : ℚ) _ _ u η hu0 e2 b3
  have e4 := err_step _ _ y.toRat ((100 : ℤ) : ℚ) _ _ u η hu0 e3 b4
  have hE : exactCpp cash.toRat taxes.toRat points * 100
      = D * ((points : ℚ))⁻¹ * ((100 : ℤ) : ℚ) * ((100 : ℤ) : ℚ) := by
    unfold exactCpp
    rw [div_eq_mul_inv]
    push_cast
    ring
  rw [hE, h58]
  have h100 : |((100 : ℤ) : ℚ)| = 100 := by norm_num
  rw [h100] at e4
  set Q := |((points : ℚ))⁻¹| with hQ
  have hQ0 : 0 ≤ Q := abs_nonneg _
  set E := |D * ((points : ℚ))⁻¹ * ((100 : ℤ) : ℚ) * ((100 : ℤ) : ℚ)| with hEabs
  have hE0 : 0 ≤ E := abs_nonneg _
  have hε : u + u + u * u + u + (u + u + u * u) * u + u + (u + u + u * u + u + (u + u + u * u) * u) * u
      ≤ 1 / 2 ^ 50 := by
    rw [hudef]; norm_num
  have hτ : ((η * Q * (1 + u) + η) * 100 * (1 + u) + η) * 100 * (1 + u) + η ≤ 2 ^ 17 * η := by
    have step : ∀ T c : ℚ, 0 ≤ T → T ≤ c * η → T * 100 * (1 + u) + η ≤ (200 * c + 1) * η := by
      intro T c hT hTc
      have h1 : T * 100 * (1 + u) ≤ T * 100 * 2 :=
        mul_le_mul_of_nonneg_left (by linarith) (by positivity)
      linarith
    have a1 : η * Q ≤ η := mul_le_of_le_one_right hη0 hPinv
    have a2 : η * Q * (1 + u) ≤ η * 2 :=
      mul_le_mul a1 (by linarith) (by linarith) hη0
    have t2 : η * Q * (1 + u) + η ≤ 3 * η := by linarith
    have p2 : 0 ≤ η * Q * (1 + u) + η := by positivity
    have t3 := step _ 3 p2 t2
    have p3 : 0 ≤ (η * Q * (1 + u) + η) * 100 * (1 + u) + η := by positivity
    have t4 := step _ _ p3 t3
    have : (200 * (200 * 3 + 1) + 1 : ℚ) * η ≤ 2 ^ 17 * η :=
      mul_le_mul_of_nonneg_right (by norm_num) hη0
    linarith
  calc |y.toRat - D * ((points : ℚ))⁻¹ * ((100 : ℤ) : ℚ) * ((100 : ℤ) : ℚ)|
      ≤ E * (u + u + u * u + u + (u + u + u * u) * u + u
            + (u + u + u * u + u + (u + u + u * u) * u) * u)
          + (((η * Q * (1 + u) + η) * 100 * (1 + u) + η) * 100 * (1 + u) + η) := e4
    _ ≤ E * (1 / 2 ^ 50) + 2 ^ 17 * η :=
        add_le_add (mul_le_mul_of_nonneg_left hε hE0) hτ
    _ = E / 2 ^ 50 + 2 ^ 17 * η := by ring


theorem cpp_rounded (y : F64) (hf : y.isFinite = true)
    (hcan : ∀ s m e, y = F64.fin s m e → m < 2 ^ 53) (hlt : |y.toRat| < 2 ^ 52) :
    (F64.mathRound y).isFinite = true
    ∧ (F64.mathRound y).toRat = (roundHalfAway y.toRat : ℚ)
    ∧ (F64.div (F64.mathRound y) (F64.ofInt 100)).isFinite = true
    ∧ |(F64.div (F64.mathRound y) (F64.ofInt 100)).toRat - (roundHalfAway y.toRat : ℚ) / 100|
        ≤ (|(roundHalfAway y.toRat : ℚ) / 100| + 1) / 2 ^ 53 := by
  cases y with
  | inf _ => simp [F64.isFinite] at hf
  | nan => simp [F64.isFinite] at hf
  | fin s m e =>
    obtain ⟨hrf, hrv⟩ := mathRound_spec s m e (hcan s m e rfl)
    obtain ⟨hcf, hcv⟩ := ofInt_toRat 100 (by norm_num)
    obtain ⟨b1, b2⟩ := roundHalfAway_bounds (F64.fin s m e).toRat
    obtain ⟨y1, y2⟩ := abs_lt.mp hlt
    have hk : |(roundHalfAway (F64.fin s m e).toRat : ℚ)| < 2 ^ 52 + 1 := by
      rw [abs_lt]
      constructor <;> linarith
    have hq : |(F64.mathRound (F64.fin s m e)).toRat / (F64.ofInt 100).toRat| < 2 ^ 53 := by
      rw [hrv, hcv, abs_div]
      have : |((100 : ℤ) : ℚ)| = 100 := by norm_num
      rw [this, div_lt_iff₀ (by norm_num)]
      have h : (2 : ℚ) ^ 52 + 1 ≤ 2 ^ 53 * 100 := by norm_num
      linarith
    obtain ⟨hdf, hdv⟩ := div_toRat _ _ hrf hcf (ofInt_isZero 100 (by decide)) hq
    rw [hrv, hcv] at hdv
    refine ⟨hrf, hrv, hdf, ?_⟩
    have hη : (2 : ℚ) ^ (-1075 : ℤ) ≤ 1 / 2 ^ 53 := by
      rw [zpow_neg, one_div]
      apply inv_anti₀ (by positivity)
      rw [← zpow_natCast]
      exact zpow_le_zpow_right₀ (by norm_num) (by norm_num)
    have h100 : ((100 : ℤ) : ℚ) = 100 := by norm_num
    rw [h100] at hdv
    calc _ ≤ |(roundHalfAway (F64.fin s m e).toRat : ℚ) / 100| / 2 ^ 53 + (2 : ℚ) ^ (-1075 : ℤ) := hdv
      _ ≤ |(roundHalfAway (F64.fin s m e).toRat : ℚ) / 100| / 2 ^ 53 + 1 / 2 ^ 53 := by linarith
      _ = _ := by ring

theorem cpp_close (cash taxes : F64) (points : Int) (hc : cash.isFinite = true)
    (ht : taxes.isFinite = true) (hp0 : points ≠ 0) (hp : points.natAbs < 2 ^ 53)
    (hD : |cash.toRat - taxes.toRat| < 2 ^ 30) :
    (F64.mul (F64.mul (F64.div (F64.sub cash taxes) (F64.ofInt points)) (F64.ofInt 100))
        (F64.ofInt 100)).isFinite = true
    ∧ |(F64.mul (F64.mul (F64.div (F64.sub cash taxes) (F64.ofInt points)) (F64.ofInt 100))
        (F64.ofInt 100)).toRat - exactCpp cash.toRat taxes.toRat points * 100|
      ≤ (|exactCpp cash.toRat taxes.toRat points * 100| + 1) / 2 ^ 50
    ∧ (F64.div (F64.mathRound (F64.mul (F64.mul (F64.div (F64.sub cash taxes)
        (F64.ofInt points)) (F64.ofInt 100)) (F64.ofInt 100))) (F64.ofInt 100)).isFinite = true
    ∧ |(F64.div (F64.mathRound (F64.mul (F64.mul (F64.div (F64.sub cash taxes)
        (F64.ofInt points)) (F64.ofInt 100)) (F64.ofInt 100))) (F64.ofInt 100)).toRat
        - (roundHalfAway (F64.mul (F64.mul (F64.div (F64.sub cash taxes) (F64.ofInt points))
            (F64.ofInt 100)) (F64.ofInt 100)).toRat : ℚ) / 100|
      ≤ (|(roundHalfAway (F64.mul (F64.mul (F64.div (F64.sub cash taxes) (F64.ofInt points))
            (F64.ofInt 100)) (F64.ofInt 100)).toRat : ℚ) / 100| + 1) / 2 ^ 53
    ∧ ((∀ k : ℤ, (|exactCpp cash.toRat taxes.toRat points * 100| + 1) / 2 ^ 50
          < |exactCpp cash.toRat taxes.toRat points * 100 - ((k : ℚ) + 1 / 2)|) →
        roundHalfAway (F64.mul (F64.mul (F64.div (F64.sub cash taxes) (F64.ofInt points))
            (F64.ofInt 100)) (F64.ofInt 100)).toRat
          = roundHalfAway (exactCpp cash.toRat taxes.toRat points * 100)) := by
  obtain ⟨hf, hlt, herr⟩ := cpp_accuracy cash taxes points hc ht hp0 hp hD
  have hη : (2 : ℚ) ^ (-1058 : ℤ) ≤ 1 / 2 ^ 50 := by
    rw [zpow_neg, one_div]
    apply inv_anti₀ (by positivity)
    rw [← zpow_natCast]
    exact zpow_le_zpow_right₀ (by norm_num) (by norm_num)
  have herr' : |(F64.mul (F64.mul (F64.div (F64.sub cash taxes) (F64.ofInt points))
        (F64.ofInt 100)) (F64.ofInt 100)).toRat - exactCpp cash.toRat taxes.toRat points * 100|
      ≤ (|exactCpp cash.toRat taxes.toRat points * 100| + 1) / 2 ^ 50 := by
    calc _ ≤ _ := herr
      _ ≤ |exactCpp cash.toRat taxes.toRat points * 100| / 2 ^ 50 + 1 / 2 ^ 50 := by linarith
      _ = _ := by ring
  obtain ⟨_, _, h3, h4⟩ := cpp_rounded _ hf (fun s m e he => mul_mant_lt _ _ s m e he) hlt
  exact ⟨hf, herr', h3, h4, fun hm => roundHalfAway_stable _ _ _ herr' hm⟩

set_option maxRecDepth 100000 in
/-- C2, as stated, fails. For a cash price of 201, no taxes and 20000 points the exact
value (201 - 0) / 20000 * 100 is 1.005, which rounded to 2 decimals, a half away from
zero as `math.Round` rounds, is 1.01; the merge gives `CPP = 1`. Nor is a half rounded
to even: for a cash price of 1 and 800 points the exact value 0.125 gives 0.13. And for
the binary64 prices 100.1 and 5.6 with 10000 points the exact value is below 0.945, so
that 0.94 is the nearest number of 2 decimals, and the merge gives 0.95. -/
theorem cpp_not_exactly_rounded :
    (cashFlightOf (F64.ofInt 201)).CashPriceUSD.toRat = 201
    ∧ (pointsFlightOf 20000 (F64.ofInt 0)).TaxesFeesUSD.toRat = 0
    ∧ roundHalfAway ((201 - 0) / 20000 * 100 * 100) = 101
    ∧ (Run.combine [cashFlightOf (F64.ofInt 201)] [pointsFlightOf 20000 (F64.ofInt 0)]).map
          Flight.CPP = [F64.ofInt 1]
    ∧ (F64.ofInt 1).toRat = 1
    ∧ F64.ofInt 1 ≠ F64.div (F64.ofInt 101) (F64.ofInt 100)
    ∧ (cashFlightOf (F64.ofInt 1)).CashPriceUSD.toRat = 1
    ∧ ((1 - 0) / 800 * 100 * 100 : ℚ) = 12 + 1 / 2
    ∧ (Run.combine [cashFlightOf (F64.ofInt 1)] [pointsFlightOf 800 (F64.ofInt 0)]).map
          Flight.CPP = [F64.div (F64.ofInt 13) (F64.ofInt 100)]
    ∧ F64.div (F64.ofInt 13) (F64.ofInt 100) ≠ F64.div (F64.ofInt 12) (F64.ofInt 100)
    ∧ (cashFlightOf (F64.ofRatio false 1001 10)).CashPriceUSD.toRat
        = 7043911292184166 / 2 ^ 46
    ∧ (pointsFlightOf 10000 (F64.ofRatio false 56 10)).TaxesFeesUSD.toRat
        = 6305039478318694 / 2 ^ 50
    ∧ |(7043911292184166 / 2 ^ 46 - 6305039478318694 / 2 ^ 50 : ℚ) / 10000 * 100 * 100 - 94|
        < 1 / 2
    ∧ (Run.combine [cashFlightOf (F64.ofRatio false 1001 10)]
          [pointsFlightOf 10000 (F64.ofRatio false 56 10)]).map Flight.CPP
        = [F64.div (F64.ofInt 95) (F64.ofInt 100)]
    ∧ F64.div (F64.ofInt 95) (F64.ofInt 100) ≠ F64.div (F64.ofInt 94) (F64.ofInt 100) := by
  have e201 : F64.ofInt 201 = F64.fin false (201 * 2 ^ 45) (-45) := by decide
  have e1 : F64.ofInt 1 = F64.fin false (2 ^ 52) (-52) := by decide
  have e0 : F64.ofInt 0 = F64.fin false 0 0 := by decide
  have ec : F64.ofRatio false 1001 10 = F64.fin false 7043911292184166 (-46) := by decide
  have et : F64.ofRatio false 56 10 = F64.fin false 6305039478318694 (-50) := by decide
  refine ⟨?_, ?_, ?_, by decide, ?_, by decide, ?_, by norm_num, by decide, by decide,
    ?_, ?_, ?_, by decide, by decide⟩
  · show (F64.ofInt 201).toRat = 201
    rw [e201]; norm_num [F64.toRat]
  · show (F64.ofInt 0).toRat = 0
    rw [e0]; norm_num [F64.toRat]
  · norm_num [roundHalfAway]
  · rw [e1]; norm_num [F64.toRat]
  · show (F64.ofInt 1).toRat = 1
    rw [e1]; norm_num [F64.toRat]
  · show (F64.ofRatio false 1001 10).toRat = _
    rw [ec]; norm_num [F64.toRat]
  · show (F64.ofRatio false 56 10).toRat = _
    rw [et]; norm_num [F64.toRat]
  · rw [abs_lt]; constructor <;> norm_num

/-- C2, amended. Every flight `f` emitted by the merge step of `Run` comes from a
currency-priced flight `c` and its matched points-priced flight `p`: it is `c` with
`PointsRequired` and `TaxesFeesUSD` replaced by those of `p` and with `CPP` computed in
binary64: `x = (c.CashPriceUSD - p.TaxesFeesUSD) / float64(p.PointsRequired) * 100`,
`y = x * 100`, `r = math.Round(y)`, which for a finite `y` is the integer nearest to the
number `y`, a half rounded away from zero, and `CPP = r / 100`; segments, duration,
non-stop flag and cash price are those of `c`, and the divisor
`float64(p.PointsRequired)` is not zero. When the prices are finite numbers that
differ by less than `2^30` and the points are below `2^53`, nothing overflows and the
computed `y` is close to the exact value `E = (cash - taxes) / points * 100 * 100`:
`|y - E| ≤ (|E| + 1) / 2^50`; `CPP` is the binary64 quotient of the rounded `y` by 100,
within `(|r / 100| + 1) / 2^53` of it; and when `E` is farther than `(|E| + 1) / 2^50`
from every tie `k + 1/2`, the rounded `y` is `E` rounded half away from zero, that is,
`CPP` is the exact value rounded to 2 decimals, up to its binary64 representation. -/
theorem combine_flight_fields (C P : List Flight) (f : Flight) (hf : f ∈ Run.combine C P) :
    ∃ c p x y r, c ∈ C ∧ p ∈ P ∧ p.ID = c.ID ∧ matchedPoints P c.ID = some p
      ∧ p.PointsRequired ≠ 0
      ∧ (F64.ofInt p.PointsRequired).isZero = false
      ∧ x = F64.mul (F64.div (F64.sub c.CashPriceUSD p.TaxesFeesUSD)
            (F64.ofInt p.PointsRequired)) (F64.ofInt 100)
      ∧ y = F64.mul x (F64.ofInt 100)
      ∧ r = F64.mathRound y
      ∧ (y.isFinite = true → r.isFinite = true ∧ r.toRat = roundHalfAway y.toRat)
      ∧ f = { c with
          PointsRequired := p.PointsRequired
          TaxesFeesUSD := p.TaxesFeesUSD
          CPP := F64.div r (F64.ofInt 100) }
      ∧ f.Segments = c.Segments ∧ f.TotalDuration = c.TotalDuration
      ∧ f.IsNonstop = c.IsNonstop ∧ f.CashPriceUSD = c.CashPriceUSD
      ∧ (c.CashPriceUSD.isFinite = true → p.TaxesFeesUSD.isFinite = true
          → p.PointsRequired.natAbs < 2 ^ 53
          → |c.CashPriceUSD.toRat - p.TaxesFeesUSD.toRat| < 2 ^ 30
          → y.isFinite = true
            ∧ |y.toRat
                - exactCpp c.CashPriceUSD.toRat p.TaxesFeesUSD.toRat p.PointsRequired * 100|
              ≤ (|exactCpp c.CashPriceUSD.toRat p.TaxesFeesUSD.toRat p.PointsRequired * 100|
                  + 1) / 2 ^ 50
            ∧ f.CPP.isFinite = true
            ∧ |f.CPP.toRat - (roundHalfAway y.toRat : ℚ) / 100|
              ≤ (|(roundHalfAway y.toRat : ℚ) / 100| + 1) / 2 ^ 53
            ∧ ((∀ k : ℤ,
                  (|exactCpp c.CashPriceUSD.toRat p.TaxesFeesUSD.toRat p.PointsRequired * 100|
                    + 1) / 2 ^ 50
                  < |exactCpp c.CashPriceUSD.toRat p.TaxesFeesUSD.toRat p.PointsRequired * 100
                      - ((k : ℚ) + 1 / 2)|) →
                roundHalfAway y.toRat
                  = roundHalfAway (exactCpp c.CashPriceUSD.toRat p.TaxesFeesUSD.toRat
                      p.PointsRequired * 100))) := by
  rw [combine_eq_filterMap, List.mem_filterMap] at hf
  obtain ⟨c, hc, hcf⟩ := hf
  unfold emitted at hcf
  cases hm : matchedPoints P c.ID with
  | none => rw [hm] at hcf; simp at hcf
  | some p =>
    rw [hm] at hcf
    by_cases h0 : p.PointsRequired = 0
    · simp [h0] at hcf
    · simp only [h0, if_false, Option.some.injEq] at hcf
      have hfind := hm
      unfold matchedPoints at hfind
      have hpP : p ∈ P := by simpa using List.mem_of_find?_eq_some hfind
      have hid : p.ID = c.ID := by simpa using List.find?_some hfind
      have hround : ∀ y : F64, y.isFinite = true → (∀ s m e, y = F64.fin s m e → m < 2 ^ 53) →
          (F64.mathRound y).isFinite = true
          ∧ (F64.mathRound y).toRat = roundHalfAway y.toRat := by
        intro y hy hcan
        cases y with
        | fin s m e => exact mathRound_spec s m e (hcan s m e rfl)
        | inf b => simp [F64.isFinite] at hy
        | nan => simp [F64.isFinite] at hy
      refine ⟨c, p, _, _, _, hc, hpP, hid, hm, h0, ofInt_isZero _ h0, rfl, rfl, rfl,
        fun hy => hround _ hy (fun s m e he => mul_mant_lt _ _ s m e he), ?_, ?_, ?_, ?_, ?_,
        ?_⟩
      · rw [← hcf]; simp only [Run.merged, round_two]
      · rw [← hcf]; simp only [Run.merged, round_two]
      · rw [← hcf]; simp only [Run.merged, round_two]
      · rw [← hcf]; simp only [Run.merged, round_two]
      · rw [← hcf]; simp only [Run.merged, round_two]
      · intro h1 h2 h3 h4
        rw [← hcf]
        simp only [Run.merged, round_two]
        exact cpp_close c.CashPriceUSD p.TaxesFeesUSD p.PointsRequired h1 h2 h0 h3 h4

set_option maxRecDepth 100000 in
/-- C2, witness: `CashPriceUSD = 300` merged with 10000 points and 50 of taxes gives
`CPP = 2.5`. -/
theorem combine_flight_fields_witness :
    exampleMerged ∈ Run.combine [exampleCash] [examplePoints]
    ∧ exampleMerged.CPP = F64.ofRatio false 5 2
    ∧ (F64.ofRatio false 5 2).toRat = 5 / 2
    ∧ exampleCash.CashPriceUSD.toRat = 300 ∧ examplePoints.TaxesFeesUSD.toRat = 50
    ∧ examplePoints.PointsRequired = 10000
    ∧ exactCpp 300 50 10000 = 5 / 2
    ∧ roundHalfAway (exactCpp 300 50 10000 * 100) = 250
    ∧ ∃ c p x y r, c ∈ [exampleCash] ∧ p ∈ [examplePoints] ∧ p.ID = c.ID
      ∧ matchedPoints [examplePoints] c.ID = some p
      ∧ p.PointsRequired ≠ 0
      ∧ (F64.ofInt p.PointsRequired).isZero = false
      ∧ x = F64.mul (F64.div (F64.sub c.CashPriceUSD p.TaxesFeesUSD)
            (F64.ofInt p.PointsRequired)) (F64.ofInt 100)
      ∧ y = F64.mul x (F64.ofInt 100)
      ∧ r = F64.mathRound y
      ∧ (y.isFinite = true → r.isFinite = true ∧ r.toRat = roundHalfAway y.toRat)
      ∧ exampleMerged = { c with
          PointsRequired := p.PointsRequired
          TaxesFeesUSD := p.TaxesFeesUSD
          CPP := F64.div r (F64.ofInt 100) }
      ∧ exampleMerged.Segments = c.Segments ∧ exampleMerged.TotalDuration = c.TotalDuration
      ∧ exampleMerged.IsNonstop = c.IsNonstop
      ∧ exampleMerged.CashPriceUSD = c.CashPriceUSD
      ∧ (c.CashPriceUSD.isFinite = true → p.TaxesFeesUSD.isFinite = true
          → p.PointsRequired.natAbs < 2 ^ 53
          → |c.CashPriceUSD.toRat - p.TaxesFeesUSD.toRat| < 2 ^ 30
          → y.isFinite = true
            ∧ |y.toRat
                - exactCpp c.CashPriceUSD.toRat p.TaxesFeesUSD.toRat p.PointsRequired * 100|
              ≤ (|exactCpp c.CashPriceUSD.toRat p.TaxesFeesUSD.toRat p.PointsRequired * 100|
                  + 1) / 2 ^ 50
            ∧ exampleMerged.CPP.isFinite = true
            ∧ |exampleMerged.CPP.toRat - (roundHalfAway y.toRat : ℚ) / 100|
              ≤ (|(roundHalfAway y.toRat : ℚ) / 100| + 1) / 2 ^ 53
            ∧ ((∀ k : ℤ,
                  (|exactCpp c.CashPriceUSD.toRat p.TaxesFeesUSD.toRat p.PointsRequired * 100|
                    + 1) / 2 ^ 50
                  < |exactCpp c.CashPriceUSD.toRat p.TaxesFeesUSD.toRat p.PointsRequired * 100
                      - ((k : ℚ) + 1 / 2)|) →
                roundHalfAway y.toRat
                  = roundHalfAway (exactCpp c.CashPriceUSD.toRat p.TaxesFeesUSD.toRat
                      p.PointsRequired * 100))) := by
  have e : F64.ofRatio false 5 2 = F64.fin false (5 * 2 ^ 50) (-51) := by decide
  have e300 : F64.ofInt 300 = F64.fin false (300 * 2 ^ 44) (-44) := by decide
  have e50 : F64.ofInt 50 = F64.fin false (50 * 2 ^ 47) (-47) := by decide
  refine ⟨by decide, by decide, ?_, ?_, ?_, rfl, ?_, ?_,
    combine_flight_fields [exampleCash] [examplePoints] exampleMerged (by decide)⟩
  · rw [e]; norm_num [F64.toRat]
  · show (F64.ofInt 300).toRat = 300
    rw [e300]; norm_num [F64.toRat]
  · show (F64.ofInt 50).toRat = 50
    rw [e50]; norm_num [F64.toRat]
  · norm_num [exactCpp]
  · norm_num [exactCpp, roundHalfAway]

/-! ## Abbreviated integers: the claims -/

set_option maxRecDepth 100000 in
/-- C3, as stated, fails. The token of twenty nines is not parsed at all
(`strconv.ParseInt` range error); the token `0.5005K`, whose value times 1000 is the
tie 500.5, gives 500 and not 501; and the token `9007199254740993` (2^53 + 1) gives
9007199254740992. -/
theorem parseAbbrevInt_range_and_precision :
    parseAbbrevInt amd64OutOfRange "99999999999999999999"
        = .error (.numError "ParseInt" "99999999999999999999" .ErrRange)
    ∧ tokenValue 1 "0".toList "5005".toList 1000 = 500 + 1 / 2
    ∧ roundHalfAway (tokenValue 1 "0".toList "5005".toList 1000) = 501
    ∧ parseAbbrevInt amd64OutOfRange "0.5005K" = .ok 500
    ∧ parseAbbrevInt amd64OutOfRange "9007199254740993" = .ok 9007199254740992 := by
  have hN : natVal ("0".toList ++ "5005".toList) = 5005 := by decide
  have hv : tokenValue 1 "0".toList "5005".toList 1000 = 500 + 1 / 2 := by
    unfold tokenValue
    rw [hN]
    norm_num
  refine ⟨by decide, hv, ?_, by decide, by decide⟩
  rw [hv]
  norm_num [roundHalfAway]

/-- C3, amended. Take a token made of an optional sign, decimal digits `ints`, an
optional fractional part `fracs` and an optional final suffix k/K, m/M or b/B, with
commas and white space anywhere in it, let `mult` be 1000, 1000000, 1000000000 or 1
for the suffix and `v` the exact product of the number and `mult`. (1) With no
fractional part and `ints * mult < 2^53`, `parseAbbrevInt` succeeds and returns `v`.
(2) With a fractional part of zeros only and the same bound it returns the same
number: the integer path and the fractional path agree. (3) With a fractional part
such that the number, and its product with `mult`, are binary64 values (the number is
`a / 2^t` with `a * mult < 2^53`), it returns `v` rounded to the nearest integer, a
half away from zero. (4) So it does when `v` is farther than `(|v| + 1) / 2^50` from
every tie `k + 1/2`, (5) in particular when `v` is an integer with `|v| + 1 < 2^49`. -/
theorem parseAbbrevInt_token (outOfRange : F64 → Int) (s : String)
    (sign ints fracs suffix : List Char) (sg : Int) (mult : Nat)
    (hs : signOf sign = some sg) (hm : multiplier suffix = some mult)
    (hi : ∀ c ∈ ints, isDecDigit c = true) (hf : ∀ c ∈ fracs, isDecDigit c = true) :
    (withoutSeparators s = sign ++ ints ++ suffix → ints ≠ [] →
        natVal ints * mult < 2 ^ 53 →
        parseAbbrevInt outOfRange s = .ok (sg * (natVal ints : Int) * (mult : Int)))
    ∧ (withoutSeparators s = sign ++ (ints ++ '.' :: fracs) ++ suffix → ints ≠ [] →
        (∀ c ∈ fracs, c = '0') → natVal ints * mult < 2 ^ 53 →
        parseAbbrevInt outOfRange s = .ok (sg * (natVal ints : Int) * (mult : Int)))
    ∧ (withoutSeparators s = sign ++ (ints ++ '.' :: fracs) ++ suffix → ints ++ fracs ≠ [] →
        (∃ a t : Nat, a * mult < 2 ^ 53 ∧ t ≤ 1074
          ∧ natVal (ints ++ fracs) * 2 ^ t = a * 10 ^ fracs.length) →
        parseAbbrevInt outOfRange s = .ok (roundHalfAway (tokenValue sg ints fracs mult)))
    ∧ (withoutSeparators s = sign ++ (ints ++ '.' :: fracs) ++ suffix → ints ++ fracs ≠ [] →
        (∀ k : ℤ, (|tokenValue sg ints fracs mult| + 1) / 2 ^ 50
          < |tokenValue sg ints fracs mult - ((k : ℚ) + 1 / 2)|) →
        parseAbbrevInt outOfRange s = .ok (roundHalfAway (tokenValue sg ints fracs mult)))
    ∧ (withoutSeparators s = sign ++ (ints ++ '.' :: fracs) ++ suffix → ints ++ fracs ≠ [] →
        (∃ z : ℤ, tokenValue sg ints fracs mult = (z : ℚ)) →
        |tokenValue sg ints fracs mult| + 1 < 2 ^ 49 →
        parseAbbrevInt outOfRange s = .ok (roundHalfAway (tokenValue sg ints fracs mult))) :=
  ⟨fun htok hne hr =>
      parseAbbrevInt_integer_token outOfRange s sign ints suffix sg mult htok hs hne hi hm hr,
    fun htok hne hz hr =>
      parseAbbrevInt_zero_fraction outOfRange s sign ints fracs suffix sg mult htok hs hne hi
        hz hm hr,
    fun htok hne ⟨a, t, ha, ht, h⟩ =>
      parseAbbrevInt_exact_token outOfRange s sign ints fracs suffix sg mult a t htok hs hi hf
        hne hm ha ht h,
    fun htok hne hmargin =>
      parseAbbrevInt_fraction_token outOfRange s sign ints fracs suffix sg mult htok hs hi hf
        hne hm hmargin,
    fun htok hne ⟨z, hz⟩ hb =>
      parseAbbrevInt_fraction_token outOfRange s sign ints fracs suffix sg mult htok hs hi hf
        hne hm (margin_of_integer _ z hz hb)⟩

set_option maxRecDepth 100000 in
/-- C3, witness: ` 1,250 k` is the token `1250k` with separators and gives 1250000;
`-2.5` is a tie of binary64 values and gives -3; the tokens `12.5K`, `4M`, `300` and
`1,250` give 12500, 4000000, 300 and 1250. -/
theorem parseAbbrevInt_token_witness :
    signOf [] = some 1 ∧ multiplier ['k'] = some 1000
    ∧ (∀ c ∈ "1250".toList, isDecDigit c = true)
    ∧ withoutSeparators " 1,250 k" = [] ++ "1250".toList ++ ['k']
    ∧ natVal "1250".toList * 1000 < 2 ^ 53
    ∧ parseAbbrevInt amd64OutOfRange " 1,250 k"
        = .ok (1 * (natVal "1250".toList : Int) * ((1000 : Nat) : Int))
    ∧ parseAbbrevInt amd64OutOfRange " 1,250 k" = .ok 1250000
    ∧ signOf ['-'] = some (-1) ∧ multiplier [] = some 1
    ∧ withoutSeparators "-2.5" = ['-'] ++ (['2'] ++ '.' :: ['5']) ++ []
    ∧ natVal (['2'] ++ ['5']) * 2 ^ 1 = 5 * 10 ^ ['5'].length
    ∧ tokenValue (-1) ['2'] ['5'] 1 = -(2 + 1 / 2)
    ∧ roundHalfAway (tokenValue (-1) ['2'] ['5'] 1) = -3
    ∧ parseAbbrevInt amd64OutOfRange "-2.5"
        = .ok (roundHalfAway (tokenValue (-1) ['2'] ['5'] 1))
    ∧ parseAbbrevInt amd64OutOfRange "-2.5" = .ok (-3)
    ∧ parseAbbrevInt amd64OutOfRange "2.5" = .ok 3
    ∧ parseAbbrevInt amd64OutOfRange "12.5K" = .ok 12500
    ∧ parseAbbrevInt amd64OutOfRange "4M" = .ok 4000000
    ∧ parseAbbrevInt amd64OutOfRange "300" = .ok 300
    ∧ parseAbbrevInt amd64OutOfRange "1,250" = .ok 1250 := by
  have hN : natVal (['2'] ++ ['5']) = 25 := by decide
  have hv : tokenValue (-1) ['2'] ['5'] 1 = -(2 + 1 / 2) := by
    unfold tokenValue
    rw [hN]
    norm_num
  refine ⟨by decide, by decide, by decide, by decide, by decide,
    (parseAbbrevInt_token amd64OutOfRange " 1,250 k" [] "1250".toList [] ['k'] 1 1000
      (by decide) (by decide) (by decide) (by simp)).1 (by decide) (by decide) (by decide),
    by decide, by decide, by decide, by decide, by decide, hv, ?_,
    (parseAbbrevInt_token amd64OutOfRange "-2.5" ['-'] ['2'] ['5'] [] (-1) 1
      (by decide) (by decide) (by decide) (by decide)).2.2.1 (by decide) (by decide)
      ⟨5, 1, by decide, by decide, by decide⟩,
    by decide, by decide, by decide, by decide, by decide, by decide⟩
  rw [hv]
  norm_num [roundHalfAway]

theorem stripUnit_normalize (s : String) : stripUnit (normalize s) = remainingText s := by
  rw [normalize_eq]
  unfold stripUnit remainingText
  cases h : (withoutSeparators s).getLast? with
  | none =>
    simp only
    have : withoutSeparators s = [] := by simpa [List.getLast?_eq_none_iff] using h
    exact this
  | some last =>
    simp only
    have : (unitMult last).isSome = true ↔ last ∈ ['k', 'K', 'm', 'M', 'b', 'B'] := by
      unfold unitMult
      simp only [List.mem_cons, List.mem_singleton, List.not_mem_nil, or_false]
      split_ifs with a b c <;> simp <;> tauto
    by_cases hl : last ∈ ['k', 'K', 'm', 'M', 'b', 'B']
    · simp only [hl, if_true, this.mpr hl]
    · have hn : ¬ ((unitMult last).isSome = true) := fun e => hl (this.mp e)
      simp only [hl, if_false, hn]
      simp

theorem parseUintLoop_ok (ds : List Char) (n v : Nat) (h : parseUintLoop ds n = .ok v) :
    (∀ c ∈ ds, isDecDigit c = true) ∧ v = ds.foldl (fun n c => n * 10 + decVal c) n := by
  induction ds generalizing n with
  | nil =>
    simp only [parseUintLoop, Except.ok.injEq] at h
    exact ⟨by simp, by simp [h]⟩
  | cons c cs ih =>
    rw [parseUintLoop] at h
    by_cases hc : '0' ≤ c ∧ c ≤ '9'
    · rw [if_pos hc] at h
      by_cases h1 : (2 ^ 64 - 1) / 10 + 1 ≤ n
      · rw [if_pos h1] at h; cases h
      · rw [if_neg h1] at h
        by_cases h2 : 2 ^ 64 - 1 < n * 10 + (c.toNat - '0'.toNat)
        · rw [if_pos h2] at h; cases h
        · rw [if_neg h2] at h
          obtain ⟨a, b⟩ := ih _ h
          refine ⟨?_, ?_⟩
          · intro x hx
            rcases List.mem_cons.mp hx with e | e
            · rw [e]; simp [isDecDigit, hc]
            · exact a x e
          · rw [b]; rfl
    · rw [if_neg hc] at h; cases h

theorem parseInt_ok_shape (txt : List Char) (n : Int) (h : strconvParseInt txt = .ok n) :
    ∃ sign digits sg, txt = sign ++ digits ∧ signOf sign = some sg
      ∧ (sign = [] ∨ sign = ['+'] ∨ sign = ['-']) ∧ digits ≠ []
      ∧ (∀ c ∈ digits, isDecDigit c = true) ∧ n = sg * (natVal digits : Int)
      ∧ -(2 : Int) ^ 63 ≤ n ∧ n < (2 : Int) ^ 63 := by
  cases txt with
  | nil => simp [strconvParseInt] at h
  | cons c cs =>
    simp only [strconvParseInt] at h
    have key : ∀ (digits : List Char) (neg : Bool),
        (match strconvParseUint digits with
          | .error .ErrSyntax => (.error .ErrSyntax : Except NumErrKind Int)
          | .error .ErrRange => .error .ErrRange
          | .ok un =>
              if (!neg) = true ∧ 2 ^ 63 ≤ un then .error .ErrRange
              else if neg = true ∧ 2 ^ 63 < un then .error .ErrRange
              else .ok (if neg = true then -(un : Int) else (un : Int))) = .ok n →
        digits ≠ [] ∧ (∀ c ∈ digits, isDecDigit c = true)
          ∧ n = (if neg = true then -1 else 1) * (natVal digits : Int)
          ∧ -(2 : Int) ^ 63 ≤ n ∧ n < (2 : Int) ^ 63 := by
      intro digits neg hk
      cases hu : strconvParseUint digits with
      | error k => rw [hu] at hk; cases k <;> simp at hk
      | ok un =>
        rw [hu] at hk
        simp only at hk
        unfold strconvParseUint at hu
        by_cases hd : digits = []
        · simp [hd] at hu
        · simp only [hd, if_false] at hu
          obtain ⟨a, b⟩ := parseUintLoop_ok _ _ _ hu
          have hb : un = natVal digits := b
          by_cases c1 : (!neg) = true ∧ 2 ^ 63 ≤ un
          · rw [if_pos c1] at hk; cases hk
          · rw [if_neg c1] at hk
            by_cases c2 : neg = true ∧ 2 ^ 63 < un
            · rw [if_pos c2] at hk; cases hk
            · rw [if_neg c2] at hk
              simp only [Except.ok.injEq] at hk
              have p63 : (2 : Int) ^ 63 = 9223372036854775808 := by norm_num
              have q63 : (2 : Nat) ^ 63 = 9223372036854775808 := by norm_num
              rw [q63] at c1 c2
              refine ⟨hd, a, ?_, ?_, ?_⟩
              · rw [← hk, hb]; cases neg <;> simp
              · rw [← hk, p63]
                cases neg
                · simp; omega
                · simp at c2 ⊢; omega
              · rw [← hk, p63]
                cases neg
                · simp at c1 ⊢; omega
                · simp; omega
    by_cases hsign : c = '+' ∨ c = '-'
    · simp only [hsign, if_true] at h
      obtain ⟨h1, h2, h3, h4, h5⟩ := key cs (decide (c = '-')) h
      rcases hsign with e | e
      · subst e
        exact ⟨['+'], cs, 1, rfl, by decide, Or.inr (Or.inl rfl), h1, h2,
          by simpa using h3, h4, h5⟩
      · subst e
        exact ⟨['-'], cs, -1, rfl, by decide, Or.inr (Or.inr rfl), h1, h2,
          by simpa using h3, h4, h5⟩
    · simp only [hsign, if_false] at h
      obtain ⟨h1, h2, h3, h4, h5⟩ := key (c :: cs) (decide (c = '-')) h
      have hm : c ≠ '-' := fun e => hsign (Or.inr e)
      exact ⟨[], c :: cs, 1, rfl, by decide, Or.inl rfl, h1, h2,
        by simpa [hm] using h3, h4, h5⟩

theorem not_number_of_mem (txt : List Char) (x : Char) (hx : x ∈ txt)
    (h1 : x ≠ '+') (h2 : x ≠ '-') (h3 : x ≠ '.') (h4 : x.isDigit = false) :
    ¬ isSignedInteger txt ∧ ¬ isSignedDecimal txt := by
  have hsign : ∀ sign : List Char, (sign = [] ∨ sign = ['+'] ∨ sign = ['-']) → x ∉ sign := by
    intro sign hs hm
    rcases hs with e | e | e <;> subst e <;> simp at hm
    · exact h1 hm
    · exact h2 hm
  have hdig : ∀ ds : List Char, (∀ c ∈ ds, c.isDigit = true) → x ∉ ds := by
    intro ds hd hm
    have := hd x hm
    rw [h4] at this
    exact absurd this (by decide)
  constructor
  · rintro ⟨sign, digits, ht, hs, _, hd⟩
    rw [ht, List.mem_append] at hx
    rcases hx with hx | hx
    · exact hsign sign hs hx
    · exact hdig digits hd hx
  · rintro ⟨sign, ints, fracs, ht, hs, _, hi, hf⟩
    rw [ht] at hx
    simp only [List.mem_append, List.mem_cons] at hx
    rcases hx with hx | hx | hx | hx
    · exact hsign sign hs hx
    · exact hdig ints hi hx
    · exact h3 hx
    · exact hdig fracs hf hx

theorem readMantissa_shape (hex : Bool) (s : List Char) (st : ReadState) :
    ∃ cons, s = cons ++ (readMantissa hex s st).2
      ∧ (∀ c ∈ cons, isNumeralDigit hex c ∨ c = '_' ∨ c = '.')
      ∧ (st.sawdot = true → '.' ∉ cons) ∧ cons.count '.' ≤ 1
      ∧ ((readMantissa hex s st).1.sawdigits = true →
          st.sawdigits = true ∨ ∃ c ∈ cons, isNumeralDigit hex c) := by
  induction s generalizing st with
  | nil =>
    exact ⟨[], by simp [readMantissa], by simp, by simp, by simp,
      fun h => Or.inl (by simpa [readMantissa] using h)⟩
  | cons c cs ih =>
    rw [readMantissa]
    by_cases hu : c = '_'
    · rw [if_pos hu]
      obtain ⟨cons, h1, h2, h3, h4, h5⟩ := ih { st with underscores := true }
      refine ⟨c :: cons, ?_, ?_, ?_, ?_, ?_⟩
      · rw [List.cons_append, ← h1]
      · intro x hx
        rcases List.mem_cons.mp hx with e | e
        · rw [e]; exact Or.inr (Or.inl hu)
        · exact h2 x e
      · intro hs hx
        rcases List.mem_cons.mp hx with e | e
        · rw [hu] at e; exact absurd e (by decide)
        · exact h3 hs e
      · rw [List.count_cons, hu]
        simpa using h4
      · intro hd
        rcases h5 hd with e | ⟨x, hx, hxd⟩
        · exact Or.inl e
        · exact Or.inr ⟨x, List.mem_cons_of_mem _ hx, hxd⟩
    · rw [if_neg hu]
      by_cases hdot : c = '.'
      · rw [if_pos hdot]
        by_cases hsd : st.sawdot = true
        · rw [if_pos hsd]
          exact ⟨[], by simp, by simp, by simp, by simp, fun h => Or.inl h⟩
        · rw [if_neg hsd]
          obtain ⟨cons, h1, h2, h3, h4, h5⟩ := ih { st with sawdot := true, dp := st.nd }
          have hno : '.' ∉ cons := h3 rfl
          refine ⟨c :: cons, ?_, ?_, ?_, ?_, ?_⟩
          · rw [List.cons_append, ← h1]
          · intro x hx
            rcases List.mem_cons.mp hx with e | e
            · rw [e]; exact Or.inr (Or.inr hdot)
            · exact h2 x e
          · intro hs; exact absurd hs hsd
          · rw [List.count_cons, hdot, List.count_eq_zero_of_not_mem hno]
            simp
          · intro hd
            rcases h5 hd with e | ⟨x, hx, hxd⟩
            · exact Or.inl e
            · exact Or.inr ⟨x, List.mem_cons_of_mem _ hx, hxd⟩
      · rw [if_neg hdot]
        have hcount : ∀ cons : List Char, (c :: cons).count '.' = cons.count '.' := by
          intro cons
          rw [List.count_cons]
          have : (c == '.') = false := by simpa using hdot
          simp [this]
        have step : ∀ st1 : ReadState, st1.sawdot = st.sawdot → isNumeralDigit hex c →
            ∃ cons, c :: cs = cons ++ (readMantissa hex cs st1).2
              ∧ (∀ c ∈ cons, isNumeralDigit hex c ∨ c = '_' ∨ c = '.')
              ∧ (st.sawdot = true → '.' ∉ cons) ∧ cons.count '.' ≤ 1
              ∧ ((readMantissa hex cs st1).1.sawdigits = true →
                  st.sawdigits = true ∨ ∃ c ∈ cons, isNumeralDigit hex c) := by
          intro st1 hsd1 hcd
          obtain ⟨cons, h1, h2, h3, h4, h5⟩ := ih st1
          refine ⟨c :: cons, ?_, ?_, ?_, ?_, ?_⟩
          · rw [List.cons_append, ← h1]
          · intro x hx
            rcases List.mem_cons.mp hx with e | e
            · rw [e]; exact Or.inl hcd
            · exact h2 x e
          · intro hs hx
            rcases List.mem_cons.mp hx with e | e
            · exact hdot e.symm
            · exact h3 (by rw [hsd1]; exact hs) e
          · rw [hcount]; exact h4
          · intro _
            exact Or.inr ⟨c, by simp, hcd⟩
        by_cases hdig : isDecDigit c = true
        · rw [if_pos hdig]
          have hcd : isNumeralDigit hex c := Or.inl (by rw [← isDecDigit_eq_isDigit]; exact hdig)
          split_ifs <;> exact step _ rfl hcd
        · rw [if_neg hdig]
          by_cases hh : hex = true ∧ isHexLetter c = true
          · rw [if_pos hh]
            have hcd : isNumeralDigit hex c :=
              Or.inr ⟨hh.1, by simpa [isHexLetter] using hh.2⟩
            exact step _ rfl hcd
          · rw [if_neg hh]
            exact ⟨[], by simp, by simp, by simp, by simp, fun h => Or.inl h⟩

theorem readExpDigits_shape (s : List Char) (e : Nat) (us : Bool) :
    ∃ cons, s = cons ++ (readExpDigits s e us).2.2
      ∧ ∀ c ∈ cons, c.isDigit = true ∨ c = '_' := by
  induction s generalizing e us with
  | nil => exact ⟨[], by simp [readExpDigits], by simp⟩
  | cons c cs ih =>
    rw [readExpDigits]
    by_cases hdig : isDecDigit c = true
    · rw [if_pos hdig]
      obtain ⟨cons, h1, h2⟩ := ih (if e < 10000 then e * 10 + decVal c else e) us
      refine ⟨c :: cons, by rw [List.cons_append, ← h1], ?_⟩
      intro x hx
      rcases List.mem_cons.mp hx with h | h
      · rw [h]; exact Or.inl (by rw [← isDecDigit_eq_isDigit]; exact hdig)
      · exact h2 x h
    · rw [if_neg hdig]
      by_cases hu : c = '_'
      · rw [if_pos hu]
        obtain ⟨cons, h1, h2⟩ := ih e true
        refine ⟨c :: cons, by rw [List.cons_append, ← h1], ?_⟩
        intro x hx
        rcases List.mem_cons.mp hx with h | h
        · rw [h]; exact Or.inr hu
        · exact h2 x h
      · rw [if_neg hu]
        exact ⟨[], by simp, by simp⟩

theorem readExponent_shape (hex us : Bool) (s3 : List Char) (e : Int) (us1 : Bool)
    (rest : List Char) (h : readExponent hex us s3 = some (e, us1, rest)) :
    ∃ ex, s3 = ex ++ rest
      ∧ ((ex = [] ∧ hex = false)
        ∨ isExponent (if hex then ['p', 'P'] else ['e', 'E']) ex) := by
  cases s3 with
  | nil =>
    cases hex with
    | true => simp [readExponent] at h
    | false =>
      simp only [readExponent, Bool.false_eq_true, if_false, Option.some.injEq,
        Prod.mk.injEq] at h
      exact ⟨[], by rw [← h.2.2]; rfl, Or.inl ⟨rfl, rfl⟩⟩
  | cons x s4 =>
    simp only [readExponent] at h
    by_cases hmark : ((!hex) = true ∧ (x = 'e' ∨ x = 'E')) ∨ (hex = true ∧ (x = 'p' ∨ x = 'P'))
    · rw [if_pos hmark] at h
      have hmem : x ∈ (if hex = true then ['p', 'P'] else ['e', 'E']) := by
        rcases hmark with ⟨a, b⟩ | ⟨a, b⟩
        · have : hex = false := by simpa using a
          rw [this]; simp only [Bool.false_eq_true, if_false]
          rcases b with b | b <;> simp [b]
        · rw [a]; simp only [if_true]
          rcases b with b | b <;> simp [b]
      cases s4 with
      | nil => simp at h
      | cons y s5 =>
        simp only at h
        have key : ∀ (sign : List Char) (s6 : List Char),
            (sign = [] ∨ sign = ['+'] ∨ sign = ['-']) → y :: s5 = sign ++ s6 →
            (match s6 with
              | [] => (none : Option (Int × Bool × List Char))
              | z :: _ =>
                  if (!isDecDigit z) = true then none
                  else some ((readExpDigits s6 0 us).1 * (if y = '-' then -1 else 1),
                    (readExpDigits s6 0 us).2.1, (readExpDigits s6 0 us).2.2))
              = some (e, us1, rest) →
            ∃ ex, x :: y :: s5 = ex ++ rest
              ∧ isExponent (if hex = true then ['p', 'P'] else ['e', 'E']) ex := by
          intro sign s6 hsign hsplit hk
          cases s6 with
          | nil => simp at hk
          | cons z s7 =>
            simp only at hk
            by_cases hz : isDecDigit z = true
            · simp only [hz, Bool.not_true, Bool.false_eq_true, if_false, Option.some.injEq,
                Prod.mk.injEq] at hk
              obtain ⟨cons, h1, h2⟩ := readExpDigits_shape (z :: s7) 0 us
              rw [hk.2.2] at h1
              cases cons with
              | nil =>
                exfalso
                have hunf : (readExpDigits (z :: s7) 0 us).2.2
                    = (readExpDigits s7 (if 0 < 10000 then 0 * 10 + decVal z else 0) us).2.2 := by
                  simp only [readExpDigits, hz, if_true]
                obtain ⟨c2, h3, _⟩ := readExpDigits_shape s7
                  (if 0 < 10000 then 0 * 10 + decVal z else 0) us
                have hlen := congrArg List.length h3
                rw [← hk.2.2, hunf] at h1
                have hl2 := congrArg List.length h1
                simp only [List.length_cons, List.length_append, List.length_nil] at hlen hl2
                omega
              | cons d cons' =>
                simp only [List.cons_append, List.cons.injEq] at h1
                refine ⟨x :: (sign ++ d :: cons'), ?_, x, d, sign, cons', rfl, hmem, hsign, ?_, ?_⟩
                · rw [hsplit, h1.1, h1.2]
                  simp
                · rcases h2 d (by simp) with hd | hd
                  · exact hd
                  · exfalso
                    rw [← h1.1] at hd
                    rw [hd] at hz
                    exact absurd hz (by decide)
                · intro c hc
                  exact h2 c (List.mem_cons_of_mem _ hc)
            · simp [hz] at hk
        by_cases hy : y = '+' ∨ y = '-'
        · simp only [hy, if_true] at h
          rcases hy with hy | hy
          · obtain ⟨ex, h1, h2⟩ := key ['+'] s5 (Or.inr (Or.inl rfl)) (by rw [hy]; rfl) h
            exact ⟨ex, h1, Or.inr h2⟩
          · obtain ⟨ex, h1, h2⟩ := key ['-'] s5 (Or.inr (Or.inr rfl)) (by rw [hy]; rfl) h
            exact ⟨ex, h1, Or.inr h2⟩
        · simp only [hy, if_false] at h
          obtain ⟨ex, h1, h2⟩ := key [] (y :: s5) (Or.inl rfl) rfl h
          exact ⟨ex, h1, Or.inr h2⟩
    · rw [if_neg hmark] at h
      cases hex with
      | true => simp at h
      | false =>
        simp only [Bool.false_eq_true, if_false, Option.some.injEq, Prod.mk.injEq] at h
        exact ⟨[], by rw [← h.2.2]; rfl, Or.inl ⟨rfl, rfl⟩⟩

theorem dropSign_split (s : List Char) :
    ∃ sign, s = sign ++ dropSign s ∧ (sign = [] ∨ sign = ['+'] ∨ sign = ['-']) := by
  cases s with
  | nil => exact ⟨[], rfl, Or.inl rfl⟩
  | cons c cs =>
    unfold dropSign
    by_cases h : c = '+' ∨ c = '-'
    · simp only [h, if_true]
      rcases h with h | h
      · exact ⟨['+'], by rw [h]; rfl, Or.inr (Or.inl rfl)⟩
      · exact ⟨['-'], by rw [h]; rfl, Or.inr (Or.inr rfl)⟩
    · simp only [h, if_false]
      exact ⟨[], rfl, Or.inl rfl⟩

theorem hexPrefix_split (s1 : List Char) (h : hexPrefix s1 = true) :
    ∃ x, (x = 'x' ∨ x = 'X') ∧ s1 = '0' :: x :: s1.drop 2 := by
  match s1, h with
  | a :: x :: _ :: _, h =>
    simp only [hexPrefix, decide_eq_true_eq] at h
    exact ⟨x, h.2, by rw [h.1]; rfl⟩

theorem digitLike_iff (hex : Bool) (c : Char) :
    (isDecDigit c || (hex && isHexLetter c)) = true ↔ isNumeralDigit hex c := by
  unfold isNumeralDigit
  rw [Bool.or_eq_true, Bool.and_eq_true, isDecDigit_eq_isDigit]
  simp [isHexLetter]

theorem underscore_not_digit (hex : Bool) : ¬ isNumeralDigit hex '_' := by
  rintro (h | ⟨_, h | h⟩)
  · exact absurd h (by decide)
  · exact absurd h (by decide)
  · exact absurd h (by decide)

theorem underscoreOKLoop_sound (hex : Bool) (cs : List Char) (i : Char)
    (h : underscoreOKLoop hex cs i = true) (pre post : List Char)
    (hsplit : cs = pre ++ '_' :: post) :
    ((∃ a pre', pre = pre' ++ [a] ∧ isNumeralDigit hex a) ∨ (i = '0' ∧ pre = []))
    ∧ ∃ b post', post = b :: post' ∧ isNumeralDigit hex b := by
  induction cs generalizing i pre with
  | nil =>
    have := congrArg List.length hsplit
    simp at this
    omega
  | cons c cs ih =>
    rw [underscoreOKLoop] at h
    by_cases hd : (isDecDigit c || (hex && isHexLetter c)) = true
    · rw [if_pos hd] at h
      have hcd := (digitLike_iff hex c).mp hd
      cases pre with
      | nil =>
        simp only [List.nil_append, List.cons.injEq] at hsplit
        rw [hsplit.1] at hcd
        exact absurd hcd (underscore_not_digit hex)
      | cons p pre' =>
        simp only [List.cons_append, List.cons.injEq] at hsplit
        obtain ⟨h1, h2⟩ := ih '0' h pre' hsplit.2
        refine ⟨Or.inl ?_, h2⟩
        rcases h1 with ⟨a, pre'', hp, ha⟩ | ⟨_, hp⟩
        · exact ⟨a, p :: pre'', by rw [hp]; rfl, ha⟩
        · exact ⟨p, [], by rw [hp]; rfl, by rw [← hsplit.1]; exact hcd⟩
    · rw [if_neg hd] at h
      by_cases hu : c = '_'
      · rw [if_pos hu] at h
        by_cases hi : (i != '0') = true
        · rw [if_pos hi] at h; cases h
        · rw [if_neg hi] at h
          have hi0 : i = '0' := by simpa using hi
          cases pre with
          | nil =>
            simp only [List.nil_append, List.cons.injEq] at hsplit
            refine ⟨Or.inr ⟨hi0, rfl⟩, ?_⟩
            rw [← hsplit.2]
            cases cs with
            | nil => simp [underscoreOKLoop] at h
            | cons b bs =>
              rw [underscoreOKLoop] at h
              by_cases hb : (isDecDigit b || (hex && isHexLetter b)) = true
              · exact ⟨b, bs, rfl, (digitLike_iff hex b).mp hb⟩
              · rw [if_neg hb] at h
                by_cases hb2 : b = '_'
                · rw [if_pos hb2] at h
                  simp at h
                · rw [if_neg hb2] at h
                  simp at h
          | cons p pre' =>
            simp only [List.cons_append, List.cons.injEq] at hsplit
            obtain ⟨h1, h2⟩ := ih '_' h pre' hsplit.2
            refine ⟨Or.inl ?_, h2⟩
            rcases h1 with ⟨a, pre'', hp, ha⟩ | ⟨hc, _⟩
            · exact ⟨a, p :: pre'', by rw [hp]; rfl, ha⟩
            · exact absurd hc (by decide)
      · rw [if_neg hu] at h
        by_cases hi : i = '_'
        · rw [if_pos hi] at h; cases h
        · rw [if_neg hi] at h
          cases pre with
          | nil =>
            simp only [List.nil_append, List.cons.injEq] at hsplit
            exact absurd hsplit.1 hu
          | cons p pre' =>
            simp only [List.cons_append, List.cons.injEq] at hsplit
            obtain ⟨h1, h2⟩ := ih '!' h pre' hsplit.2
            refine ⟨Or.inl ?_, h2⟩
            rcases h1 with ⟨a, pre'', hp, ha⟩ | ⟨hc, _⟩
            · exact ⟨a, p :: pre'', by rw [hp]; rfl, ha⟩
            · exact absurd hc (by decide)

theorem readMantissa_flag_mono (hex : Bool) (s : List Char) (st : ReadState)
    (h : st.underscores = true) : (readMantissa hex s st).1.underscores = true := by
  induction s generalizing st with
  | nil => simpa [readMantissa] using h
  | cons c cs ih =>
    rw [readMantissa]
    split_ifs <;> first | exact h | exact ih _ h | exact ih _ rfl

theorem readMantissa_flag (hex : Bool) (s : List Char) (st : ReadState) :
    ∃ cons, s = cons ++ (readMantissa hex s st).2
      ∧ ((readMantissa hex s st).1.underscores = false → '_' ∉ cons) := by
  induction s generalizing st with
  | nil => exact ⟨[], by simp [readMantissa], by simp⟩
  | cons c cs ih =>
    rw [readMantissa]
    have step : ∀ st1 : ReadState, c ≠ '_' →
        ∃ cons, c :: cs = cons ++ (readMantissa hex cs st1).2
          ∧ ((readMantissa hex cs st1).1.underscores = false → '_' ∉ cons) := by
      intro st1 hc
      obtain ⟨cons, h1, h2⟩ := ih st1
      refine ⟨c :: cons, by rw [List.cons_append, ← h1], ?_⟩
      intro hf hm
      rcases List.mem_cons.mp hm with e | e
      · exact hc e.symm
      · exact h2 hf e
    by_cases hu : c = '_'
    · rw [if_pos hu]
      obtain ⟨cons, h1, _⟩ := ih { st with underscores := true }
      refine ⟨c :: cons, by rw [List.cons_append, ← h1], ?_⟩
      intro hf
      rw [readMantissa_flag_mono hex cs _ rfl] at hf
      cases hf
    · rw [if_neg hu]
      split_ifs
      all_goals first
        | exact step _ hu
        | exact ⟨[], by simp, by simp⟩

theorem readExpDigits_flag (s : List Char) (e : Nat) (us : Bool) :
    ∃ cons, s = cons ++ (readExpDigits s e us).2.2
      ∧ ((readExpDigits s e us).2.1 = false → us = false ∧ '_' ∉ cons) := by
  induction s generalizing e us with
  | nil => exact ⟨[], by simp [readExpDigits], by simp [readExpDigits]⟩
  | cons c cs ih =>
    rw [readExpDigits]
    by_cases hdig : isDecDigit c = true
    · rw [if_pos hdig]
      obtain ⟨cons, h1, h2⟩ := ih (if e < 10000 then e * 10 + decVal c else e) us
      refine ⟨c :: cons, by rw [List.cons_append, ← h1], ?_⟩
      intro hf
      obtain ⟨a, b⟩ := h2 hf
      refine ⟨a, ?_⟩
      intro hm
      rcases List.mem_cons.mp hm with e1 | e1
      · rw [← e1] at hdig; exact absurd hdig (by decide)
      · exact b e1
    · rw [if_neg hdig]
      by_cases hu : c = '_'
      · rw [if_pos hu]
        obtain ⟨cons, h1, h2⟩ := ih e true
        refine ⟨c :: cons, by rw [List.cons_append, ← h1], ?_⟩
        intro hf
        exact absurd (h2 hf).1 (by decide)
      · rw [if_neg hu]
        exact ⟨[], by simp, by simp⟩

theorem readExponent_flag (hex us : Bool) (s3 : List Char) (e : Int) (us1 : Bool)
    (rest : List Char) (h : readExponent hex us s3 = some (e, us1, rest)) :
    ∃ ex, s3 = ex ++ rest ∧ (us1 = false → us = false ∧ '_' ∉ ex) := by
  cases s3 with
  | nil =>
    cases hex with
    | true => simp [readExponent] at h
    | false =>
      simp only [readExponent, Bool.false_eq_true, if_false, Option.some.injEq,
        Prod.mk.injEq] at h
      exact ⟨[], by rw [← h.2.2]; rfl, fun hf => ⟨by rw [h.2.1]; exact hf, by simp⟩⟩
  | cons x s4 =>
    simp only [readExponent] at h
    by_cases hmark : ((!hex) = true ∧ (x = 'e' ∨ x = 'E')) ∨ (hex = true ∧ (x = 'p' ∨ x = 'P'))
    · rw [if_pos hmark] at h
      have hx : x ≠ '_' := by
        rcases hmark with ⟨_, b | b⟩ | ⟨_, b | b⟩ <;> rw [b] <;> decide
      cases s4 with
      | nil => simp at h
      | cons y s5 =>
        simp only at h
        have key : ∀ (sign : List Char) (s6 : List Char),
            '_' ∉ sign → y :: s5 = sign ++ s6 →
            (match s6 with
              | [] => (none : Option (Int × Bool × List Char))
              | z :: _ =>
                  if (!isDecDigit z) = true then none
                  else some ((readExpDigits s6 0 us).1 * (if y = '-' then -1 else 1),
                    (readExpDigits s6 0 us).2.1, (readExpDigits s6 0 us).2.2))
              = some (e, us1, rest) →
            ∃ ex, x :: y :: s5 = ex ++ rest ∧ (us1 = false → us = false ∧ '_' ∉ ex) := by
          intro sign s6 hsign hsplit hk
          cases s6 with
          | nil => simp at hk
          | cons z s7 =>
            simp only at hk
            by_cases hz : isDecDigit z = true
            · simp only [hz, Bool.not_true, Bool.false_eq_true, if_false, Option.some.injEq,
                Prod.mk.injEq] at hk
              obtain ⟨cons, h1, h2⟩ := readExpDigits_flag (z :: s7) 0 us
              rw [hk.2.2] at h1
              rw [hk.2.1] at h2
              refine ⟨x :: (sign ++ cons), ?_, ?_⟩
              · rw [hsplit]
                conv_lhs => rw [h1]
                simp
              · intro hf
                obtain ⟨a, b⟩ := h2 hf
                refine ⟨a, ?_⟩
                intro hm
                simp only [List.mem_cons, List.mem_append] at hm
                rcases hm with e1 | e1 | e1
                · exact hx e1.symm
                · exact hsign e1
                · exact b e1
            · simp [hz] at hk
        by_cases hy : y = '+' ∨ y = '-'
        · simp only [hy, if_true] at h
          rcases hy with hy | hy
          · exact key ['+'] s5 (by decide) (by rw [hy]; rfl) h
          · exact key ['-'] s5 (by decide) (by rw [hy]; rfl) h
        · simp only [hy, if_false] at h
          exact key [] (y :: s5) (by simp) rfl h
    · rw [if_neg hmark] at h
      cases hex with
      | true => simp at h
      | false =>
        simp only [Bool.false_eq_true, if_false, Option.some.injEq, Prod.mk.injEq] at h
        exact ⟨[], by rw [← h.2.2]; rfl, fun hf => ⟨by rw [h.2.1]; exact hf, by simp⟩⟩

theorem underscoreOK_dropSign (s : List Char) :
    underscoreOK s =
      (match dropSign s with
        | '0' :: x :: rest =>
            if x = 'b' ∨ x = 'B' ∨ x = 'o' ∨ x = 'O' ∨ x = 'x' ∨ x = 'X'
            then underscoreOKLoop (decide (x = 'x' ∨ x = 'X')) rest '0'
            else underscoreOKLoop false ('0' :: x :: rest) '^'
        | _ => underscoreOKLoop false (dropSign s) '^') := by
  cases s with
  | nil => rfl
  | cons c cs =>
    unfold underscoreOK dropSign
    by_cases h : c = '+' ∨ c = '-'
    · have h' : c = '-' ∨ c = '+' := h.symm
      simp only [h, h', if_true]
    · have h' : ¬ (c = '-' ∨ c = '+') := fun e => h e.symm
      simp only [h, h', if_false]

theorem underscoreOK_hex (s : List Char) (x : Char) (body : List Char)
    (hx : x = 'x' ∨ x = 'X') (hs : dropSign s = '0' :: x :: body) :
    underscoreOK s = underscoreOKLoop true body '0' := by
  rw [underscoreOK_dropSign, hs]
  simp only
  rw [if_pos (by rcases hx with h | h <;> simp [h])]
  simp [hx]

theorem underscoreOK_decimal (s : List Char) (body : List Char)
    (hb : ∀ c ∈ body, c ≠ 'b' ∧ c ≠ 'B' ∧ c ≠ 'o' ∧ c ≠ 'O' ∧ c ≠ 'x' ∧ c ≠ 'X')
    (hs : dropSign s = body) :
    underscoreOK s = underscoreOKLoop false body '^' := by
  rw [underscoreOK_dropSign, hs]
  split
  · rename_i x rest
    obtain ⟨h1, h2, h3, h4, h5, h6⟩ := hb x (by simp)
    rw [if_neg (by simp [h1, h2, h3, h4, h5, h6])]
  · rfl

theorem digit_not_prefix (c : Char) (h : c.isDigit = true) :
    c ≠ 'b' ∧ c ≠ 'B' ∧ c ≠ 'o' ∧ c ≠ 'O' ∧ c ≠ 'x' ∧ c ≠ 'X' := by
  refine ⟨?_, ?_, ?_, ?_, ?_, ?_⟩ <;> (rintro rfl; exact absurd h (by decide))

theorem decimal_body_chars (mant exp : List Char) (hm : isMantissa false mant)
    (he : exp = [] ∨ isExponent ['e', 'E'] exp) :
    ∀ c ∈ mant ++ exp, c ≠ 'b' ∧ c ≠ 'B' ∧ c ≠ 'o' ∧ c ≠ 'O' ∧ c ≠ 'x' ∧ c ≠ 'X' := by
  have hlit : ∀ c : Char, c ∈ ['_', '.', 'e', 'E', '+', '-'] →
      c ≠ 'b' ∧ c ≠ 'B' ∧ c ≠ 'o' ∧ c ≠ 'O' ∧ c ≠ 'x' ∧ c ≠ 'X' := by decide
  intro c hc
  rcases List.mem_append.mp hc with hc | hc
  · rcases hm.1 c hc with (h | ⟨h, _⟩) | h | h
    · exact digit_not_prefix c h
    · cases h
    · rw [h]; exact hlit _ (by decide)
    · rw [h]; exact hlit _ (by decide)
  · rcases he with he | ⟨mark, d, sign, rest, hx, hmark, hsign, hd, hrest⟩
    · rw [he] at hc; simp at hc
    · rw [hx] at hc
      simp only [List.mem_cons, List.mem_append] at hc
      rcases hc with h | h | h | h
      · rw [h]
        simp only [List.mem_cons, List.mem_singleton, List.not_mem_nil, or_false] at hmark
        rcases hmark with e | e <;> rw [e] <;> exact hlit _ (by decide)
      · rcases hsign with e | e | e <;> rw [e] at h <;> simp at h <;> rw [h] <;>
          exact hlit _ (by decide)
      · rw [h]; exact digit_not_prefix d hd
      · rcases hrest c h with e | e
        · exact digit_not_prefix c e
        · rw [e]; exact hlit _ (by decide)

theorem no_underscore_separate (hex afterPrefix : Bool) (body : List Char) (h : '_' ∉ body) :
    underscoresSeparateDigits hex afterPrefix body := by
  intro pre post hsplit
  exact absurd (by rw [hsplit]; simp) h

theorem readFloat_shape (s : List Char) (l : FloatLit) (h : readFloat s = some l)
    (hrest : l.rest = []) : isFloatNumber s := by
  unfold readFloat at h
  by_cases hs : s = []
  · simp [hs] at h
  · simp only [hs, if_false] at h
    obtain ⟨sign, hsplit, hsign⟩ := dropSign_split s
    obtain ⟨cons, hc1, hc2, _, hc4, hc5⟩ := readMantissa_shape (hexPrefix (dropSign s))
      (if hexPrefix (dropSign s) = true then (dropSign s).drop 2 else dropSign s)
      ⟨false, false, 0, 0, 0, false⟩
    obtain ⟨cons', hf1, hf2⟩ := readMantissa_flag (hexPrefix (dropSign s))
      (if hexPrefix (dropSign s) = true then (dropSign s).drop 2 else dropSign s)
      ⟨false, false, 0, 0, 0, false⟩
    have hcc : cons' = cons := by
      have := hf1.symm.trans hc1
      exact (List.append_left_inj _).mp this
    rw [hcc] at hf2
    by_cases hsd : (readMantissa (hexPrefix (dropSign s))
        (if hexPrefix (dropSign s) = true then (dropSign s).drop 2 else dropSign s)
        ⟨false, false, 0, 0, 0, false⟩).1.sawdigits = true
    · simp only [hsd, Bool.not_true, Bool.false_eq_true, if_false] at h
      have hdig : ∃ c ∈ cons, isNumeralDigit (hexPrefix (dropSign s)) c := by
        rcases hc5 hsd with e | e
        · exact absurd e (by decide)
        · exact e
      cases hexp : readExponent (hexPrefix (dropSign s))
          (readMantissa (hexPrefix (dropSign s))
            (if hexPrefix (dropSign s) = true then (dropSign s).drop 2 else dropSign s)
            ⟨false, false, 0, 0, 0, false⟩).1.underscores
          (readMantissa (hexPrefix (dropSign s))
            (if hexPrefix (dropSign s) = true then (dropSign s).drop 2 else dropSign s)
            ⟨false, false, 0, 0, 0, false⟩).2 with
      | none => rw [hexp] at h; simp at h
      | some r =>
        obtain ⟨e, us1, rest⟩ := r
        rw [hexp] at h
        simp only [readFloatFinish] at h
        have hfin : rest = [] ∧ (us1 = false ∨ underscoreOK s = true) := by
          split at h
          · cases h
          · rename_i hcond
            simp only [Option.some.injEq] at h
            rw [← h] at hrest
            have hr : rest = [] := hrest
            refine ⟨hr, ?_⟩
            rw [hr] at hcond
            simp only [List.length_nil, Nat.sub_zero, List.take_length] at hcond
            cases us1 with
            | false => exact Or.inl rfl
            | true =>
              right
              by_contra hne
              exact hcond ⟨rfl, by simpa using hne⟩
        obtain ⟨hr, hus⟩ := hfin
        obtain ⟨ex, he1, he2⟩ := readExponent_shape _ _ _ _ _ _ hexp
        obtain ⟨ex', hg1, hg2⟩ := readExponent_flag _ _ _ _ _ _ hexp
        have hee : ex' = ex := by
          have := hg1.symm.trans he1
          exact (List.append_left_inj _).mp this
        rw [hee] at hg2
        rw [hr, List.append_nil] at he1
        rw [he1] at hc1
        have hnone : us1 = false → '_' ∉ cons ++ ex := by
          intro hu hm
          obtain ⟨a, b⟩ := hg2 hu
          rcases List.mem_append.mp hm with hm | hm
          · exact hf2 a hm
          · exact b hm
        by_cases hhex : hexPrefix (dropSign s) = true
        · obtain ⟨x, hx, hx2⟩ := hexPrefix_split _ hhex
          rw [hhex] at hc1 hc2 hdig he2
          simp only [if_true] at hc1 he2
          have hds : dropSign s = '0' :: x :: (cons ++ ex) := by rw [← hc1]; exact hx2
          have hexp2 : isExponent ['p', 'P'] ex := by
            rcases he2 with ⟨_, hcontra⟩ | he2
            · exact absurd hcontra (by decide)
            · exact he2
          refine ⟨sign, cons, ex, hsign, Or.inr ⟨x, hx, ?_, ⟨hc2, hc4, hdig⟩, hexp2, ?_⟩⟩
          · rw [← hds]; exact hsplit
          · rcases hus with hu | hu
            · exact no_underscore_separate _ _ _ (hnone hu)
            · rw [underscoreOK_hex s x _ hx hds] at hu
              intro pre post hsp
              obtain ⟨h1, h2⟩ := underscoreOKLoop_sound true _ '0' hu pre post hsp
              refine ⟨?_, h2⟩
              rcases h1 with h1 | ⟨_, h1⟩
              · exact Or.inl h1
              · exact Or.inr ⟨rfl, h1⟩
        · have hf : hexPrefix (dropSign s) = false := by simpa using hhex
          rw [hf] at hc1 hc2 hdig he2
          simp only [Bool.false_eq_true, if_false] at hc1 he2
          have hexp2 : ex = [] ∨ isExponent ['e', 'E'] ex := by
            rcases he2 with ⟨he, _⟩ | he2
            · exact Or.inl he
            · exact Or.inr he2
          have hmant : isMantissa false cons := ⟨hc2, hc4, hdig⟩
          refine ⟨sign, cons, ex, hsign, Or.inl ⟨?_, hmant, hexp2, ?_⟩⟩
          · rw [← hc1]; exact hsplit
          · rcases hus with hu | hu
            · exact no_underscore_separate _ _ _ (hnone hu)
            · rw [underscoreOK_decimal s _ (decimal_body_chars cons ex hmant hexp2) hc1] at hu
              intro pre post hsp
              obtain ⟨h1, h2⟩ := underscoreOKLoop_sound false _ '^' hu pre post hsp
              refine ⟨?_, h2⟩
              rcases h1 with h1 | ⟨h1, _⟩
              · exact Or.inl h1
              · exact absurd h1 (by decide)
    · simp [hsd] at h

theorem commonPrefix_chars (pre : List Char) (h1 : '.' ∉ pre) (h2 : 'e' ∉ pre) (s : List Char) :
    commonPrefixLenIgnoreCase s pre ≤ s.length
    ∧ ∀ c ∈ s.take (commonPrefixLenIgnoreCase s pre), c ≠ '.' ∧ c ≠ 'e' ∧ c ≠ 'E' := by
  induction s generalizing pre with
  | nil => simp [commonPrefixLenIgnoreCase]
  | cons a s ih =>
    cases pre with
    | nil => simp [commonPrefixLenIgnoreCase]
    | cons p pre =>
      simp only [commonPrefixLenIgnoreCase]
      by_cases hl : (if 'A' ≤ a ∧ a ≤ 'Z' then Char.ofNat (a.toNat + 32) else a) = p
      · rw [if_pos hl]
        have hp1 : p ≠ '.' := fun e => h1 (by rw [e]; simp)
        have hp2 : p ≠ 'e' := fun e => h2 (by rw [e]; simp)
        obtain ⟨i1, i2⟩ := ih pre (fun e => h1 (List.mem_cons_of_mem _ e))
          (fun e => h2 (List.mem_cons_of_mem _ e))
        refine ⟨by simp only [List.length_cons]; omega, ?_⟩
        intro c hc
        rw [List.take_succ_cons] at hc
        rcases List.mem_cons.mp hc with e | e
        · subst e
          refine ⟨?_, ?_, ?_⟩
          · intro e; rw [e] at hl; exact hp1 (by rw [← hl]; decide)
          · intro e; rw [e] at hl; exact hp2 (by rw [← hl]; decide)
          · intro e; rw [e] at hl; exact hp2 (by rw [← hl]; decide)
        · exact i2 c e
      · rw [if_neg hl]
        simp

theorem specialInf_chars (neg : Bool) (nsign : Nat) (s : List Char) (v : F64) (n : Nat)
    (h : specialInf neg nsign s = some (v, n)) (hn : n = nsign + s.length) :
    ∀ c ∈ s, c ≠ '.' ∧ c ≠ 'e' ∧ c ≠ 'E' := by
  obtain ⟨i1, i2⟩ := commonPrefix_chars "infinity".toList (by decide) (by decide) s
  unfold specialInf at h
  simp only at h
  split_ifs at h with a b
  all_goals
    simp only [Option.some.injEq, Prod.mk.injEq] at h
    have hlen : s.length ≤ commonPrefixLenIgnoreCase s "infinity".toList := by omega
    have : s.take (commonPrefixLenIgnoreCase s "infinity".toList) = s := List.take_of_length_le hlen
    rw [this] at i2
    exact i2

theorem special_chars (s : List Char) (v : F64) (n : Nat) (h : special s = some (v, n))
    (hn : n = s.length) : s.any (fun c => c = '.' || c = 'e' || c = 'E') = false := by
  have key : ∀ c ∈ s, c ≠ '.' ∧ c ≠ 'e' ∧ c ≠ 'E' := by
    cases s with
    | nil => simp
    | cons c cs =>
      simp only [special] at h
      by_cases h1 : c = '+' ∨ c = '-'
      · rw [if_pos h1] at h
        have := specialInf_chars _ 1 cs v n h (by rw [hn]; simp; omega)
        intro x hx
        rcases List.mem_cons.mp hx with e | e
        · rw [e]; rcases h1 with h1 | h1 <;> rw [h1] <;> decide
        · exact this x e
      · rw [if_neg h1] at h
        by_cases h2 : c = 'i' ∨ c = 'I'
        · rw [if_pos h2] at h
          exact specialInf_chars _ 0 (c :: cs) v n h (by rw [hn]; simp)
        · rw [if_neg h2] at h
          by_cases h3 : c = 'n' ∨ c = 'N'
          · rw [if_pos h3] at h
            obtain ⟨i1, i2⟩ := commonPrefix_chars "nan".toList (by decide) (by decide) (c :: cs)
            split_ifs at h with a
            simp only [Option.some.injEq, Prod.mk.injEq] at h
            have hlen : (c :: cs).length ≤ commonPrefixLenIgnoreCase (c :: cs) "nan".toList := by
              omega
            rw [List.take_of_length_le hlen] at i2
            exact i2
          · rw [if_neg h3] at h
            cases h
  rw [List.any_eq_false]
  intro c hc
  obtain ⟨a, b, d⟩ := key c hc
  simp [a, b, d]

theorem parseFloat_ok_shape (txt : List Char) (f : F64) (h : strconvParseFloat txt = .ok f)
    (hany : txt.any (fun c => c = '.' || c = 'e' || c = 'E') = true) : isFloatNumber txt := by
  unfold strconvParseFloat at h
  cases hsp : special txt with
  | some r =>
    obtain ⟨v, n⟩ := r
    rw [hsp] at h
    simp only at h
    by_cases hn : n = txt.length
    · rw [special_chars txt v n hsp hn] at hany
      cases hany
    · rw [if_neg hn] at h
      cases h
  | none =>
    rw [hsp] at h
    simp only at h
    cases hrf : readFloat txt with
    | none => rw [hrf] at h; cases h
    | some l =>
      rw [hrf] at h
      simp only at h
      by_cases hr : l.rest = []
      · exact readFloat_shape txt l hrf hr
      · rw [if_pos hr] at h
        cases h

theorem signedDecimal_isFloatNumber (txt : List Char) (h : isSignedDecimal txt) :
    isFloatNumber txt := by
  obtain ⟨sign, ints, fracs, ht, hs, hne, hi, hf⟩ := h
  have hnodot : ∀ ds : List Char, (∀ c ∈ ds, c.isDigit = true) → ds.count '.' = 0 := by
    intro ds hd
    apply List.count_eq_zero_of_not_mem
    intro hm
    exact absurd (hd '.' hm) (by decide)
  have hnous : '_' ∉ (ints ++ '.' :: fracs) ++ [] := by
    intro hm
    simp only [List.append_nil, List.mem_append, List.mem_cons] at hm
    rcases hm with hm | hm | hm
    · exact absurd (hi '_' hm) (by decide)
    · exact absurd hm (by decide)
    · exact absurd (hf '_' hm) (by decide)
  refine ⟨sign, ints ++ '.' :: fracs, [], hs, Or.inl ⟨by rw [ht]; simp, ⟨?_, ?_, ?_⟩, Or.inl rfl,
    no_underscore_separate _ _ _ hnous⟩⟩
  · intro c hc
    simp only [List.mem_append, List.mem_cons] at hc
    rcases hc with hc | hc | hc
    · exact Or.inl (Or.inl (hi c hc))
    · exact Or.inr (Or.inr hc)
    · exact Or.inl (Or.inl (hf c hc))
  · rw [List.count_append, List.count_cons, hnodot ints hi, hnodot fracs hf]
    simp
  · cases ints with
    | nil =>
      cases fracs with
      | nil => exact absurd rfl hne
      | cons b bs => exact ⟨b, by simp, Or.inl (hf b (by simp))⟩
    | cons a as => exact ⟨a, by simp, Or.inl (hi a (by simp))⟩

theorem parseAbbrevInt_ok_shape (outOfRange : F64 → Int) (s : String) (v : Int)
    (hv : parseAbbrevInt outOfRange s = .ok v) :
    ((remainingText s).any (fun c => c = '.' || c = 'e' || c = 'E') = false
      ∧ isInt64Integer (remainingText s))
    ∨ ((remainingText s).any (fun c => c = '.' || c = 'e' || c = 'E') = true
      ∧ isFloatNumber (remainingText s)) := by
  have hrem := stripUnit_normalize s
  unfold parseAbbrevInt at hv
  by_cases h0 : s = ""
  · simp [h0] at hv
  · by_cases h1 : normalize s = []
    · simp [h0, h1] at hv
    · by_cases h2 : remainingText s = [] ∨ remainingText s = ['+'] ∨ remainingText s = ['-']
      · simp only [h0, if_false, h1, hrem, h2, if_true] at hv
        cases hv
      · simp only [h0, if_false, h1, hrem, h2] at hv
        cases hany : (remainingText s).any (fun c => c = '.' || c = 'e' || c = 'E') with
        | false =>
          simp only [hany, Bool.not_false, if_true] at hv
          cases hp : strconvParseInt (remainingText s) with
          | error k => rw [hp] at hv; cases hv
          | ok n =>
            obtain ⟨sign, digits, sg, ht, hs, hsg, hne, hd, hn, hlo, hhi⟩ :=
              parseInt_ok_shape _ _ hp
            refine Or.inl ⟨rfl, sign, digits, sg, ht, hs, hne, ?_, ?_, ?_⟩
            · intro c hc
              rw [← isDecDigit_eq_isDigit]
              exact hd c hc
            · rw [← hn]; exact hlo
            · rw [← hn]; exact hhi
        | true =>
          simp only [hany, Bool.not_true, Bool.false_eq_true, if_false] at hv
          cases hp : strconvParseFloat (remainingText s) with
          | error k => rw [hp] at hv; cases hv
          | ok f => exact Or.inr ⟨rfl, parseFloat_ok_shape _ f hp hany⟩

set_option maxRecDepth 100000 in
/-- C4, as stated, fails: the texts `1e3`, `0x1Ep0` and `1_0.5` are neither signed
integers nor signed decimals, and `parseAbbrevInt` returns 1000, 30 and 11 for them
(`strconv.ParseFloat` accepts exponents, hexadecimal floating-point numbers and
underscores between digits). -/
theorem parseAbbrevInt_accepts_exponent_and_hex :
    remainingText "1e3" = "1e3".toList
    ∧ ¬ isSignedInteger "1e3".toList ∧ ¬ isSignedDecimal "1e3".toList
    ∧ parseAbbrevInt amd64OutOfRange "1e3" = .ok 1000
    ∧ remainingText "0x1Ep0" = "0x1Ep0".toList
    ∧ ¬ isSignedInteger "0x1Ep0".toList ∧ ¬ isSignedDecimal "0x1Ep0".toList
    ∧ parseAbbrevInt amd64OutOfRange "0x1Ep0" = .ok 30
    ∧ remainingText "1_0.5" = "1_0.5".toList
    ∧ ¬ isSignedInteger "1_0.5".toList ∧ ¬ isSignedDecimal "1_0.5".toList
    ∧ parseAbbrevInt amd64OutOfRange "1_0.5" = .ok 11 := by
  have h1 := not_number_of_mem "1e3".toList 'e' (by decide) (by decide) (by decide) (by decide)
    (by decide)
  have h2 := not_number_of_mem "0x1Ep0".toList 'x' (by decide) (by decide) (by decide)
    (by decide) (by decide)
  have h3 := not_number_of_mem "1_0.5".toList '_' (by decide) (by decide) (by decide)
    (by decide) (by decide)
  exact ⟨by decide, h1.1, h1.2, by decide, by decide, h2.1, h2.2, by decide,
    by decide, h3.1, h3.2, by decide⟩

/-- C4, amended. `parseAbbrevInt` returns an error for every input that is empty,
that consists only of white space and commas, or whose text after removing white
space, commas and one trailing k/K/m/M/b/B suffix is empty or is just `+` or `-`; more
generally it fails whenever that remaining text is neither a signed integer whose
value is an `int64` nor a floating-point number as `strconv.ParseFloat` reads one: an
optional sign, then a decimal mantissa (digits around at most one point) with an
optional exponent `e`/`E`, or `0x`, a hexadecimal mantissa and an exponent `p`/`P`,
an underscore only between two digits or between `0x` and a digit. A remaining text
without `.`, `e`, `E` fails unless it is such a signed integer. A signed integer whose
value is an `int64` is a signed integer, and every signed decimal is such a
floating-point number. -/
theorem parseAbbrevInt_errors (outOfRange : F64 → Int) (s : String) :
    (s = "" → parseAbbrevInt outOfRange s = .error (.errorsNew "empty input"))
    ∧ (withoutSeparators s = [] → ∃ e, parseAbbrevInt outOfRange s = .error e)
    ∧ (remainingText s = [] ∨ remainingText s = ['+'] ∨ remainingText s = ['-'] →
        ∃ e, parseAbbrevInt outOfRange s = .error e)
    ∧ (¬ isInt64Integer (remainingText s) → ¬ isFloatNumber (remainingText s) →
        ∃ e, parseAbbrevInt outOfRange s = .error e)
    ∧ ((remainingText s).any (fun c => c = '.' || c = 'e' || c = 'E') = false →
        ¬ isInt64Integer (remainingText s) → ∃ e, parseAbbrevInt outOfRange s = .error e)
    ∧ (isInt64Integer (remainingText s) → isSignedInteger (remainingText s))
    ∧ (isSignedDecimal (remainingText s) → isFloatNumber (remainingText s)) := by
  have hrem := stripUnit_normalize s
  have hnorm := normalize_eq s
  refine ⟨?_, ?_, ?_, ?_, ?_, ?_, signedDecimal_isFloatNumber _⟩
  · intro h
    simp [parseAbbrevInt, h]
  · intro h
    by_cases h0 : s = ""
    · exact ⟨.errorsNew "empty input", by simp [parseAbbrevInt, h0]⟩
    · exact ⟨.errorsNew "no digits", by simp [parseAbbrevInt, h0, hnorm, h]⟩
  · intro h
    by_cases h0 : s = ""
    · exact ⟨.errorsNew "empty input", by simp [parseAbbrevInt, h0]⟩
    · by_cases h1 : normalize s = []
      · exact ⟨.errorsNew "no digits", by simp [parseAbbrevInt, h0, h1]⟩
      · refine ⟨.errorsNew "invalid number", ?_⟩
        unfold parseAbbrevInt
        simp only [h0, if_false, h1, hrem, h, if_true]
  · intro hint hflt
    cases hres : parseAbbrevInt outOfRange s with
    | error e => exact ⟨e, rfl⟩
    | ok v =>
      exfalso
      rcases parseAbbrevInt_ok_shape outOfRange s v hres with ⟨_, h⟩ | ⟨_, h⟩
      · exact hint h
      · exact hflt h
  · intro hany hint
    cases hres : parseAbbrevInt outOfRange s with
    | error e => exact ⟨e, rfl⟩
    | ok v =>
      exfalso
      rcases parseAbbrevInt_ok_shape outOfRange s v hres with ⟨_, h⟩ | ⟨h, _⟩
      · exact hint h
      · rw [hany] at h; cases h
  · rintro ⟨sign, digits, sg, ht, hs, hne, hd, _, _⟩
    refine ⟨sign, digits, ht, ?_, hne, hd⟩
    unfold signOf at hs
    by_cases e0 : sign = [] ∨ sign = ['+']
    · rcases e0 with e | e
      · exact Or.inl e
      · exact Or.inr (Or.inl e)
    · simp only [e0, if_false] at hs
      by_cases e2 : sign = ['-']
      · exact Or.inr (Or.inr e2)
      · simp [e2] at hs

set_option maxRecDepth 100000 in
/-- C4, examples: the inputs `+K`, ` , ` and the empty input are errors, and so are
`1.2.3`, `x.y.z`, `.`, `_1.5`, `1__0.5` and `1_.5`, which reach `strconv.ParseFloat`. -/
theorem parseAbbrevInt_errors_examples :
    parseAbbrevInt amd64OutOfRange "+K" = .error (.errorsNew "invalid number")
    ∧ parseAbbrevInt amd64OutOfRange " , " = .error (.errorsNew "no digits")
    ∧ parseAbbrevInt amd64OutOfRange "" = .error (.errorsNew "empty input")
    ∧ parseAbbrevInt amd64OutOfRange "1.2.3"
        = .error (.numError "ParseFloat" "1.2.3" .ErrSyntax)
    ∧ parseAbbrevInt amd64OutOfRange "x.y.z"
        = .error (.numError "ParseFloat" "x.y.z" .ErrSyntax)
    ∧ parseAbbrevInt amd64OutOfRange "." = .error (.numError "ParseFloat" "." .ErrSyntax)
    ∧ parseAbbrevInt amd64OutOfRange "_1.5"
        = .error (.numError "ParseFloat" "_1.5" .ErrSyntax)
    ∧ parseAbbrevInt amd64OutOfRange "1__0.5"
        = .error (.numError "ParseFloat" "1__0.5" .ErrSyntax)
    ∧ parseAbbrevInt amd64OutOfRange "1_.5"
        = .error (.numError "ParseFloat" "1_.5" .ErrSyntax)
    ∧ ∃ e, parseAbbrevInt amd64OutOfRange "+K" = .error e :=
  ⟨by decide, by decide, by decide, by decide, by decide, by decide, by decide, by decide,
    by decide, (parseAbbrevInt_errors amd64OutOfRange "+K").2.2.1 (by decide)⟩

/-! ## Duration text -/

theorem digitChar_digit (k : Nat) (h : k < 10) :
    (Nat.digitChar k).isDigit = true ∧ decVal (Nat.digitChar k) = k
    ∧ (Nat.digitChar k = '0' → k = 0) := by
  interval_cases k <;> refine ⟨by rfl, by rfl, by decide⟩

theorem natVal_snoc (ds : List Char) (c : Char) :
    natVal (ds ++ [c]) = natVal ds * 10 + decVal c := by
  simp [natVal, List.foldl_append]

theorem toDigitsCore_numeral (fuel n : Nat) (ds : List Char) (h : n < fuel) :
    ∃ pre, Nat.toDigitsCore 10 fuel n ds = pre ++ ds ∧ isDecimalNumeral pre n := by
  induction fuel generalizing n ds with
  | zero => omega
  | succ fuel ih =>
    obtain ⟨hd, hv, hz⟩ := digitChar_digit (n % 10) (Nat.mod_lt _ (by decide))
    unfold Nat.toDigitsCore
    by_cases h0 : n / 10 = 0
    · have hn : n % 10 = n := by omega
      refine ⟨[Nat.digitChar (n % 10)], by simp [h0], by simp, ?_, ?_, ?_⟩
      · intro c hc
        simp at hc
        rw [hc]; exact hd
      · intro hh
        simp at hh
        rw [hh]
      · show 0 * 10 + decVal (Nat.digitChar (n % 10)) = n
        omega
    · obtain ⟨pre, hpre, hne, hdig, hlead, hval⟩ :=
        ih (n / 10) (Nat.digitChar (n % 10) :: ds) (by omega)
      refine ⟨pre ++ [Nat.digitChar (n % 10)], by simp [h0, hpre], by simp, ?_, ?_, ?_⟩
      · intro c hc
        rcases List.mem_append.1 hc with hc | hc
        · exact hdig c hc
        · simp at hc
          rw [hc]; exact hd
      · intro hh
        exfalso
        cases pre with
        | nil => exact hne rfl
        | cons a pre =>
          simp at hh
          have := hlead (by simp [hh])
          rw [this] at hval
          simp [natVal, decVal] at hval
          omega
      · rw [natVal_snoc, hval, hv]
        omega

theorem repr_numeral (n : Nat) : ∃ ds, Nat.repr n = String.mk ds ∧ isDecimalNumeral ds n := by
  obtain ⟨pre, hpre, h⟩ := toDigitsCore_numeral (n + 1) n [] (by omega)
  refine ⟨pre, ?_, h⟩
  simp [Nat.repr, Nat.toDigits, hpre, List.asString]

theorem fmtInt_numeral (n : Nat) : ∃ ds, fmtInt (n : Int) = String.mk ds ∧ isDecimalNumeral ds n := by
  unfold fmtInt
  rw [if_neg (by omega)]
  simpa using repr_numeral n

theorem duration_text (m : Int) (h : 0 ≤ m) : isDurationText (Search.duration m) m := by
  obtain ⟨n, rfl⟩ := Int.eq_ofNat_of_zero_le h
  have h60 : (0 : Int) ≤ 60 := by norm_num
  have e1 : Int.tdiv (n : Int) 60 = ((n / 60 : Nat) : Int) := by
    rw [Int.tdiv_eq_ediv h h60]; norm_cast
  have e2 : Int.tmod (n : Int) 60 = ((n % 60 : Nat) : Int) := by
    rw [Int.tmod_eq_emod h h60]; norm_cast
  obtain ⟨hs, hhs, hnum⟩ := fmtInt_numeral (n / 60)
  obtain ⟨ms, hms, mnum⟩ := fmtInt_numeral (n % 60)
  refine ⟨n / 60, n % 60, hs, ms, ?_, hnum, mnum, by norm_cast, by norm_cast, ?_, ?_⟩
  · simp only [Search.duration, e1, e2, hhs, hms]
    rfl
  · norm_cast; omega
  · exact Nat.mod_lt _ (by decide)

theorem slices_flights (outOfRange : F64 → Int) (clock : String → Option String)
    (passengers : Int) (productType : String) (redeemPoints : Bool)
    (slices : List responseSlice) (acc flights : List Flight)
    (h : Search.slices outOfRange clock passengers productType redeemPoints slices acc
      = .ok flights) :
    ∃ kept new, kept.Sublist slices ∧ (redeemPoints = true → kept = slices)
      ∧ flights = acc ++ new
      ∧ List.Forall₂ (fun slice f =>
          Search.segments clock slice.Segments [] = .ok f.Segments
          ∧ f.TotalDuration = Search.duration slice.DurationInMinutes) kept new := by
  induction slices generalizing acc with
  | nil =>
    simp only [Search.slices, Except.ok.injEq] at h
    exact ⟨[], [], List.Sublist.refl _, fun _ => rfl, by simp [h], List.Forall₂.nil⟩
  | cons slice slices ih =>
    unfold Search.slices at h
    cases hseg : Search.segments clock slice.Segments [] with
    | error e => simp [hseg] at h
    | ok segs =>
      simp only [hseg] at h
      cases redeemPoints with
      | true =>
        simp only [if_true] at h
        cases hp : parseAbbrevInt outOfRange slice.CheapestPrice.PerPassengerPrice with
        | error e => simp [hp] at h
        | ok pts =>
          simp only [hp] at h
          obtain ⟨kept, new, hsub, hall, hfl, hrel⟩ := ih _ h
          rw [List.append_assoc, List.singleton_append] at hfl
          exact ⟨slice :: kept, _, hsub.cons₂ _, fun _ => (by rw [hall rfl]), hfl,
            List.Forall₂.cons ⟨hseg, rfl⟩ hrel⟩
      | false =>
        simp only [Bool.false_eq_true, if_false] at h
        split at h
        · obtain ⟨kept, new, hsub, _, hfl, hrel⟩ := ih _ h
          exact ⟨kept, new, hsub.cons _, fun hh => absurd hh (by decide), hfl, hrel⟩
        · obtain ⟨kept, new, hsub, _, hfl, hrel⟩ := ih _ h
          rw [List.append_assoc, List.singleton_append] at hfl
          exact ⟨slice :: kept, _, hsub.cons₂ _, fun hh => absurd hh (by decide), hfl,
            List.Forall₂.cons ⟨hseg, rfl⟩ hrel⟩

/-- C11. When `Search` returns, its flights are, in order, those of the slices it kept
(all of them in a points search), and for every kept slice with
`durationInMinutes = m >= 0` the `TotalDuration` of its flight is the decimal numeral of
`m / 60`, then `h` and a blank, then the decimal numeral of `m % 60`, then `m`, where
`60 * hours + minutes = m` and `minutes < 60`. -/
theorem search_total_duration (outOfRange : F64 → Int) (clock : String → Option String)
    (passengers : Int) (productType : String) (redeemPoints : Bool)
    (slices : List responseSlice) (flights : List Flight)
    (h : Client.Search outOfRange clock (.ok slices) passengers productType redeemPoints
      = .ok flights) :
    ∃ kept, kept.Sublist slices ∧ (redeemPoints = true → kept = slices)
      ∧ List.Forall₂ (fun slice f =>
          Search.segments clock slice.Segments [] = .ok f.Segments
          ∧ f.TotalDuration = Search.duration slice.DurationInMinutes
          ∧ (0 ≤ slice.DurationInMinutes →
              isDurationText f.TotalDuration slice.DurationInMinutes)) kept flights := by
  obtain ⟨kept, new, hsub, hall, hfl, hrel⟩ :=
    slices_flights outOfRange clock passengers productType redeemPoints slices [] flights h
  rw [List.nil_append] at hfl
  subst hfl
  refine ⟨kept, hsub, hall, ?_⟩
  refine hrel.imp ?_
  rintro slice f ⟨h1, h2⟩
  exact ⟨h1, h2, fun h0 => by rw [h2]; exact duration_text _ h0⟩

set_option maxRecDepth 100000 in
/-- C11, witness: a cash search over a slice of 125 minutes and a slice of 59 minutes
gives flights with the durations `2h 5m` and `0h 59m`. -/
theorem search_total_duration_witness :
    Client.Search amd64OutOfRange exampleClock (.ok [sliceOfDuration 125, sliceOfDuration 59])
        1 "COACH" false
      = .ok [flightOfDuration "2h 5m", flightOfDuration "0h 59m"]
    ∧ ∃ kept, kept.Sublist [sliceOfDuration 125, sliceOfDuration 59]
      ∧ ((false : Bool) = true → kept = [sliceOfDuration 125, sliceOfDuration 59])
      ∧ List.Forall₂ (fun (slice : responseSlice) (f : Flight) =>
          Search.segments exampleClock slice.Segments [] = .ok f.Segments
          ∧ f.TotalDuration = Search.duration slice.DurationInMinutes
          ∧ (0 ≤ slice.DurationInMinutes →
              isDurationText f.TotalDuration slice.DurationInMinutes)) kept
          [flightOfDuration "2h 5m", flightOfDuration "0h 59m"] :=
  ⟨by decide,
    search_total_duration amd64OutOfRange exampleClock 1 "COACH" false
      [sliceOfDuration 125, sliceOfDuration 59]
      [flightOfDuration "2h 5m", flightOfDuration "0h 59m"] (by decide)⟩

end Flyaa
